import Mathlib

/-!
Verification of the matryoshka tree (B+ tree with nested cache-line
sub-trees inside 4 KiB leaf pages) against its natural-language
specification.

The definitions below are a shallow embedding of the C sources:
  - leaf.c   (page-level CL sub-tree operations)
  - matryoshka.c (outer B+ tree: bulk load, search, insert, delete,
    iteration)
  - matryoshka_internal.h (constants, pointer tagging)
  - hierarchy.c (derived capacity computation)

Machine integers: keys are int32_t in C and are carried as `Int` here
(every key operation is a comparison or a copy; no key arithmetic is
performed anywhere, so no overflow is reachable).  Counts and slot
indices are `Nat`.  Bitmaps are `Nat` viewed through `Nat.testBit`
(the C uint64 bitmap never has bits above 63 set).  SIMD predecessor /
child-index primitives are embedded by their scalar semantics, which
all of the AVX-512 / AVX2 / SSE2 variants in the source compute
(position of the first set bit of the "greater than query" mask).
-/

set_option maxRecDepth 100000

namespace Matryoshka

/-- Constants from matryoshka_internal.h. -/
def MT_CL_KEY_CAP : Nat := 15

def MT_CL_MIN_KEYS : Nat := 7

def MT_CL_SEP_CAP : Nat := 12

def MT_CL_CHILD_CAP : Nat := 13

def MT_CL_MIN_CHILDREN : Nat := 7

def MT_PAGE_SLOTS : Nat := 63

def MT_MAX_IKEYS : Nat := 339

def MT_MIN_IKEYS : Nat := MT_MAX_IKEYS / 2

def MT_KEY_MAX : Int := 2147483647

def INT32_MIN : Int := -2147483648

/-- Status codes for page-level operations (mt_status_t). -/
inductive MtStatus where
  | ok
  | duplicate
  | notFound
  | pageFull
  | underflow
  deriving DecidableEq, Repr

/-- A CL leaf sub-node: up to 15 sorted int32 keys.
    The C struct stores a fixed 15-entry array plus a count; the list
    holds exactly the first `nkeys` entries. -/
structure CLLeaf where
  keys : List Int
  deriving DecidableEq, Repr

/-- A CL internal sub-node: up to 12 separators and 13 child slot
    indices (children.length = keys.length + 1 for well-formed nodes). -/
structure CLInode where
  keys : List Int
  children : List Nat
  deriving DecidableEq, Repr

/-- One 64-byte CL slot of a page (tagged by the type byte). -/
inductive CLSlot where
  | free
  | leaf (cl : CLLeaf)
  | inode (cl : CLInode)
  deriving DecidableEq, Repr

/-- View a slot as a CL leaf (C reads the leaf fields through the
    union; on a well-formed page the discriminant always matches). -/
def CLSlot.asLeaf : CLSlot → CLLeaf
  | .leaf cl => cl
  | _ => ⟨[]⟩

/-- View a slot as a CL internal. -/
def CLSlot.asInode : CLSlot → CLInode
  | .inode cl => cl
  | _ => ⟨[], []⟩

/-- Discriminant test: slot holds a CL internal (s->type == MT_CL_INTERNAL). -/
def CLSlot.isInternal : CLSlot → Bool
  | .inode _ => true
  | _ => false

/-- Binary search step of cl_leaf_lower_bound, with fuel.
    Mirrors: while (lo < hi) mid = lo+(hi-lo)/2; keys[mid] < key ? lo=mid+1 : hi=mid. -/
def lowerBoundAux (keys : List Int) (key : Int) : Nat → Nat → Nat → Nat
  | lo, _, 0 => lo
  | lo, hi, fuel + 1 =>
    if lo < hi then
      let mid := lo + (hi - lo) / 2
      if keys.getD mid 0 < key then lowerBoundAux keys key (mid + 1) hi fuel
      else lowerBoundAux keys key lo mid fuel
    else lo

/-- cl_leaf_lower_bound: binary search for the insertion point of `key`:
    the first index whose key is ≥ `key`, or nkeys. -/
def cl_leaf_lower_bound (cl : CLLeaf) (key : Int) : Nat :=
  lowerBoundAux cl.keys key 0 cl.keys.length cl.keys.length

/-- cl_leaf_predecessor: index of the largest key ≤ `key`, or -1 if none.
    Scalar semantics of the SIMD code: position of the first key > `key`,
    minus one; n-1 when no key exceeds `key`; -1 for the empty leaf. -/
def cl_leaf_predecessor (cl : CLLeaf) (key : Int) : Int :=
  if cl.keys.length = 0 then -1
  else
    match cl.keys.findIdx? (fun x => key < x) with
    | some i => (i : Int) - 1
    | none => (cl.keys.length : Int) - 1

/-- cl_leaf_insert: sorted insert via shift.
    Returns 0 on success, -1 if duplicate, -2 if full. -/
def cl_leaf_insert (cl : CLLeaf) (key : Int) : Int × CLLeaf :=
  let pos := cl_leaf_lower_bound cl key
  if pos < cl.keys.length ∧ cl.keys.getD pos 0 = key then (-1, cl)
  else if MT_CL_KEY_CAP ≤ cl.keys.length then (-2, cl)
  else (0, ⟨cl.keys.take pos ++ key :: cl.keys.drop pos⟩)

/-- cl_leaf_delete: returns 0 on success, -1 if not found. -/
def cl_leaf_delete (cl : CLLeaf) (key : Int) : Int × CLLeaf :=
  let pos := cl_leaf_lower_bound cl key
  if cl.keys.length ≤ pos ∨ ¬ cl.keys.getD pos 0 = key then (-1, cl)
  else (0, ⟨cl.keys.take pos ++ cl.keys.drop (pos + 1)⟩)

/-- cl_leaf_split: move the upper half of `left` into a fresh right
    leaf; returns (separator, new left, new right).  The separator is
    right->keys[0]. -/
def cl_leaf_split (left : CLLeaf) : Int × CLLeaf × CLLeaf :=
  let total := left.keys.length
  let left_n := total / 2
  let rightKeys := left.keys.drop left_n
  (rightKeys.getD 0 0, ⟨left.keys.take left_n⟩, ⟨rightKeys⟩)

/-- cl_inode_search: child index for `key` — the first separator index
    whose key exceeds `key`, else nkeys.  Scalar semantics of the SIMD
    variants. -/
def cl_inode_search (cl : CLInode) (key : Int) : Nat :=
  (cl.keys.findIdx? (fun x => key < x)).getD cl.keys.length

/-- cl_inode_insert_at: insert separator `key` at `pos` and right child
    at `pos + 1`.  Caller guarantees room. -/
def cl_inode_insert_at (cl : CLInode) (pos : Nat) (key : Int)
    (right_child : Nat) : CLInode :=
  ⟨cl.keys.take pos ++ key :: cl.keys.drop pos,
   cl.children.take (pos + 1) ++ right_child :: cl.children.drop (pos + 1)⟩

/-- cl_inode_remove_at: remove the separator at `pos` and the child at
    `pos + 1`. -/
def cl_inode_remove_at (cl : CLInode) (pos : Nat) : CLInode :=
  ⟨cl.keys.take pos ++ cl.keys.drop (pos + 1),
   cl.children.take (pos + 1) ++ cl.children.drop (pos + 2)⟩

/-- cl_inode_split: split a CL internal, promoting the median.
    Returns (median, new left, new right). -/
def cl_inode_split (left : CLInode) : Int × CLInode × CLInode :=
  let total := left.keys.length
  let left_n := total / 2
  let median := left.keys.getD left_n 0
  (median,
   ⟨left.keys.take left_n, left.children.take (left_n + 1)⟩,
   ⟨left.keys.drop (left_n + 1), left.children.drop (left_n + 1)⟩)

/-- Hierarchy configuration (mt_hierarchy_t): the fields the embedded
    operations read.  The fixed CL capacities are the constants above. -/
structure Hierarchy where
  leaf_alloc : Nat
  page_max_keys : Nat
  min_page_keys : Nat
  use_superpages : Bool
  sp_max_keys : Nat
  min_sp_keys : Nat
  deriving DecidableEq, Repr

/-- compute_page_max_keys from hierarchy.c: the maximum number of keys
    fitting in `page_slots` CL slots arranged as a B+ sub-tree. -/
def compute_page_max_keys (cl_key_cap cl_child_cap page_slots : Nat) : Nat :=
  let best := cl_key_cap
  let h1_leaves := if page_slots < 1 + cl_child_cap then page_slots - 1
                   else cl_child_cap
  let best := max best (h1_leaves * cl_key_cap)
  (List.range cl_child_cap).foldl (fun best m0 =>
    let m := m0 + 1
    if 1 + m < page_slots then
      let max_n := min (page_slots - 1 - m) (m * cl_child_cap)
      max best (max_n * cl_key_cap)
    else best) best

/-- Modelled from the spec: the default-hierarchy factory
    (mt_hierarchy_init_default) of the superpage-capable build is not
    among the sources; hierarchy.c in the sources computes
    page_max_keys with compute_page_max_keys and sets
    min_page_keys = page_max_keys / 4 ("typically one quarter of page
    capacity", spec section 4.C), and the spec fixes the default to
    4 KiB page leaves, no superpages (spec section 6: leaf_alloc 4096,
    use_superpages false; sp_max_keys ~436K analogous). -/
def mt_hierarchy_init_default : Hierarchy :=
  let pmk := compute_page_max_keys MT_CL_KEY_CAP MT_CL_CHILD_CAP MT_PAGE_SLOTS
  { leaf_alloc := 4096
    page_max_keys := pmk
    min_page_keys := pmk / 4
    use_superpages := false
    sp_max_keys := 510 * pmk
    min_sp_keys := 510 * pmk / 4 }

/-- A 4 KiB leaf page: header fields plus 63 CL slots.
    `slots[i]` holds C slot index `i + 1` (slot 0 is the header).
    The prev/next leaf-chain pointers live in the tree-level store. -/
structure Page where
  nkeys : Nat
  root_slot : Nat
  sub_height : Nat
  nslots_used : Nat
  slot_bitmap : Nat
  slots : List CLSlot
  deriving DecidableEq, Repr

/-- get_slot: 1-based CL slot access. -/
def getSlot (p : Page) (slot : Nat) : CLSlot :=
  p.slots.getD (slot - 1) .free

/-- Overwrite a CL slot (C writes through the slot pointer). -/
def setSlot (p : Page) (slot : Nat) (s : CLSlot) : Page :=
  { p with slots := p.slots.set (slot - 1) s }

/-- slot_alloc: lowest clear bit of ~slot_bitmap & ~1 within bits 1–63,
    marking it used; 0 when the page is out of slots (the C returns 0
    without mutating in that case). -/
def slot_alloc (p : Page) : Nat × Page :=
  match (List.range 64).find?
      (fun i => decide (0 < i) && ! p.slot_bitmap.testBit i) with
  | none => (0, p)
  | some slot =>
    (slot, { p with slot_bitmap := p.slot_bitmap ||| 2 ^ slot,
                    nslots_used := p.nslots_used + 1 })

/-- Clear bit `i` of a bitmap (C: m &= ~(1 << i) on uint64). -/
def clearBit (m i : Nat) : Nat :=
  if m.testBit i then m - 2 ^ i else m

/-- slot_free: release a CL slot back to the bitmap. -/
def slot_free (p : Page) (slot : Nat) : Page :=
  { p with slot_bitmap := clearBit p.slot_bitmap slot,
           nslots_used := p.nslots_used - 1 }

/-- One entry of the recorded descent path inside a page
    (mt_sub_path_t: internal slot visited, child index taken). -/
structure SubPath where
  slot : Nat
  child_idx : Nat
  deriving DecidableEq, Repr

/-- Descent loop of page_find_leaf: walk `h` levels down from `slot`,
    recording (slot, child index) per internal visited. -/
def findLeafAux (p : Page) (key : Int) : Nat → Nat → Nat × List SubPath
  | slot, 0 => (slot, [])
  | slot, h + 1 =>
    let cl := (getSlot p slot).asInode
    let ci := cl_inode_search cl key
    let child := cl.children.getD ci 0
    let r := findLeafAux p key child h
    (r.1, ⟨slot, ci⟩ :: r.2)

/-- page_find_leaf: slot of the CL leaf that covers `key`, plus the
    recorded path (default strategy; the fence/Eytzinger fast paths of
    the strategy-aware build are behaviour-equal and disabled in the
    default hierarchy). -/
def page_find_leaf (p : Page) (key : Int) : Nat × List SubPath :=
  findLeafAux p key p.root_slot p.sub_height

/-- Descend the rightmost spine from `slot` (while the slot is a CL
    internal, follow children[nkeys]).  Fuel bounds the walk as the
    C recursion depth is bounded by the sub-tree height. -/
def descendRightmost (p : Page) : Nat → Nat → CLSlot
  | slot, 0 => getSlot p slot
  | slot, fuel + 1 =>
    match getSlot p slot with
    | .inode cl => descendRightmost p (cl.children.getD cl.keys.length 0) fuel
    | s => s

/-- Descend the leftmost spine from `slot` (follow children[0]). -/
def descendLeftmost (p : Page) : Nat → Nat → CLSlot
  | slot, 0 => getSlot p slot
  | slot, fuel + 1 =>
    match getSlot p slot with
    | .inode cl => descendLeftmost p (cl.children.getD 0 0) fuel
    | s => s

/-- Walk-left loop of mt_page_search_key over the reversed path: at the
    first (deepest) ancestor entered through child index > 0, descend
    the rightmost spine of the previous sibling and return its last
    key; the C breaks (returns nothing) if that CL leaf is empty. -/
def searchWalkLeft (p : Page) : List SubPath → Option Int
  | [] => none
  | e :: rest =>
    if 0 < e.child_idx then
      let parent := (getSlot p e.slot).asInode
      let s := parent.children.getD (e.child_idx - 1) 0
      let cl := (descendRightmost p s 64).asLeaf
      if 0 < cl.keys.length then some (cl.keys.getD (cl.keys.length - 1) 0)
      else none
    else searchWalkLeft p rest

/-- mt_page_search_key: predecessor of `key` within the page sub-tree
    (bool + out parameter in C, an Option here). -/
def mt_page_search_key (p : Page) (key : Int) : Option Int :=
  if p.nkeys = 0 then none
  else
    let fl := page_find_leaf p key
    let cl := (getSlot p fl.1).asLeaf
    let pos := cl_leaf_predecessor cl key
    if 0 ≤ pos then some (cl.keys.getD pos.toNat 0)
    else searchWalkLeft p fl.2.reverse

/-- mt_page_contains: membership inside a page. -/
def mt_page_contains (p : Page) (key : Int) : Bool :=
  if p.nkeys = 0 then false
  else
    let fl := page_find_leaf p key
    let cl := (getSlot p fl.1).asLeaf
    let pos := cl_leaf_lower_bound cl key
    decide (pos < cl.keys.length) && decide (cl.keys.getD pos 0 = key)

/-- Upward split propagation of mt_page_insert over the reversed path.
    At each CL internal: room → cl_inode_insert_at and stop; full →
    allocate a slot (0 → MT_PAGE_FULL), rebuild both halves from the
    virtually merged arrays, promote the middle key, continue.  When
    the path is exhausted, allocate a new CL root. -/
def insertPropagate (p : Page) : List SubPath → Int → Nat → MtStatus × Page
  | [], sep, right_slot =>
    let ar := slot_alloc p
    if ar.1 = 0 then (.pageFull, ar.2)
    else
      let pg := setSlot ar.2 ar.1 (.inode ⟨[sep], [ar.2.root_slot, right_slot]⟩)
      (.ok, { pg with root_slot := ar.1, sub_height := pg.sub_height + 1 })
  | e :: rest, sep, right_slot =>
    let parent := (getSlot p e.slot).asInode
    if parent.keys.length < MT_CL_SEP_CAP then
      (.ok, setSlot p e.slot
        (.inode (cl_inode_insert_at parent e.child_idx sep right_slot)))
    else
      let ar := slot_alloc p
      if ar.1 = 0 then (.pageFull, ar.2)
      else
        let pn := parent.keys.length
        let ci := e.child_idx
        let all_keys := parent.keys.take ci ++ sep :: parent.keys.drop ci
        let all_children := parent.children.take (ci + 1) ++
          right_slot :: parent.children.drop (ci + 1)
        let left_n := (pn + 1) / 2
        let sep2 := all_keys.getD left_n 0
        let pg := setSlot ar.2 e.slot
          (.inode ⟨all_keys.take left_n, all_children.take (left_n + 1)⟩)
        let pg := setSlot pg ar.1
          (.inode ⟨all_keys.drop (left_n + 1), all_children.drop (left_n + 1)⟩)
        insertPropagate pg rest sep2 ar.1

/-- mt_page_insert: insert a key into the page sub-tree.
    Returns MT_OK, MT_DUPLICATE or MT_PAGE_FULL together with the page. -/
def mt_page_insert (p : Page) (key : Int) : MtStatus × Page :=
  let fl := page_find_leaf p key
  let leaf_slot := fl.1
  let cl := (getSlot p leaf_slot).asLeaf
  if cl.keys.length < MT_CL_KEY_CAP then
    let r := cl_leaf_insert cl key
    if r.1 = -1 then (.duplicate, p)
    else (.ok, { setSlot p leaf_slot (.leaf r.2) with nkeys := p.nkeys + 1 })
  else
    let pos := cl_leaf_lower_bound cl key
    if pos < cl.keys.length ∧ cl.keys.getD pos 0 = key then (.duplicate, p)
    else
      let ar := slot_alloc p
      if ar.1 = 0 then (.pageFull, ar.2)
      else
        let sp := cl_leaf_split cl
        let halves :=
          if key < sp.1 then ((cl_leaf_insert sp.2.1 key).2, sp.2.2)
          else (sp.2.1, (cl_leaf_insert sp.2.2 key).2)
        let pg := setSlot ar.2 leaf_slot (.leaf halves.1)
        let pg := setSlot pg ar.1 (.leaf halves.2)
        let pg := { pg with nkeys := pg.nkeys + 1 }
        insertPropagate pg fl.2.reverse sp.1 ar.1

/-- Is the slot a CL leaf (cur->type == MT_CL_LEAF)? -/
def CLSlot.isLeafT : CLSlot → Bool
  | .leaf _ => true
  | _ => false

/-- Bottom-up rebalance loop of mt_page_delete over the reversed path.
    `cur_slot` is the slot of the underfull node at the current level:
    the CL leaf first, then the parent of the merged level.  A break in
    the C (redistribution done, or no underflow) returns the page. -/
def deleteRebalance (p : Page) : List SubPath → Nat → Page
  | [], _ => p
  | e :: rest, cur_slot =>
    let parent := (getSlot p e.slot).asInode
    let cidx := e.child_idx
    let cur := getSlot p cur_slot
    let cur_nkeys := if cur.isLeafT then cur.asLeaf.keys.length
                     else cur.asInode.keys.length
    let min_keys := if cur.isLeafT then MT_CL_MIN_KEYS
                    else MT_CL_MIN_CHILDREN - 1
    if min_keys ≤ cur_nkeys then p
    else if cur.isLeafT then
      -- CL leaf underflow
      let redistL :=
        if 0 < cidx then
          let left_slot_idx := parent.children.getD (cidx - 1) 0
          let left := (getSlot p left_slot_idx).asLeaf
          if MT_CL_MIN_KEYS < left.keys.length then
            let moved := left.keys.getD (left.keys.length - 1) 0
            let left' : CLLeaf := ⟨left.keys.take (left.keys.length - 1)⟩
            let cur' := (cl_leaf_insert cur.asLeaf moved).2
            let parent' : CLInode :=
              ⟨parent.keys.set (cidx - 1) (cur'.keys.getD 0 0), parent.children⟩
            some (setSlot (setSlot (setSlot p left_slot_idx (.leaf left'))
              cur_slot (.leaf cur')) e.slot (.inode parent'))
          else none
        else none
      match redistL with
      | some p' => p'
      | none =>
        let redistR :=
          if cidx < parent.keys.length then
            let right_slot_idx := parent.children.getD (cidx + 1) 0
            let right := (getSlot p right_slot_idx).asLeaf
            if MT_CL_MIN_KEYS < right.keys.length then
              let moved := right.keys.getD 0 0
              let right' := (cl_leaf_delete right moved).2
              let cur' := (cl_leaf_insert cur.asLeaf moved).2
              let parent' : CLInode :=
                ⟨parent.keys.set cidx (right'.keys.getD 0 0), parent.children⟩
              some (setSlot (setSlot (setSlot p right_slot_idx (.leaf right'))
                cur_slot (.leaf cur')) e.slot (.inode parent'))
            else none
          else none
        match redistR with
        | some p' => p'
        | none =>
          -- merge CL leaves, then continue the loop one level up
          let p' :=
            if 0 < cidx then
              let left_slot_idx := parent.children.getD (cidx - 1) 0
              let left := (getSlot p left_slot_idx).asLeaf
              let left' : CLLeaf := ⟨left.keys ++ cur.asLeaf.keys⟩
              let pg := setSlot p left_slot_idx (.leaf left')
              let pg := slot_free pg cur_slot
              setSlot pg e.slot (.inode (cl_inode_remove_at parent (cidx - 1)))
            else
              let right_slot_idx := parent.children.getD (cidx + 1) 0
              let right := (getSlot p right_slot_idx).asLeaf
              let cur' : CLLeaf := ⟨cur.asLeaf.keys ++ right.keys⟩
              let pg := setSlot p cur_slot (.leaf cur')
              let pg := slot_free pg right_slot_idx
              setSlot pg e.slot (.inode (cl_inode_remove_at parent cidx))
          deleteRebalance p' rest e.slot
    else
      -- CL internal underflow
      let rotR :=
        if 0 < cidx then
          let left_slot_idx := parent.children.getD (cidx - 1) 0
          let left := (getSlot p left_slot_idx).asInode
          if MT_CL_MIN_CHILDREN - 1 < left.keys.length then
            let cur' : CLInode :=
              ⟨parent.keys.getD (cidx - 1) 0 :: cur.asInode.keys,
               left.children.getD left.keys.length 0 :: cur.asInode.children⟩
            let parent' : CLInode :=
              ⟨parent.keys.set (cidx - 1) (left.keys.getD (left.keys.length - 1) 0),
               parent.children⟩
            let left' : CLInode :=
              ⟨left.keys.take (left.keys.length - 1),
               left.children.take left.keys.length⟩
            some (setSlot (setSlot (setSlot p cur_slot (.inode cur'))
              e.slot (.inode parent')) left_slot_idx (.inode left'))
          else none
        else none
      match rotR with
      | some p' => p'
      | none =>
        let rotL :=
          if cidx < parent.keys.length then
            let right_slot_idx := parent.children.getD (cidx + 1) 0
            let right := (getSlot p right_slot_idx).asInode
            if MT_CL_MIN_CHILDREN - 1 < right.keys.length then
              let cur' : CLInode :=
                ⟨cur.asInode.keys ++ [parent.keys.getD cidx 0],
                 cur.asInode.children ++ [right.children.getD 0 0]⟩
              let parent' : CLInode :=
                ⟨parent.keys.set cidx (right.keys.getD 0 0), parent.children⟩
              let right' : CLInode := ⟨right.keys.drop 1, right.children.drop 1⟩
              some (setSlot (setSlot (setSlot p cur_slot (.inode cur'))
                e.slot (.inode parent')) right_slot_idx (.inode right'))
            else none
          else none
        match rotL with
        | some p' => p'
        | none =>
          -- merge CL internals, then continue
          let p' :=
            if 0 < cidx then
              let left_slot_idx := parent.children.getD (cidx - 1) 0
              let left := (getSlot p left_slot_idx).asInode
              let left' : CLInode :=
                ⟨left.keys ++ parent.keys.getD (cidx - 1) 0 :: cur.asInode.keys,
                 left.children ++ cur.asInode.children⟩
              let pg := setSlot p left_slot_idx (.inode left')
              let pg := slot_free pg cur_slot
              setSlot pg e.slot (.inode (cl_inode_remove_at parent (cidx - 1)))
            else
              let right_slot_idx := parent.children.getD (cidx + 1) 0
              let right := (getSlot p right_slot_idx).asInode
              let cur' : CLInode :=
                ⟨cur.asInode.keys ++ parent.keys.getD cidx 0 :: right.keys,
                 cur.asInode.children ++ right.children⟩
              let pg := setSlot p cur_slot (.inode cur')
              let pg := slot_free pg right_slot_idx
              setSlot pg e.slot (.inode (cl_inode_remove_at parent cidx))
          deleteRebalance p' rest e.slot

/-- Root-collapse check at the end of mt_page_delete: a CL internal
    root left with 0 keys is replaced by its sole child. -/
def pageRootCollapse (p : Page) : Page :=
  match getSlot p p.root_slot with
  | .inode cl =>
    if cl.keys.length = 0 ∧ 0 < p.sub_height then
      { slot_free p p.root_slot with
        root_slot := cl.children.getD 0 0, sub_height := p.sub_height - 1 }
    else p
  | _ => p

/-- mt_page_delete: delete a key from the page sub-tree.
    Returns MT_OK, MT_NOT_FOUND or MT_UNDERFLOW together with the page. -/
def mt_page_delete (p : Page) (key : Int) (hier : Hierarchy) :
    MtStatus × Page :=
  let fl := page_find_leaf p key
  let leaf_slot := fl.1
  let cl := (getSlot p leaf_slot).asLeaf
  let r := cl_leaf_delete cl key
  if r.1 < 0 then (.notFound, p)
  else
    let p := { setSlot p leaf_slot (.leaf r.2) with nkeys := p.nkeys - 1 }
    if fl.2.length = 0 then
      (if p.nkeys < hier.min_page_keys then .underflow else .ok, p)
    else if MT_CL_MIN_KEYS ≤ r.2.keys.length then
      (if p.nkeys < hier.min_page_keys then .underflow else .ok, p)
    else
      let p := pageRootCollapse (deleteRebalance p fl.2.reverse leaf_slot)
      (if p.nkeys < hier.min_page_keys then .underflow else .ok, p)

/-- In-order key extraction from the CL sub-tree rooted at `slot`
    (extract_subtree).  Fuel bounds the recursion as the C stack does. -/
def extractSubtree (p : Page) : Nat → Nat → List Int
  | _, 0 => []
  | slot, fuel + 1 =>
    match getSlot p slot with
    | .leaf cl => cl.keys
    | .inode cl =>
      ((cl.children.take (cl.keys.length + 1)).map
        (fun c => extractSubtree p c fuel)).flatten
    | .free => []

/-- mt_page_extract_sorted: all keys of the page in ascending order. -/
def mt_page_extract_sorted (p : Page) : List Int :=
  if p.nkeys = 0 then [] else extractSubtree p p.root_slot 64

/-- Even distribution of `n` items over `groups` buckets: the first
    n % groups buckets take one extra (the size formula shared by the
    page, superpage and outer bulk loaders). -/
def distSizes (n groups : Nat) : List Nat :=
  (List.range groups).map
    (fun i => n / groups + if i < n % groups then 1 else 0)

/-- Cut a list into consecutive chunks of the given sizes. -/
def chunksBySizes {α : Type} : List α → List Nat → List (List α)
  | _, [] => []
  | l, k :: ks => l.take k :: chunksBySizes (l.drop k) ks

/-- A freshly memset page: bitmap has only the header bit. -/
def emptyPage : Page :=
  { nkeys := 0, root_slot := 0, sub_height := 0, nslots_used := 0,
    slot_bitmap := 1, slots := List.replicate MT_PAGE_SLOTS .free }

/-- Leaf-filling loop of mt_page_bulk_load: allocate one CL slot per
    chunk, fill it, record its slot index and first key (separator). -/
def bulkLoadLeaves (p : Page) : List (List Int) → Page × List Nat × List Int
  | [] => (p, [], [])
  | c :: cs =>
    let ar := slot_alloc p
    let pg := setSlot ar.2 ar.1 (.leaf ⟨c⟩)
    let r := bulkLoadLeaves pg cs
    (r.1, ar.1 :: r.2.1, c.getD 0 0 :: r.2.2)

/-- Build one internal level: for each group of (slot, separator)
    entries, allocate a CL internal whose children are the group's
    slots and whose keys are the group's separators from the second
    entry on.  Returns the new level's slots and separators. -/
def buildLevel (p : Page) : List (List (Nat × Int)) → Page × List Nat × List Int
  | [] => (p, [], [])
  | g :: gs =>
    let ar := slot_alloc p
    let node : CLInode := ⟨(g.drop 1).map Prod.snd, g.map Prod.fst⟩
    let pg := setSlot ar.2 ar.1 (.inode node)
    let r := buildLevel pg gs
    (r.1, ar.1 :: r.2.1, (g.map Prod.snd).getD 0 0 :: r.2.2)

/-- Bottom-up level construction loop of mt_page_bulk_load, with fuel
    (each round shrinks the level, so 63 rounds always suffice).
    Returns the page, the root slot and the height built. -/
def buildLevelsAux (p : Page) : List (Nat × Int) → Nat → Nat → Page × Nat × Nat
  | entries, height, 0 => (p, (entries.getD 0 (0, 0)).1, height)
  | entries, height, fuel + 1 =>
    if entries.length ≤ 1 then (p, (entries.getD 0 (0, 0)).1, height)
    else
      let lc := entries.length
      let np0 := (lc + MT_CL_CHILD_CAP - 1) / MT_CL_CHILD_CAP
      let np := if np0 = 0 then 1 else np0
      let groups := chunksBySizes entries (distSizes lc np)
      let r := buildLevel p groups
      buildLevelsAux r.1 (r.2.1.zip r.2.2) (height + 1) fuel

/-- mt_page_bulk_load: build a fully packed page from sorted keys.
    The C overwrites the page it is given after a memset, so the result
    depends only on the key list; the caller restores the sibling
    pointers (which the memset zeroes) at the tree level. -/
def mt_page_bulk_load (sorted_keys : List Int) : Page :=
  let p := emptyPage
  if sorted_keys.length = 0 then
    let ar := slot_alloc p
    { setSlot ar.2 ar.1 (.leaf ⟨[]⟩) with
      root_slot := ar.1, sub_height := 0, nkeys := 0 }
  else
    let nkeys := sorted_keys.length
    let nleaves := (nkeys + MT_CL_KEY_CAP - 1) / MT_CL_KEY_CAP
    let chunks := chunksBySizes sorted_keys (distSizes nkeys nleaves)
    let r := bulkLoadLeaves p chunks
    let pg := { r.1 with nkeys := nkeys }
    if nleaves = 1 then
      { pg with root_slot := r.2.1.getD 0 0, sub_height := 0 }
    else
      let b := buildLevelsAux pg (r.2.1.zip r.2.2) 0 MT_PAGE_SLOTS
      { b.1 with root_slot := b.2.1, sub_height := b.2.2 }

/-- mt_page_init: an empty page is a bulk load of no keys. -/
def mt_page_init : Page :=
  mt_page_bulk_load []

/-- mt_page_split: extract all keys, rebuild the lower half in place
    and the upper half in the fresh page; the separator is the first
    key of the right half. -/
def mt_page_split (p : Page) : Int × Page × Page :=
  let all := mt_page_extract_sorted p
  let left_n := all.length / 2
  (all.getD left_n 0,
   mt_page_bulk_load (all.take left_n),
   mt_page_bulk_load (all.drop left_n))

/-- mt_page_min_key: first key of the leftmost CL leaf. -/
def mt_page_min_key (p : Page) : Int :=
  if p.nkeys = 0 then MT_KEY_MAX
  else
    let cl := (descendLeftmost p p.root_slot 64).asLeaf
    if 0 < cl.keys.length then cl.keys.getD 0 0 else MT_KEY_MAX

/-- page_max_key (matryoshka.c): last key of the rightmost CL leaf. -/
def page_max_key (p : Page) : Int :=
  let cl := (descendRightmost p p.root_slot 64).asLeaf
  if 0 < cl.keys.length then cl.keys.getD (cl.keys.length - 1) 0
  else MT_KEY_MAX

/-!  Tree level.  The heap of 4 KiB leaf pages is an explicit store:
page `i` lives at address `4096 * i` (page-aligned, as the C allocator
guarantees), carrying the page plus its prev/next sibling pointers
(struct members of the page header in C; they sit beside the page here
because mt_page_bulk_load's memset zeroes them and the callers restore
them explicitly, which the embedding reproduces).  Child pointers in
outer internal nodes carry the low-12-bit tag inside the address
value, exactly as the C does.  The embedding covers the
use_superpages = false build of matryoshka.c; every state considered
by the theorems uses the default 4 KiB-leaf hierarchy. -/

/-- A stored page: contents plus the sibling-chain header pointers. -/
structure PageRec where
  page : Page
  prev : Option Nat
  next : Option Nat
  deriving DecidableEq, Repr

/-- The page heap: `pages[i]` is the page at address `4096 * i`
    (`none` after mt_free_lnode). -/
structure Store where
  pages : List (Option PageRec)
  deriving DecidableEq, Repr

/-- Default record for reads of unmapped addresses (never hit on the
    states the theorems consider). -/
def blankRec : PageRec :=
  { page := emptyPage, prev := none, next := none }

/-- Read the record at a page address. -/
def Store.get (st : Store) (a : Nat) : PageRec :=
  (st.pages.getD (a / 4096) none).getD blankRec

/-- Read the page at an address. -/
def Store.page (st : Store) (a : Nat) : Page :=
  (st.get a).page

/-- Overwrite the record at an address. -/
def Store.set (st : Store) (a : Nat) (r : PageRec) : Store :=
  ⟨st.pages.set (a / 4096) (some r)⟩

/-- Overwrite just the page contents, keeping the sibling pointers. -/
def Store.setPage (st : Store) (a : Nat) (p : Page) : Store :=
  st.set a { st.get a with page := p }

/-- mt_free_lnode: release a page back to the allocator. -/
def Store.free (st : Store) (a : Nat) : Store :=
  ⟨st.pages.set (a / 4096) none⟩

/-- mt_alloc_lnode: a fresh page-aligned address (the store grows). -/
def Store.alloc (st : Store) : Nat × Store :=
  (4096 * st.pages.length, ⟨st.pages ++ [some blankRec]⟩)

/-- mt_untag: strip the low 12 tag bits (ptr & ~0xFFF). -/
def mt_untag (ptr : Nat) : Nat :=
  ptr - ptr % 4096

/-- mt_ptr_root_slot: bits 0–5 of a tagged leaf pointer. -/
def mt_ptr_root_slot (ptr : Nat) : Nat :=
  ptr % 64

/-- mt_ptr_sub_height: bits 6–8 of a tagged leaf pointer. -/
def mt_ptr_sub_height (ptr : Nat) : Nat :=
  ptr / 64 % 8

/-- mt_tag_leaf_ptr: tag an (untagged) leaf page pointer with the
    page's current root_slot (bits 0–5) and sub_height (bits 6–8). -/
def mt_tag_leaf_ptr (st : Store) (a : Nat) : Nat :=
  let leaf := st.page a
  a ||| (leaf.root_slot ||| (leaf.sub_height <<< 6))

/-- An outer-tree node: a leaf child is the raw (tagged) pointer value
    of a page in the store; internal nodes own their children (the
    tree uniquely owns all interior nodes). -/
inductive MNode where
  | leaf (ptr : Nat)
  | inode (keys : List Int) (children : List MNode)

/-- Raw pointer value of an outer leaf child. -/
def MNode.ptrVal : MNode → Nat
  | .leaf p => p
  | .inode _ _ => 0

/-- Separator keys of an outer internal node. -/
def MNode.keysOf : MNode → List Int
  | .inode ks _ => ks
  | _ => []

/-- Children of an outer internal node. -/
def MNode.childrenOf : MNode → List MNode
  | .inode _ cs => cs
  | _ => []

/-- mt_untag applied to a generic child pointer (a no-op on internal
    nodes, which are untagged). -/
def untagNode : MNode → MNode
  | .leaf p => .leaf (mt_untag p)
  | n => n

/-- mt_inode_search: child index for `key` — the first separator
    exceeding `key`, else nkeys.  This is the scalar semantics shared
    by the SIMD linear scans and (on the sorted separator arrays the
    tree maintains) by the prefetching binary search for large nodes. -/
def mt_inode_search (keys : List Int) (key : Int) : Nat :=
  (keys.findIdx? (fun x => key < x)).getD keys.length

/-- One recorded outer-descent step (mt_path_t): the visited internal
    node's contents and the child index taken. -/
structure OPath where
  keys : List Int
  children : List MNode
  idx : Nat

/-- Rebuild the tree upward from a reversed path (deepest context
    first), placing `node` at each context's taken child index. -/
def rebuildUp : List OPath → MNode → MNode
  | [], node => node
  | e :: rest, node => rebuildUp rest (.inode e.keys (e.children.set e.idx node))

/-- find_leaf: walk `height` levels from `node` toward `key`, recording
    the path.  Returns the raw (tagged) leaf pointer value. -/
def findLeafT (node : MNode) (key : Int) : Nat → Nat × List OPath
  | 0 => (node.ptrVal, [])
  | h + 1 =>
    match node with
    | .leaf ptr => (ptr, [])
    | .inode keys children =>
      let idx := mt_inode_search keys key
      let child := children.getD idx (.leaf 0)
      let r := findLeafT child key h
      (r.1, ⟨keys, children, idx⟩ :: r.2)

/-- retag_leaf_in_parent: refresh the tag on the parent's pointer to
    the descended leaf (no-op at height 0).  `rpath` is the reversed
    descent path. -/
def retag_leaf_in_parent (st : Store) (rpath : List OPath) (root : MNode) :
    MNode :=
  match rpath with
  | [] => root
  | e :: rest =>
    let oldPtr := (e.children.getD e.idx (.leaf 0)).ptrVal
    let newPtr := mt_tag_leaf_ptr st (mt_untag oldPtr)
    rebuildUp rest (.inode e.keys (e.children.set e.idx (.leaf newPtr)))

/-- Insert position for a separator in an outer internal node
    (while pos < nkeys && keys[pos] < sep). -/
def inode_insert_pos (keys : List Int) (sep : Int) : Nat :=
  (keys.findIdx? (fun x => sep ≤ x)).getD keys.length

/-- The full tree state: root node, key count, outer height, hierarchy
    and the page store (struct matryoshka_tree plus the heap). -/
structure MTreeState where
  root : MNode
  n : Nat
  height : Nat
  hier : Hierarchy
  store : Store

/-- propagate_leaf_split: push a leaf-equivalent split up the reversed
    path.  Room → inode_insert_at and rebuild; full → split the
    internal (middle key promoted) and continue; past the root →
    allocate a new root holding {old root, right} (tagging the old
    root when it was a height-0 leaf).  Returns (new root, new height).
    Fuel bounds the walk as the path length does in C; the wrapper
    passes the path length, so the cons-at-zero arm is never taken. -/
def propagateAux (st : Store) (hier : Hierarchy) :
    Nat → List OPath → MNode → Nat → Int → MNode → MNode × Nat
  | _, [], root0, height0, sep, right =>
    let c0 := if height0 = 0 ∧ hier.use_superpages = false then
        MNode.leaf (mt_tag_leaf_ptr st root0.ptrVal)
      else root0
    (.inode [sep] [c0, right], height0 + 1)
  | 0, _ :: _, root0, height0, _, _ => (root0, height0)
  | fuel + 1, e :: rest, root0, height0, sep, right =>
    if e.keys.length < MT_MAX_IKEYS then
      let pos := inode_insert_pos e.keys sep
      (rebuildUp rest (.inode (e.keys.take pos ++ sep :: e.keys.drop pos)
        (e.children.take (pos + 1) ++ right :: e.children.drop (pos + 1))),
       height0)
    else
      let pn := e.keys.length
      let pos := inode_insert_pos e.keys sep
      let all_keys := e.keys.take pos ++ sep :: e.keys.drop pos
      let all_children := e.children.take (pos + 1) ++
        right :: e.children.drop (pos + 1)
      let left_n := (pn + 1) / 2
      let sep2 := all_keys.getD left_n 0
      let leftN : MNode := .inode (all_keys.take left_n)
        (all_children.take (left_n + 1))
      let rightN : MNode := .inode (all_keys.drop (left_n + 1))
        (all_children.drop (left_n + 1))
      match rest with
      | [] => propagateAux st hier fuel [] leftN height0 sep2 rightN
      | e2 :: tl =>
        propagateAux st hier fuel
          (⟨e2.keys, e2.children.set e2.idx leftN, e2.idx⟩ :: tl)
          root0 height0 sep2 rightN

/-- propagate_leaf_split with the fuel the C stack depth provides. -/
def propagate_leaf_split (st : Store) (hier : Hierarchy) (rpath : List OPath)
    (root0 : MNode) (height0 : Nat) (sep : Int) (right : MNode) :
    MNode × Nat :=
  propagateAux st hier rpath.length rpath root0 height0 sep right

/-- split_leaf_and_insert: split a full leaf page, insert the key into
    the matching half, splice the new page into the sibling chain and
    propagate the split upward. -/
def split_leaf_and_insert (s : MTreeState) (rpath : List OPath)
    (leafA : Nat) (key : Int) : MTreeState :=
  let rec0 := s.store.get leafA
  let saved_prev := rec0.prev
  let saved_next := rec0.next
  let al := s.store.alloc
  let newA := al.1
  let st := al.2
  let spl := mt_page_split (st.page leafA)
  -- mt_page_bulk_load memsets both pages (sibling pointers zeroed)
  let st := st.set leafA ⟨spl.2.1, none, none⟩
  let st := st.set newA ⟨spl.2.2, none, none⟩
  let st :=
    if key < spl.1 then st.setPage leafA (mt_page_insert (st.page leafA) key).2
    else st.setPage newA (mt_page_insert (st.page newA) key).2
  -- restore the linked list and splice new_right after leaf
  let st := st.set leafA { st.get leafA with prev := saved_prev,
                                             next := some newA }
  let st := st.set newA { st.get newA with prev := some leafA,
                                           next := saved_next }
  let st :=
    match saved_next with
    | some na => st.set na { st.get na with prev := some newA }
    | none => st
  let sep := mt_page_min_key (st.page newA)
  -- re-tag the left leaf in its parent (root_slot may have changed)
  let rpath' :=
    match rpath with
    | [] => rpath
    | e :: tl =>
      OPath.mk e.keys
        (e.children.set e.idx (.leaf (mt_tag_leaf_ptr st leafA))) e.idx :: tl
  let pr := propagate_leaf_split st s.hier rpath' s.root s.height sep
    (.leaf (mt_tag_leaf_ptr st newA))
  { s with root := pr.1, height := pr.2, store := st }

/-- matryoshka_insert (use_superpages = false path). -/
def matryoshka_insert (s : MTreeState) (key : Int) : Bool × MTreeState :=
  let fl := findLeafT s.root key s.height
  let leafA := mt_untag fl.1
  let r := mt_page_insert (s.store.page leafA) key
  match r.1 with
  | .duplicate => (false, s)
  | .ok =>
    let st := s.store.setPage leafA r.2
    (true, { s with n := s.n + 1, store := st,
                    root := retag_leaf_in_parent st fl.2.reverse s.root })
  | _ =>
    -- MT_PAGE_FULL (the page may have been mutated): split and insert
    let s' := split_leaf_and_insert { s with store := s.store.setPage leafA r.2 }
      fl.2.reverse leafA key
    (true, { s' with n := s'.n + 1 })

/-- matryoshka_search (use_superpages = false path): predecessor query.
    Returns the found key, or none (the C's bool plus out-parameter). -/
def matryoshka_search (s : MTreeState) (key : Int) : Option Int :=
  if s.n = 0 then none
  else
    let fl := findLeafT s.root key s.height
    let leafA := mt_untag fl.1
    let leaf := s.store.page leafA
    match mt_page_search_key leaf key with
    | some v => some v
    | none =>
      match (s.store.get leafA).prev with
      | some pa =>
        let prev := s.store.page pa
        if 0 < prev.nkeys then some (page_max_key prev) else none
      | none => none

/-- matryoshka_contains (use_superpages = false path). -/
def matryoshka_contains (s : MTreeState) (key : Int) : Bool :=
  if s.n = 0 then false
  else
    let fl := findLeafT s.root key s.height
    mt_page_contains (s.store.page (mt_untag fl.1)) key

/-- matryoshka_size. -/
def matryoshka_size (s : MTreeState) : Nat :=
  s.n

/-- Upward internal-rebalance loop shared by rebalance_leaf: `node` is
    the (possibly underfull) internal at the current level, `rpath` the
    reversed contexts above it.  At the root: collapse when empty.
    Otherwise: redistribute from an internal sibling, else merge and
    continue one level up. -/
def rebalanceInternalLoop (s : MTreeState) :
    List OPath → MNode → MTreeState
  | [], node =>
    if node.keysOf.length = 0 ∧ 0 < s.height then
      { s with root := untagNode (node.childrenOf.getD 0 (.leaf 0)),
               height := s.height - 1 }
    else { s with root := node }
  | e :: rest, node =>
    if MT_MIN_IKEYS ≤ node.keysOf.length then
      { s with root := rebuildUp (e :: rest) node }
    else
      let pi := e.idx
      let rotR :=
        if 0 < pi then
          let lsib := untagNode (e.children.getD (pi - 1) (.leaf 0))
          if MT_MIN_IKEYS < lsib.keysOf.length then
            let node' : MNode := .inode
              (e.keys.getD (pi - 1) 0 :: node.keysOf)
              (lsib.childrenOf.getD lsib.keysOf.length (.leaf 0) ::
                node.childrenOf)
            let lsib' : MNode := .inode
              (lsib.keysOf.take (lsib.keysOf.length - 1))
              (lsib.childrenOf.take lsib.keysOf.length)
            let keys' := e.keys.set (pi - 1)
              (lsib.keysOf.getD (lsib.keysOf.length - 1) 0)
            some (rebuildUp rest
              (.inode keys' ((e.children.set (pi - 1) lsib').set pi node')))
          else none
        else none
      match rotR with
      | some root' => { s with root := root' }
      | none =>
        let rotL :=
          if pi < e.keys.length then
            let rsib := untagNode (e.children.getD (pi + 1) (.leaf 0))
            if MT_MIN_IKEYS < rsib.keysOf.length then
              let node' : MNode := .inode
                (node.keysOf ++ [e.keys.getD pi 0])
                (node.childrenOf ++ [rsib.childrenOf.getD 0 (.leaf 0)])
              let rsib' : MNode := .inode (rsib.keysOf.drop 1)
                (rsib.childrenOf.drop 1)
              let keys' := e.keys.set pi (rsib.keysOf.getD 0 0)
              some (rebuildUp rest
                (.inode keys' ((e.children.set pi node').set (pi + 1) rsib')))
            else none
          else none
        match rotL with
        | some root' => { s with root := root' }
        | none =>
          if 0 < pi then
            -- merge node into its left sibling
            let lsib := untagNode (e.children.getD (pi - 1) (.leaf 0))
            let lsib' : MNode := .inode
              (lsib.keysOf ++ e.keys.getD (pi - 1) 0 :: node.keysOf)
              (lsib.childrenOf ++ node.childrenOf)
            rebalanceInternalLoop s rest (.inode
              (e.keys.eraseIdx (pi - 1))
              ((e.children.set (pi - 1) lsib').eraseIdx pi))
          else
            -- merge the right sibling into node
            let rsib := untagNode (e.children.getD (pi + 1) (.leaf 0))
            let node' : MNode := .inode
              (node.keysOf ++ e.keys.getD pi 0 :: rsib.keysOf)
              (node.childrenOf ++ rsib.childrenOf)
            rebalanceInternalLoop s rest (.inode
              (e.keys.eraseIdx pi)
              ((e.children.set pi node').eraseIdx (pi + 1)))

/-- rebalance_leaf: redistribute with a leaf-page sibling when it has
    spare keys (re-bulk-loading both pages and restoring their saved
    sibling pointers), else merge into a sibling, unlink and free the
    vacated page, and propagate the internal underflow upward. -/
def rebalance_leaf (s : MTreeState) (rpath : List OPath) (leafA : Nat) :
    MTreeState :=
  match rpath with
  | [] => s
  | e :: rest =>
    let cidx := e.idx
    let min_page := s.hier.min_page_keys
    let leafRec := s.store.get leafA
    let redistL :=
      if 0 < cidx then
        let leftA := mt_untag (e.children.getD (cidx - 1) (.leaf 0)).ptrVal
        let left := s.store.page leftA
        if min_page < left.nkeys then
          let lsorted := mt_page_extract_sorted left
          let rsorted := mt_page_extract_sorted (s.store.page leafA)
          let new_ln := (lsorted.length + rsorted.length) / 2
          let new_right := lsorted.drop new_ln ++ rsorted
          let lrec := s.store.get leftA
          let st := s.store.set leftA
            ⟨mt_page_bulk_load (lsorted.take new_ln), lrec.prev, lrec.next⟩
          let st := st.set leafA
            ⟨mt_page_bulk_load new_right, leafRec.prev, leafRec.next⟩
          some { s with store := st,
                        root := rebuildUp rest (.inode
                          (e.keys.set (cidx - 1) (new_right.getD 0 0))
                          e.children) }
        else none
      else none
    match redistL with
    | some s' => s'
    | none =>
      let redistR :=
        if cidx < e.keys.length then
          let rightA := mt_untag (e.children.getD (cidx + 1) (.leaf 0)).ptrVal
          let right := s.store.page rightA
          if min_page < right.nkeys then
            let lsorted := mt_page_extract_sorted (s.store.page leafA)
            let rsorted := mt_page_extract_sorted right
            let new_ln := (lsorted.length + rsorted.length) / 2
            let move := new_ln - lsorted.length
            let new_right := rsorted.drop move
            let rrec := s.store.get rightA
            let st := s.store.set leafA
              ⟨mt_page_bulk_load (lsorted ++ rsorted.take move),
               leafRec.prev, leafRec.next⟩
            let st := st.set rightA
              ⟨mt_page_bulk_load new_right, rrec.prev, rrec.next⟩
            some { s with store := st,
                          root := rebuildUp rest (.inode
                            (e.keys.set cidx (new_right.getD 0 0))
                            e.children) }
          else none
        else none
      match redistR with
      | some s' => s'
      | none =>
        if 0 < cidx then
          -- merge leaf into its left sibling; free the leaf
          let leftA := mt_untag (e.children.getD (cidx - 1) (.leaf 0)).ptrVal
          let merged := mt_page_extract_sorted (s.store.page leftA) ++
            mt_page_extract_sorted (s.store.page leafA)
          let lrec := s.store.get leftA
          let st := s.store.set leftA
            ⟨mt_page_bulk_load merged, lrec.prev, leafRec.next⟩
          let st :=
            match leafRec.next with
            | some na => st.set na { st.get na with prev := some leftA }
            | none => st
          let st := st.free leafA
          rebalanceInternalLoop { s with store := st } rest
            (.inode (e.keys.eraseIdx (cidx - 1)) (e.children.eraseIdx cidx))
        else
          -- merge the right sibling into the leaf; free the sibling
          let rightA := mt_untag (e.children.getD (cidx + 1) (.leaf 0)).ptrVal
          let rrec := s.store.get rightA
          let merged := mt_page_extract_sorted (s.store.page leafA) ++
            mt_page_extract_sorted (s.store.page rightA)
          let st := s.store.set leafA
            ⟨mt_page_bulk_load merged, leafRec.prev, rrec.next⟩
          let st :=
            match rrec.next with
            | some na => st.set na { st.get na with prev := some leafA }
            | none => st
          let st := st.free rightA
          rebalanceInternalLoop { s with store := st } rest
            (.inode (e.keys.eraseIdx cidx) (e.children.eraseIdx (cidx + 1)))

/-- matryoshka_delete (use_superpages = false path). -/
def matryoshka_delete (s : MTreeState) (key : Int) : Bool × MTreeState :=
  if s.n = 0 then (false, s)
  else
    let fl := findLeafT s.root key s.height
    let leafA := mt_untag fl.1
    let r := mt_page_delete (s.store.page leafA) key s.hier
    match r.1 with
    | .notFound => (false, s)
    | .ok =>
      let st := s.store.setPage leafA r.2
      (true, { s with n := s.n - 1, store := st,
                      root := retag_leaf_in_parent st fl.2.reverse s.root })
    | _ =>
      -- MT_UNDERFLOW: eager rebalance (no re-tagging on this path)
      let st := s.store.setPage leafA r.2
      if s.height = 0 then (true, { s with n := s.n - 1, store := st })
      else (true, rebalance_leaf { s with n := s.n - 1, store := st }
        fl.2.reverse leafA)

/-- Outer bottom-up level construction of matryoshka_bulk_load_with,
    with fuel (each round shrinks the entry list).  Leaf children are
    tagged when the first internal level is built. -/
def outerLevelsAux (st : Store) (hier : Hierarchy) :
    List (MNode × Int) → Nat → Nat → MNode × Nat
  | entries, height, 0 => ((entries.getD 0 (.leaf 0, 0)).1, height)
  | entries, height, fuel + 1 =>
    if entries.length ≤ 1 then ((entries.getD 0 (.leaf 0, 0)).1, height)
    else
      let lc := entries.length
      let np0 := (lc + MT_MAX_IKEYS) / (MT_MAX_IKEYS + 1)
      let np := if np0 = 0 then 1 else np0
      let groups := chunksBySizes entries (distSizes lc np)
      let newEntries := groups.map (fun g =>
        let cs :=
          if height = 0 ∧ hier.use_superpages = false then
            g.map (fun p => MNode.leaf (mt_tag_leaf_ptr st p.1.ptrVal))
          else g.map Prod.fst
        (MNode.inode ((g.drop 1).map Prod.snd) cs,
         (g.map Prod.snd).getD 0 0))
      outerLevelsAux st hier newEntries (height + 1) fuel

/-- matryoshka_bulk_load_with (use_superpages = false path): chunk the
    sorted keys into leaf pages of at most page_max_keys, bulk-load
    each, link them in order, and build the outer levels bottom-up. -/
def matryoshka_bulk_load_with (sorted_keys : List Int) (hier : Hierarchy) :
    MTreeState :=
  if sorted_keys.length = 0 then
    { root := .leaf 0, n := 0, height := 0, hier := hier,
      store := ⟨[some ⟨mt_page_init, none, none⟩]⟩ }
  else
    let n := sorted_keys.length
    let max_lkeys := hier.page_max_keys
    let nleaves := (n + max_lkeys - 1) / max_lkeys
    let chunks := chunksBySizes sorted_keys (distSizes n nleaves)
    let recs := (List.range nleaves).map (fun i =>
      some (PageRec.mk (mt_page_bulk_load (chunks.getD i []))
        (if 0 < i then some (4096 * (i - 1)) else none)
        (if i + 1 < nleaves then some (4096 * (i + 1)) else none)))
    let st : Store := ⟨recs⟩
    let entries := (List.range nleaves).map (fun i =>
      (MNode.leaf (4096 * i), (chunks.getD i []).getD 0 0))
    let b := outerLevelsAux st hier entries 0 64
    { root := b.1, n := n, height := b.2, hier := hier, store := st }

/-- matryoshka_create_with: empty tree, one empty page as root. -/
def matryoshka_create_with (hier : Hierarchy) : MTreeState :=
  { root := .leaf 0, n := 0, height := 0, hier := hier,
    store := ⟨[some ⟨mt_page_init, none, none⟩]⟩ }

/-- matryoshka_create: default hierarchy. -/
def matryoshka_create : MTreeState :=
  matryoshka_create_with mt_hierarchy_init_default

/-- matryoshka_bulk_load: default hierarchy. -/
def matryoshka_bulk_load (sorted_keys : List Int) : MTreeState :=
  matryoshka_bulk_load_with sorted_keys mt_hierarchy_init_default

/-- Iterator state (struct matryoshka_iter). -/
structure MIter where
  leaf : Option Nat
  pos : Nat
  nkeys : Nat
  sorted : List Int
  deriving DecidableEq, Repr

/-- iter_load_leaf: extract the current leaf's sorted keys into the
    iterator's buffer (heap allocation modelled as always succeeding). -/
def iter_load_leaf (st : Store) (it : MIter) : MIter :=
  match it.leaf with
  | some a =>
    if 0 < (st.page a).nkeys then
      let sorted := mt_page_extract_sorted (st.page a)
      { it with sorted := sorted, nkeys := sorted.length }
    else { it with nkeys := 0 }
  | none => { it with nkeys := 0 }

/-- matryoshka_iter_from (use_superpages = false path). -/
def matryoshka_iter_from (s : MTreeState) (start : Int) : MIter :=
  if s.n = 0 then { leaf := none, pos := 0, nkeys := 0, sorted := [] }
  else
    let fl := findLeafT s.root start s.height
    let a := mt_untag fl.1
    let it := iter_load_leaf s.store
      { leaf := some a, pos := 0, nkeys := 0, sorted := [] }
    let pos := (it.sorted.findIdx? (fun x => start ≤ x)).getD it.nkeys
    if it.nkeys ≤ pos then
      match (s.store.get a).next with
      | some na =>
        { iter_load_leaf s.store { it with leaf := some na } with pos := 0 }
      | none => { it with pos := pos }
    else { it with pos := pos }

/-- The advancing loop of matryoshka_iter_next, with fuel for the walk
    over the sibling chain. -/
def iterNextLoop (st : Store) : MIter → Nat → Option (Int × MIter)
  | _, 0 => none
  | it, fuel + 1 =>
    if it.pos < it.nkeys then
      some (it.sorted.getD it.pos 0, { it with pos := it.pos + 1 })
    else
      match (st.get (it.leaf.getD 0)).next with
      | none => none
      | some na =>
        iterNextLoop st
          (iter_load_leaf st { it with leaf := some na, pos := 0 }) fuel

/-- matryoshka_iter_next: yield the current key and advance, walking
    `next` pointers past exhausted leaves; none at the end of the list. -/
def matryoshka_iter_next (st : Store) (it : MIter) (fuel : Nat) :
    Option (Int × MIter) :=
  match it.leaf with
  | none => none
  | some _ => iterNextLoop st it fuel

/-- Collect every key yielded by repeated matryoshka_iter_next calls. -/
def iterAll (st : Store) : MIter → Nat → List Int
  | _, 0 => []
  | it, fuel + 1 =>
    match matryoshka_iter_next st it (st.pages.length + 1) with
    | none => []
    | some r => r.1 :: iterAll st r.2 fuel

/-- Full iteration of a tree from `start` (the harness pattern:
    iter_from then iter_next until exhaustion). -/
def matryoshka_iterate (s : MTreeState) (start : Int) : List Int :=
  iterAll s.store (matryoshka_iter_from s start)
    (s.n + s.store.pages.length + 1)

/-- NULL-handle wrapper (tree == NULL is `none`): matryoshka_size. -/
def matryoshka_size_api : Option MTreeState → Nat
  | none => 0
  | some s => matryoshka_size s

/-- NULL-handle wrapper: matryoshka_search (returns the C bool). -/
def matryoshka_search_api : Option MTreeState → Int → Bool × Option Int
  | none, _ => (false, none)
  | some s, k =>
    match matryoshka_search s k with
    | some v => (true, some v)
    | none => (false, none)

/-- NULL-handle wrapper: matryoshka_contains. -/
def matryoshka_contains_api : Option MTreeState → Int → Bool
  | none, _ => false
  | some s, k => matryoshka_contains s k

/-- NULL-handle wrapper: matryoshka_insert (returns the state it left
    behind; NULL in, NULL out, nothing mutated). -/
def matryoshka_insert_api : Option MTreeState → Int → Bool × Option MTreeState
  | none, _ => (false, none)
  | some s, k =>
    let r := matryoshka_insert s k
    (r.1, some r.2)

/-- NULL-handle wrapper: matryoshka_delete. -/
def matryoshka_delete_api : Option MTreeState → Int → Bool × Option MTreeState
  | none, _ => (false, none)
  | some s, k =>
    let r := matryoshka_delete s k
    (r.1, some r.2)

/-- NULL-iterator wrapper: matryoshka_iter_next (iter == NULL is
    `none`; the C returns false before touching anything). -/
def matryoshka_iter_next_api (st : Store) :
    Option MIter → Nat → Option (Int × MIter)
  | none, _ => none
  | some it, fuel => matryoshka_iter_next st it fuel

/-! Concrete states used by individual claims. -/

/-- The sparse-key seed tree of spec scenario S1:
    bulk_load of the 100 keys 0, 10, …, 990. -/
def s1_tree : MTreeState :=
  matryoshka_bulk_load ((List.range 100).map (fun i => (10 * i : Int)))

/-- A page reached by page-level public operations: bulk load of the
    810 keys 0, 2, …, 1618 (54 full CL leaves, 5 internals, root; 60
    slots used) followed by inserting 1 and 31 (two CL leaf splits
    under the first level-1 internal, filling it to 12 separators and
    leaving exactly one free slot). -/
def c3_page : Page :=
  (mt_page_insert
    (mt_page_insert
      (mt_page_bulk_load ((List.range 810).map (fun i => (2 * i : Int)))) 1).2
    31).2

/-- The tree of the C8 counterexample: bulk_load of 0..195 (one page;
    its page sub-tree has 14 CL leaves under two level-1 internals of
    7 children / 6 separators each). -/
def c8_tree : MTreeState :=
  matryoshka_bulk_load ((List.range 196).map (fun i => (i : Int)))


/-- c1_t0: the seed of the C1 failing input — bulk_load of the 810
    even keys 0, 2, …, 1618 (a single full-ish leaf page). -/
def c1_t0 : MTreeState :=
  matryoshka_bulk_load ((List.range 810).map (fun i => (2 * i : Int)))

/-- c1_t1: after inserting 1 (first CL leaf split inside the page). -/
def c1_t1 : MTreeState := (matryoshka_insert c1_t0 1).2

/-- c1_t2: after inserting 31 (second CL leaf split; one slot left). -/
def c1_t2 : MTreeState := (matryoshka_insert c1_t1 31).2

/-- c1_t3: after inserting 61 — the page reports PAGE_FULL from a
    mid-propagation slot_alloc failure and the tree splits it. -/
def c1_t3 : MTreeState := (matryoshka_insert c1_t2 61).2

/-- c4_base: the reachable seed of the C4 failing input —
    matryoshka_bulk_load of the 856 keys 0..855 (two leaf pages of 428
    keys; outer height 1, both leaf child pointers tagged). -/
def c4_base : MTreeState :=
  matryoshka_bulk_load ((List.range 856).map (fun i => (i : Int)))

/-- c4_dels k: the state after deleting the k largest keys, one
    matryoshka_delete per key (855, 854, …).  The 216th delete drops
    the right page below min_page_keys = 213 and triggers the
    redistribute-from-left rebalance. -/
def c4_dels : Nat → MTreeState
  | 0 => c4_base
  | k + 1 => (matryoshka_delete (c4_dels k) (855 - (k : Int))).2

/-- The leaf page at address 4096 of c4_dels 150 (keys 578..855 after
    150 single-key deletes), captured literally so the remaining 66
    deletes evaluate within the kernel's recursion budget. -/
def c4_page2_150 : Page :=
  { nkeys := 278, root_slot := 33, sub_height := 2, nslots_used := 22,
    slot_bitmap := 11812208639, slots := [.leaf ⟨[428, 429, 430, 431, 432,
    433, 434, 435, 436, 437, 438, 439, 440, 441, 442]⟩, .leaf ⟨[443, 444,
    445, 446, 447, 448, 449, 450, 451, 452, 453, 454, 455, 456, 457]⟩,
    .leaf ⟨[458, 459, 460, 461, 462, 463, 464, 465, 466, 467, 468, 469,
    470, 471, 472]⟩, .leaf ⟨[473, 474, 475, 476, 477, 478, 479, 480, 481,
    482, 483, 484, 485, 486, 487]⟩, .leaf ⟨[488, 489, 490, 491, 492, 493,
    494, 495, 496, 497, 498, 499, 500, 501, 502]⟩, .leaf ⟨[503, 504, 505,
    506, 507, 508, 509, 510, 511, 512, 513, 514, 515, 516, 517]⟩, .leaf
    ⟨[518, 519, 520, 521, 522, 523, 524, 525, 526, 527, 528, 529, 530,
    531, 532]⟩, .leaf ⟨[533, 534, 535, 536, 537, 538, 539, 540, 541, 542,
    543, 544, 545, 546, 547]⟩, .leaf ⟨[548, 549, 550, 551, 552, 553, 554,
    555, 556, 557, 558, 559, 560, 561, 562]⟩, .leaf ⟨[563, 564, 565, 566,
    567, 568, 569, 570, 571, 572, 573, 574, 575, 576, 577]⟩, .leaf ⟨[578,
    579, 580, 581, 582, 583, 584, 585, 586, 587, 588, 589, 590, 591,
    592]⟩, .leaf ⟨[593, 594, 595, 596, 597, 598, 599, 600, 601, 602, 603,
    604, 605, 606, 607]⟩, .leaf ⟨[608, 609, 610, 611, 612, 613, 614, 615,
    616, 617, 618, 619, 620, 621, 622]⟩, .leaf ⟨[623, 624, 625, 626, 627,
    628, 629, 630, 631, 632, 633, 634, 635, 636, 637]⟩, .leaf ⟨[638, 639,
    640, 641, 642, 643, 644, 645, 646, 647, 648, 649, 650, 651, 652]⟩,
    .leaf ⟨[653, 654, 655, 656, 657, 658, 659, 660, 661, 662, 663, 664,
    665, 666, 667]⟩, .leaf ⟨[668, 669, 670, 671, 672, 673, 674, 675, 676,
    677, 678, 679, 680, 681, 682]⟩, .leaf ⟨[683, 684, 685, 686, 687, 688,
    689, 690, 691, 692, 693, 694, 695, 696, 697]⟩, .leaf ⟨[698, 699, 700,
    701, 702, 703, 704, 705]⟩, .leaf ⟨[705, 706, 707, 708, 709, 710]⟩,
    .leaf ⟨[720, 721, 722, 723, 724, 725]⟩, .leaf ⟨[735, 736, 737, 738,
    739, 740]⟩, .leaf ⟨[750, 751, 752, 753, 754, 755]⟩, .leaf ⟨[765, 766,
    767, 768, 769, 770]⟩, .leaf ⟨[779, 780, 781, 782, 783, 784]⟩, .leaf
    ⟨[793, 794, 795, 796, 797, 798]⟩, .leaf ⟨[807, 808, 809, 810, 811,
    812]⟩, .leaf ⟨[821, 822, 823, 824, 825, 826]⟩, .leaf ⟨[835, 836, 837,
    838, 839, 840]⟩, .inode ⟨[443, 458, 473, 488, 503, 518, 533, 548,
    563], [1, 2, 3, 4, 5, 6, 7, 8, 9, 10]⟩, .inode ⟨[593, 608, 623, 638,
    653, 668, 683, 698], [11, 12, 13, 14, 15, 16, 17, 18, 19]⟩, .inode
    ⟨[698, 713, 728, 743, 758], [18, 19, 20, 21, 22, 23]⟩, .inode ⟨[578],
    [30, 31]⟩, .free, .free, .free, .free, .free, .free, .free, .free,
    .free, .free, .free, .free, .free, .free, .free, .free, .free, .free,
    .free, .free, .free, .free, .free, .free, .free, .free, .free, .free,
    .free, .free] }

/-- c4_dels 150 in literal form (page 1 is untouched by the deletes,
    so it stays the bulk load of 0..427). -/
def c4_lit150 : MTreeState :=
  { root := .inode [428] [.leaf 161, .leaf 4257],
    n := 706, height := 1, hier := mt_hierarchy_init_default,
    store := ⟨[
      some ⟨mt_page_bulk_load ((List.range 428).map (fun i => (i : Int))),
            none, some 4096⟩,
      some ⟨c4_page2_150, some 0, none⟩]⟩ }

/-- Continuation of the c4 deletion sequence from a given state:
    c4_contFrom s j performs the deletes numbered 150 … 150 + j - 1. -/
def c4_contFrom (s : MTreeState) : Nat → MTreeState
  | 0 => s
  | j + 1 =>
    (matryoshka_delete (c4_contFrom s j) (855 - ((150 + j : Nat) : Int))).2

/-! Specification-side predicates used to state and prove the general
theorems (these describe states; they are not part of the embedded
code). -/

/-- BuiltTree p w h s ks: slot `s` of page `p` roots a CL sub-tree of
    height `h` whose slots all lie in [1, w) (below the allocation
    watermark `w`) and whose in-order key sequence is `ks`. -/
def BuiltTree (p : Page) (w : Nat) : Nat → Nat → List Int → Prop
  | 0, s, ks => 0 < s ∧ s < w ∧ getSlot p s = .leaf ⟨ks⟩
  | h + 1, s, ks =>
    0 < s ∧ s < w ∧ ∃ cl kss, getSlot p s = .inode cl ∧
      cl.children.length = cl.keys.length + 1 ∧
      ks = kss.flatten ∧
      List.Forall₂ (BuiltTree p w h) cl.children kss

/-- ChainAt st a (c :: cs): starting at page address `a`, the sibling
    chain visits pages whose extracted key lists are c, cs…, each
    nonempty with a matching header count, ending with next = none. -/
inductive ChainAt (st : Store) : Nat → List (List Int) → Prop
  | last (a : Nat) (c : List Int) :
      (st.get a).next = none →
      mt_page_extract_sorted (st.page a) = c →
      (st.page a).nkeys = c.length → c ≠ [] →
      ChainAt st a [c]
  | cons (a a' : Nat) (c c' : List Int) (cs : List (List Int)) :
      (st.get a).next = some a' →
      mt_page_extract_sorted (st.page a) = c →
      (st.page a).nkeys = c.length → c ≠ [] →
      ChainAt st a' (c' :: cs) →
      ChainAt st a (c :: c' :: cs)

/-- DescMin h node ptr: descending `h` outer levels from `node` with
    the query INT32_MIN reaches the raw child pointer `ptr` (every
    separator on the way is greater than INT32_MIN, so child 0 is
    always taken). -/
def DescMin : Nat → MNode → Nat → Prop
  | 0, node, ptr => node.ptrVal = ptr
  | h + 1, node, ptr =>
    ∃ ks cs, node = .inode ks cs ∧ cs ≠ [] ∧
      (∀ k ∈ ks, INT32_MIN < k) ∧
      DescMin h (cs.getD 0 (.leaf 0)) ptr

/-- Min-fill property of a page's used non-root CL slots: a CL leaf
    holds at least MT_CL_MIN_KEYS keys, a CL internal at least
    MT_CL_MIN_CHILDREN children (hence at least 6 separators). -/
def MinFillSlots (p : Page) : Prop :=
  ∀ i, 1 ≤ i → i ≠ p.root_slot → p.slot_bitmap.testBit i = true →
    ((getSlot p i).isLeafT = true →
      MT_CL_MIN_KEYS ≤ (getSlot p i).asLeaf.keys.length) ∧
    ((getSlot p i).isInternal = true →
      MT_CL_MIN_CHILDREN ≤ (getSlot p i).asInode.children.length ∧
      MT_CL_MIN_CHILDREN - 1 ≤ (getSlot p i).asInode.keys.length)

/-! ### C8: min-fill floor machinery -/

/-- Per-slot minimum-fill floor, Boolean form: a free slot is exempt,
    a CL leaf needs MT_CL_MIN_KEYS keys, a CL internal
    MT_CL_MIN_CHILDREN children (hence 6 separators). -/
def slotFloor : CLSlot → Bool
  | .free => true
  | .leaf cl => decide (MT_CL_MIN_KEYS ≤ cl.keys.length)
  | .inode cl => decide (MT_CL_MIN_CHILDREN ≤ cl.children.length) &&
      decide (MT_CL_MIN_CHILDREN - 1 ≤ cl.keys.length)

/-- The conjunction MinFillSlots imposes on one slot's content. -/
def SlotOk (s : CLSlot) : Prop :=
  (s.isLeafT = true → MT_CL_MIN_KEYS ≤ s.asLeaf.keys.length) ∧
  (s.isInternal = true → MT_CL_MIN_CHILDREN ≤ s.asInode.children.length ∧
    MT_CL_MIN_CHILDREN - 1 ≤ s.asInode.keys.length)

/-- MinFillSlots with one slot exempted — the in-flight underfull node
    of a delete-rebalance step. -/
def MinFillExcept (p : Page) (x : Nat) : Prop :=
  ∀ i, 1 ≤ i → i ≠ p.root_slot → i ≠ x →
    p.slot_bitmap.testBit i = true → SlotOk (getSlot p i)

/-- Structural side conditions under which insertPropagate preserves
    the min-fill floor; the recursion threads the exact pages the
    code computes.  Every condition holds on well-formed pages: path
    slots are internal when used, full internals have the B-tree
    arity, and a freshly rooted page's old root meets the floor. -/
def insPropWF (p : Page) : List SubPath → Int → Nat → Bool
  | [], _, _ =>
    !(p.slot_bitmap.testBit p.root_slot) || slotFloor (getSlot p p.root_slot)
  | e :: rest, sep, right_slot =>
    let parent := (getSlot p e.slot).asInode
    if parent.keys.length < MT_CL_SEP_CAP then
      decide (1 ≤ e.slot) &&
        (!(p.slot_bitmap.testBit e.slot) || decide (e.slot = p.root_slot) ||
          (getSlot p e.slot).isInternal)
    else
      let ar := slot_alloc p
      if ar.1 = 0 then true
      else
        let pn := parent.keys.length
        let ci := e.child_idx
        let all_keys := parent.keys.take ci ++ sep :: parent.keys.drop ci
        let all_children := parent.children.take (ci + 1) ++
          right_slot :: parent.children.drop (ci + 1)
        let left_n := (pn + 1) / 2
        let sep2 := all_keys.getD left_n 0
        let pg := setSlot ar.2 e.slot
          (.inode ⟨all_keys.take left_n, all_children.take (left_n + 1)⟩)
        let pg := setSlot pg ar.1
          (.inode ⟨all_keys.drop (left_n + 1), all_children.drop (left_n + 1)⟩)
        decide (1 ≤ e.slot) &&
          decide (parent.children.length = parent.keys.length + 1) &&
          insPropWF pg rest sep2 ar.1

/-- Structural side conditions under which mt_page_insert preserves
    the min-fill floor: the slot the descent lands on holds a CL leaf
    when it is a used non-root slot, and the propagation conditions
    hold along the path. -/
def mt_page_insert_wf (p : Page) (key : Int) : Bool :=
  let fl := page_find_leaf p key
  let cl := (getSlot p fl.1).asLeaf
  if cl.keys.length < MT_CL_KEY_CAP then
    let r := cl_leaf_insert cl key
    if r.1 = -1 then true
    else decide (1 ≤ fl.1) &&
      (!(p.slot_bitmap.testBit fl.1) || decide (fl.1 = p.root_slot) ||
        (getSlot p fl.1).isLeafT)
  else
    let pos := cl_leaf_lower_bound cl key
    if pos < cl.keys.length ∧ cl.keys.getD pos 0 = key then true
    else
      let ar := slot_alloc p
      if ar.1 = 0 then true
      else
        let sp := cl_leaf_split cl
        let halves :=
          if key < sp.1 then ((cl_leaf_insert sp.2.1 key).2, sp.2.2)
          else (sp.2.1, (cl_leaf_insert sp.2.2 key).2)
        let pg := setSlot ar.2 fl.1 (.leaf halves.1)
        let pg := setSlot pg ar.1 (.leaf halves.2)
        let pg := { pg with nkeys := pg.nkeys + 1 }
        decide (1 ≤ fl.1) && insPropWF pg fl.2.reverse sp.1 ar.1

/-- Structural side conditions under which the delete-rebalance loop
    preserves the min-fill floor (underfull node excepted).  The
    branches mirror deleteRebalance; each condition holds on
    well-formed pages: slot indexes are in 1..63 and distinct across
    levels, the parent is a used internal, siblings hold the floor,
    adjacent leaves are key-disjoint, and the walk ends at the root. -/
def delRebWF (p : Page) : List SubPath → Nat → Bool
  | [], cur_slot => decide (cur_slot = p.root_slot)
  | e :: rest, cur_slot =>
    let parent := (getSlot p e.slot).asInode
    let cidx := e.child_idx
    let cur := getSlot p cur_slot
    let cur_nkeys := if cur.isLeafT then cur.asLeaf.keys.length
                     else cur.asInode.keys.length
    let min_keys := if cur.isLeafT then MT_CL_MIN_KEYS
                    else MT_CL_MIN_CHILDREN - 1
    if min_keys ≤ cur_nkeys then
      !(p.slot_bitmap.testBit cur_slot) || decide (cur_slot = p.root_slot) ||
        slotFloor cur
    else if cur.isLeafT then
      if 0 < cidx ∧ MT_CL_MIN_KEYS <
          ((getSlot p (parent.children.getD (cidx - 1) 0)).asLeaf).keys.length
      then
        -- redistribute from the left leaf sibling
        decide (1 ≤ cur_slot) && decide (1 ≤ e.slot) &&
          decide (1 ≤ parent.children.getD (cidx - 1) 0) &&
          decide (e.slot ≠ cur_slot) &&
          decide (MT_CL_MIN_KEYS - 1 ≤ cur.asLeaf.keys.length) &&
          !(decide (((getSlot p (parent.children.getD (cidx - 1) 0)).asLeaf).keys.getD
            ((((getSlot p (parent.children.getD (cidx - 1) 0)).asLeaf).keys.length) - 1) 0
            ∈ cur.asLeaf.keys)) &&
          (!(p.slot_bitmap.testBit e.slot) ||
            decide (e.slot = p.root_slot) || (getSlot p e.slot).isInternal)
      else if cidx < parent.keys.length ∧ MT_CL_MIN_KEYS <
          ((getSlot p (parent.children.getD (cidx + 1) 0)).asLeaf).keys.length
      then
        -- redistribute from the right leaf sibling
        decide (1 ≤ cur_slot) && decide (1 ≤ e.slot) &&
          decide (1 ≤ parent.children.getD (cidx + 1) 0) &&
          decide (e.slot ≠ cur_slot) &&
          decide (MT_CL_MIN_KEYS - 1 ≤ cur.asLeaf.keys.length) &&
          !(decide (((getSlot p (parent.children.getD (cidx + 1) 0)).asLeaf).keys.getD 0 0
            ∈ cur.asLeaf.keys)) &&
          (!(p.slot_bitmap.testBit e.slot) ||
            decide (e.slot = p.root_slot) || (getSlot p e.slot).isInternal)
      else
        -- merge the CL leaves and continue one level up
        let p' :=
          if 0 < cidx then
            let left_slot_idx := parent.children.getD (cidx - 1) 0
            let left := (getSlot p left_slot_idx).asLeaf
            let left' : CLLeaf := ⟨left.keys ++ cur.asLeaf.keys⟩
            let pg := setSlot p left_slot_idx (.leaf left')
            let pg := slot_free pg cur_slot
            setSlot pg e.slot (.inode (cl_inode_remove_at parent (cidx - 1)))
          else
            let right_slot_idx := parent.children.getD (cidx + 1) 0
            let right := (getSlot p right_slot_idx).asLeaf
            let cur' : CLLeaf := ⟨cur.asLeaf.keys ++ right.keys⟩
            let pg := setSlot p cur_slot (.leaf cur')
            let pg := slot_free pg right_slot_idx
            setSlot pg e.slot (.inode (cl_inode_remove_at parent cidx))
        decide (1 ≤ cur_slot) && decide (1 ≤ e.slot) &&
          (if 0 < cidx then
            decide (1 ≤ parent.children.getD (cidx - 1) 0) &&
              decide (MT_CL_MIN_KEYS ≤
                ((getSlot p (parent.children.getD (cidx - 1) 0)).asLeaf).keys.length)
          else
            decide (1 ≤ parent.children.getD (cidx + 1) 0) &&
              decide (MT_CL_MIN_KEYS ≤
                ((getSlot p (parent.children.getD (cidx + 1) 0)).asLeaf).keys.length)) &&
          delRebWF p' rest e.slot
    else
      if 0 < cidx ∧ MT_CL_MIN_CHILDREN - 1 <
          ((getSlot p (parent.children.getD (cidx - 1) 0)).asInode).keys.length
      then
        -- rotate through the parent from the left internal sibling
        decide (1 ≤ cur_slot) && decide (1 ≤ e.slot) &&
          decide (1 ≤ parent.children.getD (cidx - 1) 0) &&
          decide (e.slot ≠ cur_slot) &&
          decide (MT_CL_MIN_CHILDREN - 2 ≤ cur.asInode.keys.length) &&
          decide (cur.asInode.children.length = cur.asInode.keys.length + 1) &&
          decide (((getSlot p (parent.children.getD (cidx - 1) 0)).asInode).children.length
            = ((getSlot p (parent.children.getD (cidx - 1) 0)).asInode).keys.length + 1) &&
          (!(p.slot_bitmap.testBit e.slot) ||
            decide (e.slot = p.root_slot) || (getSlot p e.slot).isInternal)
      else if cidx < parent.keys.length ∧ MT_CL_MIN_CHILDREN - 1 <
          ((getSlot p (parent.children.getD (cidx + 1) 0)).asInode).keys.length
      then
        -- rotate through the parent from the right internal sibling
        decide (1 ≤ cur_slot) && decide (1 ≤ e.slot) &&
          decide (1 ≤ parent.children.getD (cidx + 1) 0) &&
          decide (e.slot ≠ cur_slot) &&
          decide (MT_CL_MIN_CHILDREN - 2 ≤ cur.asInode.keys.length) &&
          decide (cur.asInode.children.length = cur.asInode.keys.length + 1) &&
          decide (((getSlot p (parent.children.getD (cidx + 1) 0)).asInode).children.length
            = ((getSlot p (parent.children.getD (cidx + 1) 0)).asInode).keys.length + 1) &&
          (!(p.slot_bitmap.testBit e.slot) ||
            decide (e.slot = p.root_slot) || (getSlot p e.slot).isInternal)
      else
        -- merge the CL internals and continue one level up
        let p' :=
          if 0 < cidx then
            let left_slot_idx := parent.children.getD (cidx - 1) 0
            let left := (getSlot p left_slot_idx).asInode
            let left' : CLInode :=
              ⟨left.keys ++ parent.keys.getD (cidx - 1) 0 :: cur.asInode.keys,
               left.children ++ cur.asInode.children⟩
            let pg := setSlot p left_slot_idx (.inode left')
            let pg := slot_free pg cur_slot
            setSlot pg e.slot (.inode (cl_inode_remove_at parent (cidx - 1)))
          else
            let right_slot_idx := parent.children.getD (cidx + 1) 0
            let right := (getSlot p right_slot_idx).asInode
            let cur' : CLInode :=
              ⟨cur.asInode.keys ++ parent.keys.getD cidx 0 :: right.keys,
               cur.asInode.children ++ right.children⟩
            let pg := setSlot p cur_slot (.inode cur')
            let pg := slot_free pg right_slot_idx
            setSlot pg e.slot (.inode (cl_inode_remove_at parent cidx))
        decide (1 ≤ cur_slot) && decide (1 ≤ e.slot) &&
          (if 0 < cidx then
            decide (1 ≤ parent.children.getD (cidx - 1) 0) &&
              decide (MT_CL_MIN_CHILDREN - 1 ≤
                ((getSlot p (parent.children.getD (cidx - 1) 0)).asInode).keys.length) &&
              decide (MT_CL_MIN_CHILDREN ≤
                ((getSlot p (parent.children.getD (cidx - 1) 0)).asInode).children.length)
          else
            decide (1 ≤ parent.children.getD (cidx + 1) 0) &&
              decide (MT_CL_MIN_CHILDREN - 1 ≤
                ((getSlot p (parent.children.getD (cidx + 1) 0)).asInode).keys.length) &&
              decide (MT_CL_MIN_CHILDREN ≤
                ((getSlot p (parent.children.getD (cidx + 1) 0)).asInode).children.length)) &&
          delRebWF p' rest e.slot

/-- Structural side conditions under which mt_page_delete preserves
    the min-fill floor. -/
def mt_page_delete_wf (p : Page) (key : Int) : Bool :=
  let fl := page_find_leaf p key
  let cl := (getSlot p fl.1).asLeaf
  let r := cl_leaf_delete cl key
  if r.1 < 0 then true
  else if fl.2.length = 0 then decide (1 ≤ fl.1)
  else if MT_CL_MIN_KEYS ≤ r.2.keys.length then decide (1 ≤ fl.1)
  else decide (1 ≤ fl.1) &&
    delRebWF { setSlot p fl.1 (.leaf r.2) with nkeys := p.nkeys - 1 }
      fl.2.reverse fl.1


/-! ## Theorems -/

/-! ### Generic list and bit lemmas -/

/-- find? over a contiguous range returns the least satisfying index. -/
theorem find?_range'_eq (p : Nat → Bool) (w : Nat) :
    ∀ (n s : Nat), s ≤ w → w < s + n → p w = true →
    (∀ i, s ≤ i → i < w → p i = false) →
    (List.range' s n).find? p = some w := by
  intro n
  induction n with
  | zero => intro s h1 h2 _ _; omega
  | succ n ih =>
    intro s h1 h2 hpw hlow
    rw [List.range'_succ, List.find?_cons]
    by_cases hsw : s = w
    · subst hsw
      simp [hpw]
    · have hps : p s = false := hlow s le_rfl (by omega)
      simp only [hps]
      exact ih (s + 1) (by omega) (by omega) hpw
        (fun i hi1 hi2 => hlow i (by omega) hi2)

/-- Union of a low bit mask with the next bit. -/
theorem pow_sub_one_lor (w : Nat) : (2 ^ w - 1) ||| 2 ^ w = 2 ^ (w + 1) - 1 := by
  apply Nat.eq_of_testBit_eq
  intro i
  rw [Nat.testBit_lor, Nat.testBit_two_pow_sub_one, Nat.testBit_two_pow_sub_one,
    Nat.testBit_two_pow]
  by_cases h1 : i < w
  · simp [h1]
    omega
  · by_cases h2 : i = w
    · simp [h1, h2]
      try omega
    · simp [h1, h2]
      try omega

/-- slot_alloc on a page whose bitmap is the low mask 2^w - 1 returns
    slot w and extends the mask. -/
theorem slot_alloc_watermark (p : Page) (w : Nat) (h1 : 1 ≤ w) (h63 : w ≤ 63)
    (hb : p.slot_bitmap = 2 ^ w - 1) :
    slot_alloc p = (w, { p with slot_bitmap := 2 ^ (w + 1) - 1,
                                nslots_used := p.nslots_used + 1 }) := by
  have hfind : (List.range 64).find?
      (fun i => decide (0 < i) && ! p.slot_bitmap.testBit i) = some w := by
    rw [List.range_eq_range']
    apply find?_range'_eq _ w 64 0 (by omega) (by omega)
    · simp [hb, Nat.testBit_two_pow_sub_one]
      omega
    · intro i _ hi
      rcases Nat.eq_zero_or_pos i with h0 | h0
      · simp [h0]
      · simp [hb, Nat.testBit_two_pow_sub_one]
        omega
  rw [hb] at hfind
  simp only [slot_alloc, hb, hfind, pow_sub_one_lor]

/-- distSizes length. -/
theorem distSizes_length (n g : Nat) : (distSizes n g).length = g := by
  simp [distSizes]

/-- Sum of q + indicator over a range. -/
theorem sum_range_map_ind (q : Nat) :
    ∀ (g r : Nat), r ≤ g →
    ((List.range g).map (fun i => q + if i < r then 1 else 0)).sum
      = g * q + r := by
  intro g
  induction g with
  | zero => intro r hr; interval_cases r; simp
  | succ g ih =>
    intro r hr
    rw [List.range_succ, List.map_append, List.sum_append]
    rcases Nat.lt_or_ge g r with h | h
    · have hrg : r = g + 1 := by omega
      subst hrg
      have hcong : (List.range g).map (fun i => q + if i < g + 1 then 1 else 0)
          = (List.range g).map (fun _ => q + 1) := by
        apply List.map_congr_left
        intro i hi
        have : i < g := List.mem_range.mp hi
        simp
        omega
      rw [hcong, List.map_const', List.sum_replicate]
      simp
      ring
    · rw [ih r h]
      simp [show ¬ (g < r) from by omega]
      ring

/-- distSizes sums to n. -/
theorem distSizes_sum (n g : Nat) (hg : 0 < g) : (distSizes n g).sum = n := by
  have hr : n % g ≤ g := le_of_lt (Nat.mod_lt n hg)
  rw [distSizes, sum_range_map_ind (n / g) g (n % g) hr]
  exact Nat.div_add_mod n g

/-- Every distSizes bucket is positive when g ≤ n. -/
theorem distSizes_pos (n g : Nat) (hg : 0 < g) (hng : g ≤ n) :
    ∀ k ∈ distSizes n g, 0 < k := by
  intro k hk
  rw [distSizes, List.mem_map] at hk
  obtain ⟨i, _, hik⟩ := hk
  have : 1 ≤ n / g := (Nat.one_le_div_iff hg).mpr hng
  subst hik
  split <;> omega

/-- Every distSizes bucket is at most ⌈n / g⌉ ≤ b when n ≤ b * g. -/
theorem distSizes_le (n g b : Nat) (hg : 0 < g) (hb : n ≤ b * g) :
    ∀ k ∈ distSizes n g, k ≤ b := by
  intro k hk
  rw [distSizes, List.mem_map] at hk
  obtain ⟨i, _, hik⟩ := hk
  have hd := Nat.div_add_mod n g
  have hmod : n % g < g := Nat.mod_lt n hg
  subst hik
  rcases Nat.eq_zero_or_pos (n % g) with h0 | h0
  · have hq : g * (n / g) ≤ g * b := by
      rw [Nat.mul_comm g b]
      omega
    have := Nat.le_of_mul_le_mul_left hq hg
    simp [h0]
    omega
  · have hq : g * (n / g) < g * b := by
      rw [Nat.mul_comm g b]
      omega
    have := Nat.lt_of_mul_lt_mul_left hq
    split <;> omega

/-- Concatenating the chunks recovers the list. -/
theorem chunksBySizes_flatten {α : Type} :
    ∀ (sizes : List Nat) (l : List α), sizes.sum = l.length →
    (chunksBySizes l sizes).flatten = l := by
  intro sizes
  induction sizes with
  | nil =>
    intro l h
    simp at h
    simp [chunksBySizes, List.eq_nil_of_length_eq_zero h.symm]
  | cons k ks ih =>
    intro l h
    simp only [chunksBySizes, List.flatten_cons]
    rw [ih (l.drop k) (by simp [List.length_drop]; simp at h; omega)]
    exact List.take_append_drop k l

/-- Chunk lengths match the requested sizes. -/
theorem chunksBySizes_lengths {α : Type} :
    ∀ (sizes : List Nat) (l : List α), sizes.sum = l.length →
    List.Forall₂ (fun (c : List α) k => c.length = k) (chunksBySizes l sizes)
      sizes := by
  intro sizes
  induction sizes with
  | nil => intro l _; simp [chunksBySizes]
  | cons k ks ih =>
    intro l h
    simp at h
    refine List.forall₂_cons.mpr ⟨?_, ih (l.drop k) ?_⟩
    · simp [List.length_take]
      omega
    · simp [List.length_drop]
      omega

/-- Chunking two Forall₂-related lists with the same sizes keeps the
    relation chunk-wise. -/
theorem chunksBySizes_forall₂ {α β : Type} {R : α → β → Prop} :
    ∀ (sizes : List Nat) (as : List α) (bs : List β),
    List.Forall₂ R as bs →
    List.Forall₂ (List.Forall₂ R) (chunksBySizes as sizes)
      (chunksBySizes bs sizes) := by
  intro sizes
  induction sizes with
  | nil => intro as bs _; simp [chunksBySizes]
  | cons k ks ih =>
    intro as bs h
    exact List.forall₂_cons.mpr
      ⟨List.forall₂_take k h, ih _ _ (List.forall₂_drop k h)⟩

/-- Pointwise-functional Forall₂ gives a map equation. -/
theorem forall₂_map_eq {α β : Type} {f : α → β} :
    ∀ {as : List α} {bs : List β},
    List.Forall₂ (fun a b => f a = b) as bs → as.map f = bs := by
  intro as bs h
  induction h with
  | nil => rfl
  | cons h1 _ ih => simp [ih, h1]

/-! ### Page slot accessor lemmas -/

/-- Reading the slot just written. -/
theorem getSlot_setSlot_self (p : Page) (i : Nat) (s : CLSlot)
    (h1 : 0 < i) (h2 : i ≤ p.slots.length) :
    getSlot (setSlot p i s) i = s := by
  simp only [getSlot, setSlot, List.getD_eq_getElem?_getD]
  rw [List.getElem?_set_self (by omega)]
  rfl

/-- Reading another slot after a write. -/
theorem getSlot_setSlot_ne (p : Page) (i j : Nat) (s : CLSlot)
    (hne : i ≠ j) (h1 : 0 < i) (h2 : 0 < j) :
    getSlot (setSlot p i s) j = getSlot p j := by
  simp only [getSlot, setSlot, List.getD_eq_getElem?_getD]
  rw [List.getElem?_set_ne (by omega)]

/-! ### BuiltTree: stability and extraction -/

/-- BuiltTree is stable under raising the watermark and rewriting
    slots outside the built region. -/
theorem BuiltTree.mono {p p' : Page} {w w' : Nat} (hw : w ≤ w')
    (hag : ∀ i, 0 < i → i < w → getSlot p' i = getSlot p i) :
    ∀ {h s ks}, BuiltTree p w h s ks → BuiltTree p' w' h s ks := by
  intro h
  induction h with
  | zero =>
    rintro s ks ⟨h1, h2, h3⟩
    exact ⟨h1, by omega, by rw [hag s h1 h2]; exact h3⟩
  | succ h ih =>
    rintro s ks ⟨h1, h2, cl, kss, hslot, hlen, hflat, hforall⟩
    exact ⟨h1, by omega, cl, kss, by rw [hag s h1 h2]; exact hslot, hlen,
      hflat, hforall.imp (fun _ _ hb => ih hb)⟩

/-- Extraction of a built sub-tree yields its key list, for any fuel
    beyond its height. -/
theorem BuiltTree.extract_eq {p : Page} {w : Nat} :
    ∀ {h s ks}, BuiltTree p w h s ks →
    ∀ fuel, h < fuel → extractSubtree p s fuel = ks := by
  intro h
  induction h with
  | zero =>
    rintro s ks ⟨_, _, h3⟩ fuel hf
    match fuel, hf with
    | f + 1, _ => simp [extractSubtree, h3]
  | succ h ih =>
    rintro s ks ⟨_, _, cl, kss, hslot, hlen, hflat, hforall⟩ fuel hf
    match fuel, hf with
    | f + 1, hf =>
      simp only [extractSubtree, hslot]
      have htake : cl.children.take (cl.keys.length + 1) = cl.children := by
        rw [← hlen]
        exact List.take_length cl.children
      rw [htake, hflat]
      congr 1
      exact forall₂_map_eq
        (hforall.imp (fun _ _ hb => ih hb f (by omega)))

/-! ### Page bulk load: leaf filling and level building -/

/-- Specification of the leaf-filling loop of mt_page_bulk_load:
    chunks land in consecutive fresh slots w, w+1, …, each a built
    height-0 sub-tree, and slots below the watermark are untouched. -/
theorem bulkLoadLeaves_spec :
    ∀ (chunks : List (List Int)) (p : Page) (w : Nat),
    1 ≤ w → w + chunks.length ≤ 64 →
    p.slot_bitmap = 2 ^ w - 1 → p.slots.length = 63 →
    ∃ p', bulkLoadLeaves p chunks
        = (p', List.range' w chunks.length,
           chunks.map (fun c => c.getD 0 0)) ∧
      p'.slot_bitmap = 2 ^ (w + chunks.length) - 1 ∧
      p'.slots.length = 63 ∧
      p'.nkeys = p.nkeys ∧ p'.root_slot = p.root_slot ∧
      p'.sub_height = p.sub_height ∧
      (∀ i, 0 < i → i < w → getSlot p' i = getSlot p i) ∧
      List.Forall₂ (fun s ks => BuiltTree p' (w + chunks.length) 0 s ks)
        (List.range' w chunks.length) chunks := by
  intro chunks
  induction chunks with
  | nil =>
    intro p w h1 h64 hb hl
    refine ⟨p, by simp [bulkLoadLeaves], by simpa using hb, hl, rfl, rfl, rfl,
      fun i _ _ => rfl, by simp⟩
  | cons c cs ih =>
    intro p w h1 h64 hb hl
    have hlen : (c :: cs).length = cs.length + 1 := rfl
    have ha := slot_alloc_watermark p w h1 (by simp at h64; omega) hb
    set p1 := setSlot { p with slot_bitmap := 2 ^ (w + 1) - 1,
                               nslots_used := p.nslots_used + 1 } w
      (.leaf ⟨c⟩) with hp1
    obtain ⟨p', heq, hb', hl', hk', hr', hh', hag', hfa'⟩ :=
      ih p1 (w + 1) (by omega) (by simp at h64 ⊢; omega)
        (by simp [hp1, setSlot]) (by simp [hp1, setSlot, hl])
    refine ⟨p', ?_, ?_, hl', ?_, ?_, ?_, ?_, ?_⟩
    · show bulkLoadLeaves p (c :: cs) = _
      rw [show bulkLoadLeaves p (c :: cs)
          = (let ar := slot_alloc p
             let pg := setSlot ar.2 ar.1 (.leaf ⟨c⟩)
             let r := bulkLoadLeaves pg cs
             (r.1, ar.1 :: r.2.1, c.getD 0 0 :: r.2.2)) from rfl]
      simp only [ha]
      rw [show (List.range' w (c :: cs).length)
          = w :: List.range' (w + 1) cs.length from List.range'_succ w _ 1]
      simp [← hp1, heq]
    · have hexp : w + 1 + cs.length = w + (c :: cs).length := by
        simp [hlen]
        omega
      rw [hb', hexp]
    · rw [hk']
      simp [hp1, setSlot]
    · rw [hr']
      simp [hp1, setSlot]
    · rw [hh']
      simp [hp1, setSlot]
    · intro i hi0 hiw
      rw [hag' i hi0 (by omega), hp1,
        getSlot_setSlot_ne _ w i _ (by omega) (by omega) hi0]
      rfl
    · rw [show (List.range' w (c :: cs).length)
          = w :: List.range' (w + 1) cs.length from List.range'_succ w _ 1]
      refine List.forall₂_cons.mpr ⟨?_, ?_⟩
      · refine ⟨by omega, by simp, ?_⟩
        rw [hag' w (by omega) (by omega), hp1,
          getSlot_setSlot_self _ w _ (by omega) (by simp [hl]; simp at h64; omega)]
      · have : w + 1 + cs.length = w + (c :: cs).length := by
          simp [hlen]; omega
        rw [← this]
        exact hfa'

/-- Specification of the internal-level building loop buildLevel: one
    fresh CL internal per entry group, each rooted at consecutive
    slots w, w+1, …, extracting to the concatenation of its group. -/
theorem buildLevel_spec :
    ∀ (groups : List (List (Nat × Int))) (kss : List (List (List Int)))
      (p : Page) (w h : Nat),
    1 ≤ w → w + groups.length ≤ 64 →
    p.slot_bitmap = 2 ^ w - 1 → p.slots.length = 63 →
    List.Forall₂ (fun g gk => g ≠ [] ∧
      List.Forall₂ (fun (e : Nat × Int) ks => BuiltTree p w h e.1 ks) g gk)
      groups kss →
    ∃ p', buildLevel p groups
        = (p', List.range' w groups.length,
           groups.map (fun g => (g.map Prod.snd).getD 0 0)) ∧
      p'.slot_bitmap = 2 ^ (w + groups.length) - 1 ∧
      p'.slots.length = 63 ∧
      p'.nkeys = p.nkeys ∧ p'.root_slot = p.root_slot ∧
      p'.sub_height = p.sub_height ∧
      (∀ i, 0 < i → i < w → getSlot p' i = getSlot p i) ∧
      List.Forall₂
        (fun s ks => BuiltTree p' (w + groups.length) (h + 1) s ks)
        (List.range' w groups.length) (kss.map List.flatten) ∧
      List.Forall₂
        (fun s g => getSlot p' s
          = .inode ⟨(g.drop 1).map Prod.snd, g.map Prod.fst⟩)
        (List.range' w groups.length) groups := by
  intro groups
  induction groups with
  | nil =>
    intro kss p w h h1 h64 hb hl hfa
    have hkss : kss = [] := by
      cases hfa
      rfl
    subst hkss
    refine ⟨p, by simp [buildLevel], by simpa using hb, hl, rfl, rfl, rfl,
      fun i _ _ => rfl, by simp, by simp⟩
  | cons g gs ih =>
    intro kss p w h h1 h64 hb hl hfa
    obtain ⟨gk, gks, ⟨hgne, hg⟩, hgs, rfl⟩ :=
      List.forall₂_cons_left_iff.mp hfa
    have ha := slot_alloc_watermark p w h1 (by simp at h64; omega) hb
    set nd : CLInode := ⟨(g.drop 1).map Prod.snd, g.map Prod.fst⟩ with hnd
    set p1 := setSlot { p with slot_bitmap := 2 ^ (w + 1) - 1,
                               nslots_used := p.nslots_used + 1 } w
      (.inode nd) with hp1
    have hag1 : ∀ i, 0 < i → i < w → getSlot p1 i = getSlot p i := by
      intro i hi0 hiw
      rw [hp1, getSlot_setSlot_ne _ w i _ (by omega) (by omega) hi0]
      rfl
    obtain ⟨p', heq, hb', hl', hk', hr', hh', hag', hfa', hcont'⟩ :=
      ih gks p1 (w + 1) h (by omega) (by simp at h64 ⊢; omega)
        (by simp [hp1, setSlot]) (by simp [hp1, setSlot, hl])
        (hgs.imp (fun a b hab => ⟨hab.1,
          hab.2.imp (fun _ _ hbt =>
            hbt.mono (Nat.le_succ w) hag1)⟩))
    refine ⟨p', ?_, ?_, hl', ?_, ?_, ?_, ?_, ?_, ?_⟩
    · rw [show buildLevel p (g :: gs)
          = (let ar := slot_alloc p
             let pg := setSlot ar.2 ar.1
               (.inode ⟨(g.drop 1).map Prod.snd, g.map Prod.fst⟩)
             let r := buildLevel pg gs
             (r.1, ar.1 :: r.2.1, ((g.map Prod.snd).getD 0 0) :: r.2.2))
          from rfl]
      simp only [ha]
      rw [← hnd, ← hp1, heq]
      rw [show (List.range' w (g :: gs).length)
          = w :: List.range' (w + 1) gs.length from List.range'_succ w _ 1]
      rfl
    · have hexp : w + 1 + gs.length = w + (g :: gs).length := by
        simp
        omega
      rw [hb', hexp]
    · rw [hk']
      simp [hp1, setSlot]
    · rw [hr']
      simp [hp1, setSlot]
    · rw [hh']
      simp [hp1, setSlot]
    · intro i hi0 hiw
      rw [hag' i hi0 (by omega), hag1 i hi0 hiw]
    · rw [show (List.range' w (g :: gs).length)
          = w :: List.range' (w + 1) gs.length from List.range'_succ w _ 1]
      refine List.forall₂_cons.mpr ⟨?_, ?_⟩
      · refine ⟨by omega, by simp, nd, gk, ?_, ?_, rfl, ?_⟩
        · rw [hag' w (by omega) (by omega), hp1,
            getSlot_setSlot_self _ w _ (by omega)
              (by simp [hl]; simp at h64; omega)]
        · have hgpos : 0 < g.length := List.length_pos.mpr hgne
          simp [hnd]
          omega
        · rw [hnd]
          refine List.forall₂_map_left_iff.mpr ?_
          exact hg.imp (fun a b hab =>
            hab.mono (by simp) (fun i hi0 hiw =>
              (hag' i hi0 (by omega)).trans (hag1 i hi0 hiw)))
      · have hexp : w + 1 + gs.length = w + (g :: gs).length := by
          simp
          omega
        rw [← hexp]
        exact hfa'
    · rw [show (List.range' w (g :: gs).length)
          = w :: List.range' (w + 1) gs.length from List.range'_succ w _ 1]
      refine List.forall₂_cons.mpr ⟨?_, hcont'⟩
      rw [hag' w (by omega) (by omega), hp1,
        getSlot_setSlot_self _ w _ (by omega)
          (by simp [hl]; simp at h64; omega), hnd]


/-! ### C2 machinery: list transport lemmas -/

/-- Forall₂ transported through zipping with an equally long second
    list, speaking about the first components. -/
theorem forall₂_zip_fst {α β γ : Type} {R : α → γ → Prop} :
    ∀ {as : List α} {cs : List γ}, List.Forall₂ R as cs →
    ∀ (bs : List β), as.length ≤ bs.length →
    List.Forall₂ (fun (e : α × β) c => R e.1 c) (as.zip bs) cs := by
  intro as cs h
  induction h with
  | nil => intro bs _; simp
  | cons h1 h2 ih =>
    intro bs hlen
    cases bs with
    | nil => simp at hlen
    | cons b bs' =>
      exact List.forall₂_cons.mpr ⟨h1, ih bs' (by simpa using hlen)⟩

/-- Conjoin a pointwise property of the left list onto a Forall₂. -/
theorem forall₂_and_left {α β : Type} {P : α → Prop} {R : α → β → Prop} :
    ∀ {as : List α} {bs : List β}, List.Forall₂ R as bs →
    (∀ a ∈ as, P a) → List.Forall₂ (fun a b => P a ∧ R a b) as bs := by
  intro as bs h
  induction h with
  | nil => intro _; exact List.Forall₂.nil
  | cons h1 h2 ih =>
    intro hp
    exact List.forall₂_cons.mpr
      ⟨⟨hp _ (by simp), h1⟩, ih (fun a ha => hp a (by simp [ha]))⟩

/-- Chunks cut with positive sizes that fit are nonempty. -/
theorem chunksBySizes_ne_nil {α : Type} :
    ∀ (sizes : List Nat) (l : List α), (∀ s ∈ sizes, 0 < s) →
    sizes.sum ≤ l.length →
    ∀ c ∈ chunksBySizes l sizes, c ≠ [] := by
  intro sizes
  induction sizes with
  | nil => intro l _ _ c hc; simp [chunksBySizes] at hc
  | cons k ks ih =>
    intro l hpos hsum c hc
    simp only [chunksBySizes, List.mem_cons] at hc
    rcases hc with rfl | hc
    · have hk : 0 < k := hpos k (by simp)
      have hlen : 0 < (l.take k).length := by
        simp at hsum ⊢
        omega
      exact List.ne_nil_of_length_pos hlen
    · exact ih (l.drop k) (fun s hs => hpos s (by simp [hs]))
        (by simp at hsum ⊢; omega) c hc

/-- Every element of a chunk is an element of the source list. -/
theorem chunksBySizes_mem_mem {α : Type} :
    ∀ (sizes : List Nat) (l : List α) (c : List α) (x : α),
    c ∈ chunksBySizes l sizes → x ∈ c → x ∈ l := by
  intro sizes
  induction sizes with
  | nil => intro l c x hc _; simp [chunksBySizes] at hc
  | cons k ks ih =>
    intro l c x hc hx
    simp only [chunksBySizes, List.mem_cons] at hc
    rcases hc with rfl | hc
    · exact List.mem_of_mem_take hx
    · exact List.mem_of_mem_drop (ih (l.drop k) c x hc hx)

/-- Flattening after mapping flatten is double flattening. -/
theorem flatten_map_flatten {α : Type} :
    ∀ (l : List (List (List α))),
    (l.map List.flatten).flatten = l.flatten.flatten := by
  intro l
  induction l with
  | nil => rfl
  | cons a l ih => simp [ih]

/-! ### C2 machinery: collapsing the level-building loop -/

/-- One unfolding step of buildLevelsAux when more than one entry
    remains. -/
theorem buildLevelsAux_step (p : Page) (entries : List (Nat × Int))
    (h fuel : Nat) (hlen : 1 < entries.length) :
    buildLevelsAux p entries h (fuel + 1)
    = (let np0 := (entries.length + MT_CL_CHILD_CAP - 1) / MT_CL_CHILD_CAP
       let np := if np0 = 0 then 1 else np0
       let r := buildLevel p
         (chunksBySizes entries (distSizes entries.length np))
       buildLevelsAux r.1 (r.2.1.zip r.2.2) (h + 1) fuel) := by
  rw [buildLevelsAux, if_neg (by omega)]

/-- One-round collapse of buildLevelsAux: when at most a CL fan-out of
    entries remains, a single fresh internal is built over all of them
    and becomes the root of the finished level. -/
theorem buildLevelsAux_small :
    ∀ (entries : List (Nat × Int)) (kss : List (List Int)) (p : Page)
      (w h fuel : Nat),
    2 ≤ entries.length → entries.length ≤ 13 → 1 ≤ w → w + 1 ≤ 64 →
    p.slot_bitmap = 2 ^ w - 1 → p.slots.length = 63 →
    List.Forall₂ (fun (e : Nat × Int) ks => BuiltTree p w h e.1 ks)
      entries kss →
    ∃ p', buildLevelsAux p entries h (fuel + 1) = (p', w, h + 1) ∧
      p'.slot_bitmap = 2 ^ (w + 1) - 1 ∧ p'.slots.length = 63 ∧
      p'.nkeys = p.nkeys ∧ p'.root_slot = p.root_slot ∧
      p'.sub_height = p.sub_height ∧
      (∀ i, 0 < i → i < w → getSlot p' i = getSlot p i) ∧
      BuiltTree p' (w + 1) (h + 1) w kss.flatten := by
  intro entries kss p w h fuel h2 h13 hw h64 hb hl hfa
  have hne : entries ≠ [] := by
    intro he
    rw [he] at h2
    simp at h2
  have hnp : (entries.length + MT_CL_CHILD_CAP - 1) / MT_CL_CHILD_CAP = 1 := by
    simp only [MT_CL_CHILD_CAP]
    omega
  have hdist : distSizes entries.length 1 = [entries.length] := by
    simp [distSizes, List.range_succ, Nat.mod_one]
  have hchunks : chunksBySizes entries [entries.length] = [entries] := by
    simp [chunksBySizes, List.take_length]
  obtain ⟨p', heq, hb', hl', hk', hr', hh', hag', hfa', hcont'⟩ :=
    buildLevel_spec [entries] [kss] p w h hw (by simp; omega) hb hl
      (List.forall₂_cons.mpr ⟨⟨hne, hfa⟩, List.Forall₂.nil⟩)
  have hbt : BuiltTree p' (w + 1) (h + 1) w kss.flatten := by
    simpa using hfa'
  refine ⟨p', ?_, by simpa using hb', hl', hk', hr', hh', hag', hbt⟩
  rw [buildLevelsAux_step p entries h fuel (by omega)]
  simp only [hnp]
  rw [if_neg (by decide : ¬(1 = 0)), hdist, hchunks, heq]
  simp only [List.length_cons, List.length_nil, List.range'_one, List.map_cons,
    List.map_nil]
  cases fuel with
  | zero => simp [buildLevelsAux]
  | succ f => simp [buildLevelsAux]

/-- Two-round collapse of buildLevelsAux: 14–57 entries need one
    intermediate internal level (2–5 nodes) and then a single root. -/
theorem buildLevelsAux_mid :
    ∀ (entries : List (Nat × Int)) (kss : List (List Int)) (p : Page)
      (w h fuel : Nat),
    14 ≤ entries.length → entries.length ≤ 57 → 1 ≤ w →
    w + (entries.length + 12) / 13 + 1 ≤ 64 →
    p.slot_bitmap = 2 ^ w - 1 → p.slots.length = 63 →
    List.Forall₂ (fun (e : Nat × Int) ks => BuiltTree p w h e.1 ks)
      entries kss →
    ∃ p', buildLevelsAux p entries h (fuel + 2)
        = (p', w + (entries.length + 12) / 13, h + 2) ∧
      p'.slot_bitmap = 2 ^ (w + (entries.length + 12) / 13 + 1) - 1 ∧
      p'.nkeys = p.nkeys ∧ p'.root_slot = p.root_slot ∧
      p'.sub_height = p.sub_height ∧
      (∀ i, 0 < i → i < w → getSlot p' i = getSlot p i) ∧
      BuiltTree p' (w + (entries.length + 12) / 13 + 1) (h + 2)
        (w + (entries.length + 12) / 13) kss.flatten ∧
      List.Forall₂
        (fun s g => getSlot p' s
          = .inode ⟨(g.drop 1).map Prod.snd, g.map Prod.fst⟩)
        (List.range' w ((entries.length + 12) / 13))
        (chunksBySizes entries (distSizes entries.length
          ((entries.length + 12) / 13))) := by
  intro entries kss p w h fuel h14 h57 hw h64 hb hl hfa
  have hklen : kss.length = entries.length := hfa.length_eq.symm
  have hnp : (entries.length + MT_CL_CHILD_CAP - 1) / MT_CL_CHILD_CAP
      = (entries.length + 12) / 13 := by
    simp only [MT_CL_CHILD_CAP]
    congr 1
  have hnp2 : 2 ≤ (entries.length + 12) / 13 := by omega
  have hnp5 : (entries.length + 12) / 13 ≤ 5 := by omega
  have hdsum : (distSizes entries.length ((entries.length + 12) / 13)).sum
      = entries.length := distSizes_sum _ _ (by omega)
  have hdpos : ∀ s ∈ distSizes entries.length ((entries.length + 12) / 13),
      0 < s := distSizes_pos _ _ (by omega) (by omega)
  have hglen : (chunksBySizes entries
      (distSizes entries.length ((entries.length + 12) / 13))).length
      = (entries.length + 12) / 13 := by
    rw [(chunksBySizes_lengths _ _ (by rw [hdsum])).length_eq,
      distSizes_length]
  obtain ⟨p1, heq1, hb1, hl1, hk1, hr1, hh1, hag1, hfa1, hcont1⟩ :=
    buildLevel_spec
      (chunksBySizes entries
        (distSizes entries.length ((entries.length + 12) / 13)))
      (chunksBySizes kss
        (distSizes entries.length ((entries.length + 12) / 13)))
      p w h hw (by rw [hglen]; omega) hb hl
      (forall₂_and_left (chunksBySizes_forall₂ _ _ _ hfa)
        (chunksBySizes_ne_nil _ _ hdpos (by rw [hdsum])))
  rw [hglen] at heq1 hb1 hfa1 hcont1
  have hflat1 : ((chunksBySizes kss
      (distSizes entries.length ((entries.length + 12) / 13))).map
        List.flatten).flatten = kss.flatten := by
    rw [flatten_map_flatten, chunksBySizes_flatten _ _ (by omega)]
  obtain ⟨p2, heq2, hb2, hl2, hk2, hr2, hh2, hag2, hbt2⟩ :=
    buildLevelsAux_small
      ((List.range' w ((entries.length + 12) / 13)).zip
        ((chunksBySizes entries
          (distSizes entries.length ((entries.length + 12) / 13))).map
            (fun g => (g.map Prod.snd).getD 0 0)))
      ((chunksBySizes kss
        (distSizes entries.length ((entries.length + 12) / 13))).map
          List.flatten)
      p1 (w + (entries.length + 12) / 13) (h + 1) fuel
      (by simp [List.length_zip, hglen]; omega)
      (by simp [List.length_zip, hglen]; omega)
      (by omega) (by omega) hb1 hl1
      (forall₂_zip_fst hfa1 _ (by simp [hglen]))
  refine ⟨p2, ?_, hb2, by rw [hk2, hk1], by rw [hr2, hr1], by rw [hh2, hh1],
    ?_, ?_, ?_⟩
  · rw [buildLevelsAux_step p entries h (fuel + 1) (by omega)]
    simp only [hnp]
    rw [if_neg (by omega), heq1]
    exact heq2
  · intro i hi0 hiw
    rw [hag2 i hi0 (by omega), hag1 i hi0 hiw]
  · rw [← hflat1]
    exact hbt2
  · obtain ⟨hleq, hgetc⟩ := List.forall₂_iff_get.mp hcont1
    refine List.forall₂_iff_get.mpr ⟨hleq, ?_⟩
    intro i i1 i2
    have hi : i < (entries.length + 12) / 13 := by simpa using i1
    have hridx : (List.range' w ((entries.length + 12) / 13)).get ⟨i, i1⟩
        = w + i := by
      simp [List.get_eq_getElem, List.getElem_range'_1]
    have hpt := hgetc i i1 i2
    rw [hridx] at hpt ⊢
    rw [hag2 (w + i) (by omega) (by omega)]
    exact hpt

/-- distSizes over one group is the whole count. -/
theorem distSizes_one (n : Nat) : distSizes n 1 = [n] := by
  simp [distSizes, List.range_succ, Nat.mod_one]

/-- Cutting a list into one full-length chunk returns the list. -/
theorem chunksBySizes_full {α : Type} (l : List α) :
    chunksBySizes l [l.length] = [l] := by
  simp [chunksBySizes, List.take_length]

/-- chunksBySizes always produces one chunk per requested size. -/
theorem chunksBySizes_length {α : Type} :
    ∀ (sizes : List Nat) (l : List α),
    (chunksBySizes l sizes).length = sizes.length := by
  intro sizes
  induction sizes with
  | nil => intro l; rfl
  | cons k ks ih => intro l; simp [chunksBySizes, ih]

/-- Every distSizes bucket is at least the floor of the average. -/
theorem distSizes_ge (n g : Nat) : ∀ s ∈ distSizes n g, n / g ≤ s := by
  intro s hs
  simp only [distSizes, List.mem_map, List.mem_range] at hs
  obtain ⟨i, _, rfl⟩ := hs
  split
  · omega
  · omega

/-- To check MinFillSlots under a low-mask bitmap it is enough to
    cover the slots below the watermark. -/
theorem minFill_of_bitmap (p : Page) (W : Nat)
    (hb : p.slot_bitmap = 2 ^ W - 1)
    (h : ∀ i, 1 ≤ i → i < W → i ≠ p.root_slot →
      ((getSlot p i).isLeafT = true →
        MT_CL_MIN_KEYS ≤ (getSlot p i).asLeaf.keys.length) ∧
      ((getSlot p i).isInternal = true →
        MT_CL_MIN_CHILDREN ≤ (getSlot p i).asInode.children.length ∧
        MT_CL_MIN_CHILDREN - 1 ≤ (getSlot p i).asInode.keys.length)) :
    MinFillSlots p := by
  intro i hi1 hne hbit
  rw [hb, Nat.testBit_two_pow_sub_one] at hbit
  exact h i hi1 (by simpa using hbit) hne

/-- mt_page_bulk_load on 1–855 keys: the header count is the key
    count, root_slot and sub_height are in tag range, and
    extract-sorted returns exactly the loaded keys. -/
theorem mt_page_bulk_load_spec (keys : List Int)
    (h1 : 1 ≤ keys.length) (h855 : keys.length ≤ 855) :
    (mt_page_bulk_load keys).nkeys = keys.length ∧
    (mt_page_bulk_load keys).root_slot ≤ 63 ∧
    (mt_page_bulk_load keys).sub_height ≤ 2 ∧
    mt_page_extract_sorted (mt_page_bulk_load keys) = keys ∧
    MinFillSlots (mt_page_bulk_load keys) := by
  have hne0 : ¬ keys.length = 0 := by omega
  have hmain : (mt_page_bulk_load keys).nkeys = keys.length ∧
      (mt_page_bulk_load keys).root_slot ≤ 63 ∧
      (mt_page_bulk_load keys).sub_height ≤ 2 ∧
      (∃ hh, hh ≤ 2 ∧ BuiltTree (mt_page_bulk_load keys) 64 hh
        ((mt_page_bulk_load keys).root_slot) keys) ∧
      MinFillSlots (mt_page_bulk_load keys) := by
    simp only [mt_page_bulk_load]
    rw [if_neg hne0]
    simp only [MT_CL_KEY_CAP, MT_PAGE_SLOTS,
      show keys.length + 15 - 1 = keys.length + 14 from by omega]
    by_cases hc : (keys.length + 14) / 15 = 1
    · rw [if_pos hc, hc, distSizes_one, chunksBySizes_full]
      obtain ⟨p1, heqL, hbL, hlL, hkL, hrL, hhL, hagL, hfaL⟩ :=
        bulkLoadLeaves_spec [keys] emptyPage 1 (by omega) (by simp)
          (by rfl) (by simp [emptyPage, MT_PAGE_SLOTS])
      rw [heqL]
      have hbt : BuiltTree p1 2 0 1 keys := by simpa using hfaL
      refine ⟨by simp, by simp, by simp, ⟨0, by omega, ?_⟩, ?_⟩
      · have hP : BuiltTree
            { { p1 with nkeys := keys.length } with
              root_slot := (List.range' 1 [keys].length).getD 0 0,
              sub_height := 0 } 64 0 1 keys :=
          hbt.mono (by omega) (fun i _ _ => rfl)
        simpa using hP
      · refine minFill_of_bitmap _ 2 (by simpa using hbL) ?_
        intro i hi1 hiW hne
        exfalso
        apply hne
        have hieq : i = 1 := by omega
        subst hieq
        simp
    · rw [if_neg hc]
      have hnl2 : 2 ≤ (keys.length + 14) / 15 := by omega
      have hnl57 : (keys.length + 14) / 15 ≤ 57 := by omega
      have hnlle : (keys.length + 14) / 15 ≤ keys.length := by omega
      have hdsum : (distSizes keys.length ((keys.length + 14) / 15)).sum
          = keys.length := distSizes_sum _ _ (by omega)
      have hclen : (chunksBySizes keys
          (distSizes keys.length ((keys.length + 14) / 15))).length
          = (keys.length + 14) / 15 := by
        rw [(chunksBySizes_lengths _ _ (by rw [hdsum])).length_eq,
          distSizes_length]
      have hcflat : (chunksBySizes keys
          (distSizes keys.length ((keys.length + 14) / 15))).flatten
          = keys := chunksBySizes_flatten _ _ (by omega)
      obtain ⟨p1, heqL, hbL, hlL, hkL, hrL, hhL, hagL, hfaL⟩ :=
        bulkLoadLeaves_spec
          (chunksBySizes keys
            (distSizes keys.length ((keys.length + 14) / 15)))
          emptyPage 1 (by omega) (by rw [hclen]; omega)
          (by rfl) (by simp [emptyPage, MT_PAGE_SLOTS])
      rw [hclen] at heqL hbL hfaL
      rw [heqL]
      have hfaPg : List.Forall₂
          (fun s ks => BuiltTree { p1 with nkeys := keys.length }
            (1 + (keys.length + 14) / 15) 0 s ks)
          (List.range' 1 ((keys.length + 14) / 15))
          (chunksBySizes keys
            (distSizes keys.length ((keys.length + 14) / 15))) :=
        hfaL.imp (fun _ _ hb => hb.mono (by omega) (fun i _ _ => rfl))
      have hfaZip := forall₂_zip_fst hfaPg
        ((chunksBySizes keys
          (distSizes keys.length ((keys.length + 14) / 15))).map
            (fun c => c.getD 0 0))
        (by simp [hclen])
      have hleaf : ∀ i, 1 ≤ i → i ≤ (keys.length + 14) / 15 →
          ∃ ks : List Int,
            getSlot { p1 with nkeys := keys.length } i = .leaf ⟨ks⟩ ∧
            7 ≤ ks.length := by
        intro i hi1 hinl
        obtain ⟨hleq, hget⟩ := List.forall₂_iff_get.mp hfaPg
        have hidx : i - 1
            < (List.range' 1 ((keys.length + 14) / 15)).length := by
          simp
          omega
        have hidx2 : i - 1 < (chunksBySizes keys
            (distSizes keys.length ((keys.length + 14) / 15))).length := by
          rw [hclen]
          omega
        have hbt := hget (i - 1) hidx hidx2
        rw [show (List.range' 1 ((keys.length + 14) / 15)).get ⟨i - 1, hidx⟩
            = 1 + (i - 1) from by
          simp [List.get_eq_getElem, List.getElem_range'_1]] at hbt
        obtain ⟨hs0, hsw, hsl⟩ := hbt
        rw [show 1 + (i - 1) = i from by omega] at hsl
        refine ⟨_, hsl, ?_⟩
        have hfa2 := chunksBySizes_lengths
          (distSizes keys.length ((keys.length + 14) / 15)) keys
          (by rw [hdsum])
        obtain ⟨hleq2, hget2⟩ := List.forall₂_iff_get.mp hfa2
        have hidx3 : i - 1 < (distSizes keys.length
            ((keys.length + 14) / 15)).length := by
          rw [distSizes_length]
          omega
        have hlen := hget2 (i - 1) hidx2 hidx3
        rw [hlen]
        have hmem := List.get_mem (distSizes keys.length
          ((keys.length + 14) / 15)) (i - 1) hidx3
        have hge := distSizes_ge keys.length ((keys.length + 14) / 15)
          _ hmem
        have h7 : 7 ≤ keys.length / ((keys.length + 14) / 15) := by
          rw [Nat.le_div_iff_mul_le (by omega)]
          omega
        omega
      by_cases hc13 : (keys.length + 14) / 15 ≤ 13
      · obtain ⟨p2, heq2, hb2, hl2, hk2, hr2, hh2, hag2, hbt2⟩ :=
          buildLevelsAux_small
            ((List.range' 1 ((keys.length + 14) / 15)).zip
              ((chunksBySizes keys
                (distSizes keys.length ((keys.length + 14) / 15))).map
                  (fun c => c.getD 0 0)))
            (chunksBySizes keys
              (distSizes keys.length ((keys.length + 14) / 15)))
            { p1 with nkeys := keys.length }
            (1 + (keys.length + 14) / 15) 0 62
            (by simp [hclen]; omega) (by simp [hclen]; omega)
            (by omega) (by omega) hbL
            (by simpa using hlL) hfaZip
        rw [show (62 : Nat) + 1 = 63 from rfl] at heq2
        rw [heq2]
        rw [hcflat] at hbt2
        refine ⟨by simpa using hk2, by simp; omega, by simp,
          ⟨1, by omega, ?_⟩, ?_⟩
        · have hP := hbt2.mono (show 1 + (keys.length + 14) / 15 + 1 ≤ 64
            by omega) (fun i _ _ => rfl)
          simpa using hP
        · refine minFill_of_bitmap _ (1 + (keys.length + 14) / 15 + 1)
            (by simpa using hb2) ?_
          intro i hi1 hiW hne
          have hne2 : ¬ i = 1 + (keys.length + 14) / 15 := hne
          obtain ⟨ks, hsl, h7⟩ := hleaf i hi1 (by omega)
          show ((getSlot p2 i).isLeafT = true →
              MT_CL_MIN_KEYS ≤ (getSlot p2 i).asLeaf.keys.length) ∧
            ((getSlot p2 i).isInternal = true →
              MT_CL_MIN_CHILDREN
                ≤ (getSlot p2 i).asInode.children.length ∧
              MT_CL_MIN_CHILDREN - 1
                ≤ (getSlot p2 i).asInode.keys.length)
          rw [hag2 i (by omega) (by omega), hsl]
          constructor
          · intro
            simpa [CLSlot.asLeaf, MT_CL_MIN_KEYS] using h7
          · intro habs
            simp [CLSlot.isInternal] at habs
      · obtain ⟨p2, heq2, hbB, hk2, hr2, hh2, hag2, hbt2, hcont2⟩ :=
          buildLevelsAux_mid
            ((List.range' 1 ((keys.length + 14) / 15)).zip
              ((chunksBySizes keys
                (distSizes keys.length ((keys.length + 14) / 15))).map
                  (fun c => c.getD 0 0)))
            (chunksBySizes keys
              (distSizes keys.length ((keys.length + 14) / 15)))
            { p1 with nkeys := keys.length }
            (1 + (keys.length + 14) / 15) 0 61
            (by simp [hclen]; omega) (by simp [hclen]; omega)
            (by omega) (by simp [hclen]; omega) hbL
            (by simpa using hlL) hfaZip
        rw [show (61 : Nat) + 2 = 63 from rfl] at heq2
        simp only [List.length_zip, List.length_range', List.length_map,
          hclen, Nat.min_self] at heq2 hbt2 hbB hag2 hcont2
        rw [heq2]
        rw [hcflat] at hbt2
        have hglen2 : (chunksBySizes
            ((List.range' 1 ((keys.length + 14) / 15)).zip
              ((chunksBySizes keys
                (distSizes keys.length ((keys.length + 14) / 15))).map
                  (fun c => c.getD 0 0)))
            (distSizes ((keys.length + 14) / 15)
              (((keys.length + 14) / 15 + 12) / 13))).length
            = ((keys.length + 14) / 15 + 12) / 13 := by
          rw [chunksBySizes_length, distSizes_length]
        have hint : ∀ i, 1 + (keys.length + 14) / 15 ≤ i →
            i < 1 + (keys.length + 14) / 15
              + ((keys.length + 14) / 15 + 12) / 13 →
            ∃ g : List (Nat × Int),
              getSlot p2 i = .inode ⟨(g.drop 1).map Prod.snd,
                g.map Prod.fst⟩ ∧ 7 ≤ g.length := by
          intro i hiw hiW
          obtain ⟨hleqc, hgetc⟩ := List.forall₂_iff_get.mp hcont2
          have hidx : i - (1 + (keys.length + 14) / 15)
              < (List.range' (1 + (keys.length + 14) / 15)
                  (((keys.length + 14) / 15 + 12) / 13)).length := by
            simp
            omega
          have hidx2 : i - (1 + (keys.length + 14) / 15)
              < (chunksBySizes
                  ((List.range' 1 ((keys.length + 14) / 15)).zip
                    ((chunksBySizes keys
                      (distSizes keys.length
                        ((keys.length + 14) / 15))).map
                        (fun c => c.getD 0 0)))
                  (distSizes ((keys.length + 14) / 15)
                    (((keys.length + 14) / 15 + 12) / 13))).length := by
            rw [hglen2]
            omega
          have hpt := hgetc (i - (1 + (keys.length + 14) / 15)) hidx hidx2
          rw [show (List.range' (1 + (keys.length + 14) / 15)
              (((keys.length + 14) / 15 + 12) / 13)).get
              ⟨i - (1 + (keys.length + 14) / 15), hidx⟩ = i from by
            simp [List.get_eq_getElem, List.getElem_range'_1]
            omega] at hpt
          refine ⟨_, hpt, ?_⟩
          have hfa3 := chunksBySizes_lengths
            (distSizes ((keys.length + 14) / 15)
              (((keys.length + 14) / 15 + 12) / 13))
            ((List.range' 1 ((keys.length + 14) / 15)).zip
              ((chunksBySizes keys
                (distSizes keys.length ((keys.length + 14) / 15))).map
                  (fun c => c.getD 0 0)))
            (by
              rw [distSizes_sum _ _ (by omega)]
              simp [hclen])
          obtain ⟨hleq3, hget3⟩ := List.forall₂_iff_get.mp hfa3
          have hidx3 : i - (1 + (keys.length + 14) / 15)
              < (distSizes ((keys.length + 14) / 15)
                  (((keys.length + 14) / 15 + 12) / 13)).length := by
            rw [distSizes_length]
            omega
          have hlen3 := hget3 (i - (1 + (keys.length + 14) / 15))
            hidx2 hidx3
          rw [hlen3]
          have hmem3 := List.get_mem (distSizes ((keys.length + 14) / 15)
            (((keys.length + 14) / 15 + 12) / 13))
            (i - (1 + (keys.length + 14) / 15)) hidx3
          have hge3 := distSizes_ge ((keys.length + 14) / 15)
            (((keys.length + 14) / 15 + 12) / 13) _ hmem3
          have h7 : 7 ≤ (keys.length + 14) / 15
              / (((keys.length + 14) / 15 + 12) / 13) := by
            rw [Nat.le_div_iff_mul_le (by omega)]
            omega
          omega
        refine ⟨by simpa using hk2, by simp; omega, by simp,
          ⟨2, by omega, ?_⟩, ?_⟩
        · have hP := hbt2.mono
            (show 1 + (keys.length + 14) / 15
                + ((keys.length + 14) / 15 + 12) / 13 + 1 ≤ 64 by omega)
            (fun i _ _ => rfl)
          simpa using hP
        · refine minFill_of_bitmap _
            (1 + (keys.length + 14) / 15
              + ((keys.length + 14) / 15 + 12) / 13 + 1)
            (by simpa using hbB) ?_
          intro i hi1 hiW hne
          have hne2 : ¬ i = 1 + (keys.length + 14) / 15
              + ((keys.length + 14) / 15 + 12) / 13 := hne
          show ((getSlot p2 i).isLeafT = true →
              MT_CL_MIN_KEYS ≤ (getSlot p2 i).asLeaf.keys.length) ∧
            ((getSlot p2 i).isInternal = true →
              MT_CL_MIN_CHILDREN
                ≤ (getSlot p2 i).asInode.children.length ∧
              MT_CL_MIN_CHILDREN - 1
                ≤ (getSlot p2 i).asInode.keys.length)
          by_cases hil : i ≤ (keys.length + 14) / 15
          · obtain ⟨ks, hsl, h7⟩ := hleaf i hi1 hil
            rw [hag2 i (by omega) (by omega), hsl]
            constructor
            · intro
              simpa [CLSlot.asLeaf, MT_CL_MIN_KEYS] using h7
            · intro habs
              simp [CLSlot.isInternal] at habs
          · obtain ⟨g, hsl, h7g⟩ := hint i (by omega) (by omega)
            rw [hsl]
            constructor
            · intro habs
              simp [CLSlot.isLeafT] at habs
            · intro
              refine ⟨?_, ?_⟩
              · simp [CLSlot.asInode, MT_CL_MIN_CHILDREN]
                omega
              · simp [CLSlot.asInode, MT_CL_MIN_CHILDREN]
                omega
  obtain ⟨hk, hr, hh, ⟨hhh, hhle, hbt⟩, hmf⟩ := hmain
  refine ⟨hk, hr, hh, ?_, hmf⟩
  unfold mt_page_extract_sorted
  rw [if_neg (by omega)]
  exact hbt.extract_eq 64 (by omega)

/-! ### C2 machinery: outer descent toward INT32_MIN -/

/-- With every separator above INT32_MIN, the child index for
    INT32_MIN is 0. -/
theorem mt_inode_search_min (ks : List Int)
    (h : ∀ k ∈ ks, INT32_MIN < k) : mt_inode_search ks INT32_MIN = 0 := by
  cases ks with
  | nil => rfl
  | cons k ks' =>
    have hk : INT32_MIN < k := h k (by simp)
    simp [mt_inode_search, List.findIdx?_cons, hk]

/-- A DescMin descent is what findLeafT computes on query INT32_MIN. -/
theorem findLeafT_descMin :
    ∀ {h : Nat} {node : MNode} {ptr : Nat}, DescMin h node ptr →
    (findLeafT node INT32_MIN h).1 = ptr := by
  intro h
  induction h with
  | zero => intro node ptr hd; exact hd
  | succ h ih =>
    rintro node ptr ⟨ks, cs, rfl, hcs, hks, hd⟩
    simp only [findLeafT, mt_inode_search_min ks hks]
    exact ih hd

/-- The first chunk is the take of the first size. -/
theorem chunksBySizes_getD_zero {α : Type} :
    ∀ (sizes : List Nat) (l : List α), sizes ≠ [] →
    (chunksBySizes l sizes).getD 0 [] = l.take (sizes.headD 0) := by
  intro sizes l h
  cases sizes with
  | nil => simp at h
  | cons k ks => rfl

/-- Elements of chunks past the first stay past the first source
    element when every size is positive. -/
theorem chunksBySizes_tail_mem {α : Type} :
    ∀ (sizes : List Nat) (l : List α) (g : List α) (x : α),
    (∀ s ∈ sizes, 1 ≤ s) → g ∈ (chunksBySizes l sizes).tail → x ∈ g →
    x ∈ l.tail := by
  intro sizes
  cases sizes with
  | nil => intro l g x _ hg _; simp [chunksBySizes] at hg
  | cons k ks =>
    intro l g x hpos hg hx
    have hk : 1 ≤ k := hpos k (by simp)
    have hx' : x ∈ l.drop k :=
      chunksBySizes_mem_mem ks (l.drop k) g x
        (by simpa [chunksBySizes] using hg) hx
    have hdd : l.drop k = (l.drop 1).drop (k - 1) := by
      rw [List.drop_drop]
      congr 1
      omega
    rw [hdd] at hx'
    simpa using List.mem_of_mem_drop hx'

/-- Once past the leaf-tagging round, the outer level-building loop
    preserves a leftmost descent to the first leaf pointer: the first
    group always starts with the current first entry, and every
    separator recorded above comes from an entry past the first. -/
theorem outerLevelsAux_desc (st : Store) (hier : Hierarchy) :
    ∀ (fuel : Nat) (es : List (MNode × Int)) (height ptr0 : Nat),
    1 ≤ height → es ≠ [] →
    (∀ e ∈ es.tail, INT32_MIN < e.2) →
    DescMin height (es.getD 0 (.leaf 0, 0)).1 ptr0 →
    DescMin (outerLevelsAux st hier es height fuel).2
      (outerLevelsAux st hier es height fuel).1 ptr0 := by
  intro fuel
  induction fuel with
  | zero =>
    intro es height ptr0 _ _ _ hd
    simpa [outerLevelsAux] using hd
  | succ fuel ih =>
    intro es height ptr0 h1 hne htail hd
    by_cases hlen : es.length ≤ 1
    · rw [outerLevelsAux]
      rw [if_pos hlen]
      exact hd
    · have hlen2 : 2 ≤ es.length := by omega
      have hcond : ¬(height = 0 ∧ hier.use_superpages = false) :=
        fun hcc => by omega
      simp only [outerLevelsAux, if_neg hlen, if_neg hcond]
      set np0 := (es.length + MT_MAX_IKEYS) / (MT_MAX_IKEYS + 1) with hnp0
      have hnp0pos : 1 ≤ np0 := by
        rw [hnp0]
        simp [MT_MAX_IKEYS]
        omega
      have hnp0le : np0 ≤ es.length := by
        rw [hnp0]
        simp [MT_MAX_IKEYS]
        omega
      simp only [if_neg (by omega : ¬np0 = 0)]
      have hdpos : ∀ s ∈ distSizes es.length np0, 0 < s :=
        distSizes_pos _ _ (by omega) hnp0le
      have hdne : distSizes es.length np0 ≠ [] := by
        intro hs
        have := distSizes_length es.length np0
        rw [hs] at this
        simp at this
        omega
      have hs0pos : 1 ≤ (distSizes es.length np0).headD 0 := by
        refine hdpos _ ?_
        cases hds : distSizes es.length np0 with
        | nil => exact absurd hds hdne
        | cons s ss => simp
      have hchne : chunksBySizes es (distSizes es.length np0) ≠ [] := by
        intro hch
        have := chunksBySizes_length (distSizes es.length np0) es
        rw [hch, distSizes_length] at this
        simp at this
        omega
      refine ih _ (height + 1) ptr0 (by omega) (by simpa using hchne) ?_ ?_
      · intro e he
        rw [← List.map_tail] at he
        obtain ⟨g, hg, rfl⟩ := List.mem_map.mp he
        cases g with
        | nil => simp [INT32_MIN]
        | cons x g' =>
          have hx : x ∈ es.tail :=
            chunksBySizes_tail_mem _ es (x :: g') x hdpos hg (by simp)
          simpa using htail x hx
      · obtain ⟨c0, crest, hch⟩ := List.exists_cons_of_ne_nil hchne
        have hc0 : c0 = es.take ((distSizes es.length np0).headD 0) := by
          have := chunksBySizes_getD_zero (distSizes es.length np0) es hdne
          rw [hch] at this
          simpa using this
        obtain ⟨e0, es', hes⟩ := List.exists_cons_of_ne_nil hne
        obtain ⟨m, hm⟩ : ∃ m, (distSizes es.length np0).headD 0 = m + 1 :=
          ⟨(distSizes es.length np0).headD 0 - 1, by omega⟩
        have hc0' : c0 = e0 :: es'.take m := by
          rw [hc0, hm, hes]
          rfl
        rw [hch]
        simp only [List.map_cons, List.getD_cons_zero]
        refine ⟨(c0.drop 1).map Prod.snd, c0.map Prod.fst, rfl, ?_, ?_, ?_⟩
        · simp [hc0']
        · intro k hk
          rw [hc0'] at hk
          simp only [List.drop_one, List.tail_cons] at hk
          obtain ⟨e, he, rfl⟩ := List.mem_map.mp hk
          have he' : e ∈ es.tail := by
            rw [hes]
            simpa using List.mem_of_mem_take he
          exact htail e he'
        · rw [hc0']
          simpa [hes] using hd

/-! ### C2 machinery: the sibling chain and iteration -/

/-- The head facts of a sibling chain. -/
theorem chainAt_head (st : Store) {a : Nat} {c : List Int}
    {cs : List (List Int)} (h : ChainAt st a (c :: cs)) :
    mt_page_extract_sorted (st.page a) = c ∧
    (st.page a).nkeys = c.length ∧ c ≠ [] := by
  cases h with
  | last _ _ _ hext hnk hcne => exact ⟨hext, hnk, hcne⟩
  | cons _ _ _ _ _ _ hext hnk hcne _ => exact ⟨hext, hnk, hcne⟩

/-- Draining an iterator positioned inside the head of a sibling
    chain yields the rest of that leaf and then every following leaf,
    in order. -/
theorem iterAll_chain (st : Store) (hpg : 1 ≤ st.pages.length) :
    ∀ (fuel : Nat) (a : Nat) (c : List Int) (cs : List (List Int)) (j : Nat),
    ChainAt st a (c :: cs) → j ≤ c.length →
    c.length - j + (cs.map List.length).sum < fuel →
    iterAll st { leaf := some a, pos := j, nkeys := c.length, sorted := c }
      fuel = c.drop j ++ cs.flatten := by
  intro fuel
  induction fuel with
  | zero => intro a c cs j _ _ hf; omega
  | succ fuel ih =>
    intro a c cs j hch hj hf
    by_cases hjl : j < c.length
    · have hnext : matryoshka_iter_next st
          { leaf := some a, pos := j, nkeys := c.length, sorted := c }
          (st.pages.length + 1)
          = some (c.getD j 0,
              { leaf := some a, pos := j + 1, nkeys := c.length,
                sorted := c }) := by
        simp [matryoshka_iter_next, iterNextLoop, hjl]
      rw [iterAll, hnext]
      dsimp only
      rw [ih a c cs (j + 1) hch (by omega) (by omega)]
      have hsplit : List.drop j c ++ cs.flatten
          = c.getD j 0 :: (List.drop (j + 1) c ++ cs.flatten) := by
        rw [List.drop_eq_getElem_cons hjl, List.cons_append]
        simp only [List.getD_eq_getElem?_getD, List.getElem?_eq_getElem hjl,
          Option.getD_some]
      rw [hsplit]
    · have hj' : j = c.length := by omega
      subst hj'
      cases hch with
      | last _ _ hnone hext hnk hcne =>
        have hnext : matryoshka_iter_next st
            { leaf := some a, pos := c.length, nkeys := c.length,
              sorted := c } (st.pages.length + 1) = none := by
          simp [matryoshka_iter_next, iterNextLoop, hnone]
        rw [iterAll, hnext]
        simp
      | cons _ a' _ c' cs' hsome hext hnk hcne hch' =>
        obtain ⟨hext', hnk', hcne'⟩ := chainAt_head st hch'
        obtain ⟨m, hm⟩ : ∃ m, st.pages.length = m + 1 :=
          ⟨st.pages.length - 1, by omega⟩
        have hc'pos : 0 < c'.length := List.length_pos.mpr hcne'
        have hnext : matryoshka_iter_next st
            { leaf := some a, pos := c.length, nkeys := c.length,
              sorted := c } (st.pages.length + 1)
            = some (c'.getD 0 0,
                { leaf := some a', pos := 1, nkeys := c'.length,
                  sorted := c' }) := by
          rw [hm]
          simp only [matryoshka_iter_next]
          rw [iterNextLoop]
          simp only [if_neg (by omega : ¬(c.length < c.length))]
          simp only [Option.getD_some, hsome]
          have hload : iter_load_leaf st
              { leaf := some a', pos := 0, nkeys := c.length, sorted := c }
              = { leaf := some a', pos := 0, nkeys := c'.length,
                  sorted := c' } := by
            simp [iter_load_leaf, hnk', hc'pos, hext']
          rw [hload, iterNextLoop]
          simp [hc'pos]
        rw [iterAll, hnext]
        dsimp only
        rw [ih a' c' cs' 1 hch' (by omega) (by simp at hf ⊢; omega)]
        cases c' with
        | nil => exact absurd rfl hcne'
        | cons y ys => simp

/-- Assemble a ChainAt from per-page facts over consecutively
    addressed pages. -/
theorem chainAt_mk (st : Store) :
    ∀ (cs : List (List Int)) (i : Nat), cs ≠ [] →
    (∀ j, j + 1 < cs.length →
      (st.get (4096 * (i + j))).next = some (4096 * (i + j + 1))) →
    (st.get (4096 * (i + cs.length - 1))).next = none →
    (∀ j, j < cs.length →
      mt_page_extract_sorted (st.page (4096 * (i + j))) = cs.getD j [] ∧
      (st.page (4096 * (i + j))).nkeys = (cs.getD j []).length ∧
      cs.getD j [] ≠ []) →
    ChainAt st (4096 * i) cs := by
  intro cs
  induction cs with
  | nil => intro i h _ _ _; exact absurd rfl h
  | cons c cs' ih =>
    intro i _ hnexts hlast hfacts
    obtain ⟨hext, hnk, hcne⟩ := hfacts 0 (by simp)
    cases cs' with
    | nil =>
      refine ChainAt.last _ c ?_ ?_ ?_ ?_
      · simpa using hlast
      · simpa using hext
      · simpa using hnk
      · simpa using hcne
    | cons c' cs'' =>
      refine ChainAt.cons _ (4096 * (i + 1)) _ _ _ ?_ ?_ ?_ ?_ ?_
      · simpa using hnexts 0 (by simp)
      · simpa using hext
      · simpa using hnk
      · simpa using hcne
      · refine ih (i + 1) (by simp) ?_ ?_ ?_
        · intro j hj
          have h := hnexts (j + 1) (by simp at hj ⊢; omega)
          have hidx : i + (j + 1) = i + 1 + j := by omega
          rw [hidx] at h
          exact h
        · have hidx : i + (c :: c' :: cs'').length - 1
              = i + 1 + (c' :: cs'').length - 1 := by
            simp
            omega
          rw [hidx] at hlast
          exact hlast
        · intro j hj
          have h := hfacts (j + 1) (by simp at hj ⊢; omega)
          have hidx : i + (j + 1) = i + 1 + j := by omega
          rw [hidx] at h
          simpa using h

/-- getD one past the head reads the tail. -/
theorem getD_succ_tail {α : Type} (l : List α) (j : Nat) (d : α) :
    l.getD (j + 1) d = l.tail.getD j d := by
  cases l with
  | nil => rfl
  | cons x xs => rfl

/-- Full iteration from INT32_MIN of a tree state whose store chains
    the leaf contents c0 :: cs from address 0, and whose outer descent
    toward INT32_MIN lands on address 0: the iteration is the
    concatenated chain. -/
theorem iterate_of_chain (s : MTreeState) (c0 : List Int)
    (cs : List (List Int))
    (hn : ¬s.n = 0)
    (hch : ChainAt s.store 0 (c0 :: cs))
    (hpg : 1 ≤ s.store.pages.length)
    (huntag : mt_untag (findLeafT s.root INT32_MIN s.height).1 = 0)
    (hc0 : ∃ k0 c0t, c0 = k0 :: c0t ∧ INT32_MIN ≤ k0)
    (hfuel : c0.length + (cs.map List.length).sum
      < s.n + s.store.pages.length + 1) :
    matryoshka_iterate s INT32_MIN = c0 ++ cs.flatten := by
  obtain ⟨hext, hnk, hcne⟩ := chainAt_head _ hch
  obtain ⟨k0, c0t, hc0e, hk0⟩ := hc0
  have hfrom : matryoshka_iter_from s INT32_MIN
      = { leaf := some 0, pos := 0, nkeys := c0.length, sorted := c0 } := by
    simp only [matryoshka_iter_from]
    rw [if_neg hn, huntag]
    have hload : iter_load_leaf s.store
        { leaf := some 0, pos := 0, nkeys := 0, sorted := [] }
        = { leaf := some 0, pos := 0, nkeys := c0.length, sorted := c0 } := by
      simp [iter_load_leaf, hext, hnk, List.length_pos.mpr hcne]
    rw [hload]
    have hidx : (c0.findIdx? (fun x => decide (INT32_MIN ≤ x))).getD c0.length
        = 0 := by
      rw [hc0e]
      simp [List.findIdx?_cons, hk0]
    simp only [hidx]
    rw [if_neg (by rw [hc0e]; simp)]
  rw [matryoshka_iterate, hfrom]
  have := iterAll_chain s.store hpg (s.n + s.store.pages.length + 1)
    0 c0 cs 0 hch (by omega) (by omega)
  simpa using this

/-- Untagging a freshly made tag of page address 0 gives 0 back when
    the tag fields are in range. -/
theorem mt_untag_tag_zero (st : Store)
    (hroot : (st.page 0).root_slot ≤ 63)
    (hsub : (st.page 0).sub_height ≤ 2) :
    mt_untag (mt_tag_leaf_ptr st 0) = 0 := by
  have h1 : (st.page 0).root_slot < 2 ^ 12 := by
    have h12 : (2 : Nat) ^ 12 = 4096 := by norm_num
    omega
  have h2 : (st.page 0).sub_height <<< 6 < 2 ^ 12 := by
    rw [Nat.shiftLeft_eq]
    rw [show (2 : Nat) ^ 6 = 64 from by norm_num,
      show (2 : Nat) ^ 12 = 4096 from by norm_num]
    omega
  have ht : (st.page 0).root_slot ||| ((st.page 0).sub_height <<< 6)
      < 4096 := by
    have := Nat.or_lt_two_pow h1 h2
    simpa [show (2 : Nat) ^ 12 = 4096 from by norm_num] using this
  simp only [mt_tag_leaf_ptr, Nat.zero_or]
  rw [mt_untag, Nat.mod_eq_of_lt ht]
  omega
/-- C2: bulk-loading a strictly ascending sequence of int32-range
    keys and then iterating from INT32_MIN returns exactly that
    sequence, in the same order. -/
theorem c2_bulk_load_iterate (keys : List Int)
    (hsort : List.Pairwise (fun a b => a < b) keys)
    (hlow : ∀ k ∈ keys, INT32_MIN ≤ k) :
    matryoshka_iterate (matryoshka_bulk_load keys) INT32_MIN = keys := by
  by_cases hnil : keys.length = 0
  · have hk : keys = [] := List.eq_nil_of_length_eq_zero hnil
    subst hk
    rfl
  · have hkeysne : keys ≠ [] := fun h => hnil (by rw [h]; rfl)
    obtain ⟨k0, kt, hkeys⟩ := List.exists_cons_of_ne_nil hkeysne
    have hpmk : mt_hierarchy_init_default.page_max_keys = 855 := by decide
    set NLt := (keys.length + 855 - 1) / 855 with hNLt
    have hNL1 : 1 ≤ NLt := by omega
    have hNLle : NLt ≤ keys.length := by omega
    set SZt := distSizes keys.length NLt with hSZt
    set CHt := chunksBySizes keys SZt with hCHt
    have hSZsum : SZt.sum = keys.length := distSizes_sum _ _ (by omega)
    have hSZpos : ∀ s ∈ SZt, 0 < s := distSizes_pos _ _ (by omega) hNLle
    have hSZle : ∀ s ∈ SZt, s ≤ 855 := distSizes_le _ _ 855 (by omega) (by omega)
    have hSZlen : SZt.length = NLt := distSizes_length _ _
    have hSZne : SZt ≠ [] := by
      intro h
      rw [h] at hSZlen
      simp at hSZlen
      omega
    have hchlen : CHt.length = NLt := by
      rw [hCHt, (chunksBySizes_lengths SZt keys (by rw [hSZsum])).length_eq,
        hSZlen]
    have hflat : CHt.flatten = keys :=
      chunksBySizes_flatten _ _ (by rw [hSZsum])
    have hCHne : CHt ≠ [] := by
      intro h
      rw [h] at hchlen
      simp at hchlen
      omega
    have hper : ∀ j, j < NLt →
        1 ≤ (CHt.getD j []).length ∧ (CHt.getD j []).length ≤ 855 := by
      intro j hj
      have hjlen : j < CHt.length := by omega
      have hfa := chunksBySizes_lengths SZt keys (by rw [hSZsum])
      obtain ⟨hlen2, hget⟩ := List.forall₂_iff_get.mp hfa
      have hjz : j < SZt.length := by omega
      have hgj := hget j hjlen hjz
      have hmemz : SZt.get ⟨j, hjz⟩ ∈ SZt := List.get_mem _ _ _
      have hgd : CHt.getD j [] = CHt.get ⟨j, hjlen⟩ := by
        rw [List.getD_eq_getElem?_getD,
          List.getElem?_eq_getElem hjlen]
        rfl
      rw [hgd, hgj]
      exact ⟨hSZpos _ hmemz, hSZle _ hmemz⟩
    have hheadSZ : 1 ≤ SZt.headD 0 := by
      refine hSZpos _ ?_
      cases hs : SZt with
      | nil => exact absurd hs hSZne
      | cons a l => simp
    have hc0take : CHt.getD 0 [] = keys.take (SZt.headD 0) :=
      chunksBySizes_getD_zero SZt keys hSZne
    set ST := (⟨(List.range NLt).map (fun i =>
      some (PageRec.mk (mt_page_bulk_load (CHt.getD i []))
        (if 0 < i then some (4096 * (i - 1)) else none)
        (if i + 1 < NLt then some (4096 * (i + 1)) else none)))⟩ : Store)
      with hST
    set ENT := (List.range NLt).map (fun i =>
      (MNode.leaf (4096 * i), (CHt.getD i []).getD 0 0)) with hENT
    have hS : matryoshka_bulk_load keys
        = { root := (outerLevelsAux ST mt_hierarchy_init_default ENT 0 64).1,
            n := keys.length,
            height := (outerLevelsAux ST mt_hierarchy_init_default ENT 0 64).2,
            hier := mt_hierarchy_init_default,
            store := ST } := by
      rw [hST, hENT, hCHt, hSZt, hNLt]
      simp only [matryoshka_bulk_load, matryoshka_bulk_load_with, hpmk]
      rw [if_neg hnil]
    have hSTlen : ST.pages.length = NLt := by
      rw [hST]
      simp
    have hENTlen : ENT.length = NLt := by
      rw [hENT]
      simp
    have hget : ∀ j, j < NLt → ST.get (4096 * j)
        = PageRec.mk (mt_page_bulk_load (CHt.getD j []))
            (if 0 < j then some (4096 * (j - 1)) else none)
            (if j + 1 < NLt then some (4096 * (j + 1)) else none) := by
      intro j hj
      rw [hST, Store.get]
      have hdiv : 4096 * j / 4096 = j :=
        Nat.mul_div_cancel_left j (by norm_num)
      rw [hdiv]
      simp [List.getD_eq_getElem?_getD, List.getElem?_map,
        List.getElem?_range hj]
    have hpage : ∀ j, j < NLt →
        ST.page (4096 * j) = mt_page_bulk_load (CHt.getD j []) := by
      intro j hj
      rw [Store.page, hget j hj]
    have hchain : ChainAt ST 0 CHt := by
      have h0 : (0 : Nat) = 4096 * 0 := by norm_num
      rw [h0]
      refine chainAt_mk ST CHt 0 hCHne ?_ ?_ ?_
      · intro j hj
        rw [hchlen] at hj
        have := hget j (by omega)
        rw [show 0 + j = j from by omega]
        rw [this, if_pos hj]
      · rw [show 0 + CHt.length - 1 = NLt - 1 from by omega]
        rw [hget (NLt - 1) (by omega)]
        simp only [if_neg (show ¬(NLt - 1 + 1 < NLt) from by omega)]
      · intro j hj
        rw [hchlen] at hj
        rw [show 0 + j = j from by omega]
        rw [hpage j hj]
        obtain ⟨hp1, hp855⟩ := hper j hj
        obtain ⟨hnk, _, _, hext, _⟩ :=
          mt_page_bulk_load_spec (CHt.getD j []) hp1 hp855
        refine ⟨hext, by rw [hnk], ?_⟩
        intro hcnil
        rw [hcnil] at hp1
        simp at hp1
    rw [hS]
    obtain ⟨c0, cs, hCHcons⟩ := List.exists_cons_of_ne_nil hCHne
    have hc0head : ∃ c0t, c0 = k0 :: c0t := by
      have h1 := hc0take
      rw [hCHcons] at h1
      simp only [List.getD_cons_zero] at h1
      obtain ⟨m, hm⟩ : ∃ m, SZt.headD 0 = m + 1 :=
        ⟨SZt.headD 0 - 1, by omega⟩
      rw [hm, hkeys] at h1
      exact ⟨kt.take m, by rw [h1]; rfl⟩
    have huntag : mt_untag (findLeafT
        (outerLevelsAux ST mt_hierarchy_init_default ENT 0 64).1 INT32_MIN
        (outerLevelsAux ST mt_hierarchy_init_default ENT 0 64).2).1 = 0 := by
      by_cases hNL1' : NLt = 1
      · have hroot1 : outerLevelsAux ST mt_hierarchy_init_default ENT 0 64
            = ((ENT.getD 0 (MNode.leaf 0, 0)).1, 0) := by
          rw [show (64 : Nat) = 63 + 1 from rfl, outerLevelsAux,
            if_pos (by rw [hENTlen]; omega)]
        rw [hroot1]
        have hent0 : (ENT.getD 0 (MNode.leaf 0, 0)).1 = MNode.leaf 0 := by
          rw [hENT, hNL1']
          simp [List.range_succ]
        rw [hent0]
        rfl
      · -- two or more pages: one tagging round, then the descent
        -- invariant through the remaining rounds
        have hNL2 : 2 ≤ NLt := by omega
        have htailENT : ∀ e ∈ ENT.tail, INT32_MIN < e.2 := by
          intro e he
          obtain ⟨m, hm⟩ : ∃ m, NLt = m + 1 := ⟨NLt - 1, by omega⟩
          rw [hENT, ← List.map_tail, hm, List.range_succ_eq_map,
            List.tail_cons] at he
          obtain ⟨i, hi, rfl⟩ := List.mem_map.mp he
          obtain ⟨j, hj, rfl⟩ := List.mem_map.mp hi
          have hjm : j < m := List.mem_range.mp hj
          have hj1 : j + 1 < NLt := by omega
          have hlen1 := (hper (j + 1) hj1).1
          have hchmem : CHt.getD (j + 1) [] ∈ CHt.tail := by
            rw [getD_succ_tail]
            have hjt : j < CHt.tail.length := by
              rw [List.length_tail, hchlen]
              omega
            rw [List.getD_eq_getElem?_getD, List.getElem?_eq_getElem hjt]
            simpa using List.getElem_mem hjt
          have hhead : (CHt.getD (j + 1) []).getD 0 0 ∈ CHt.getD (j + 1) [] := by
            cases hcc : CHt.getD (j + 1) [] with
            | nil =>
              rw [hcc] at hlen1
              simp at hlen1
            | cons y ys => simp
          have hkmem : (CHt.getD (j + 1) []).getD 0 0 ∈ keys.tail :=
            chunksBySizes_tail_mem SZt keys _ _
              (fun s hs => hSZpos s hs) hchmem hhead
          rw [hkeys] at hkmem
          simp only [List.tail_cons] at hkmem
          have hk0lt : k0 < (CHt.getD (j + 1) []).getD 0 0 :=
            (List.pairwise_cons.mp (by rw [hkeys] at hsort; exact hsort)).1
              _ hkmem
          have hk0ge : INT32_MIN ≤ k0 := hlow k0 (by rw [hkeys]; simp)
          simpa using lt_of_le_of_lt hk0ge hk0lt
        have hnp0pos : ¬((ENT.length + MT_MAX_IKEYS)
            / (MT_MAX_IKEYS + 1) = 0) := by
          rw [hENTlen]
          simp [MT_MAX_IKEYS]
          omega
        have hnpEpos : 0 < (ENT.length + MT_MAX_IKEYS)
            / (MT_MAX_IKEYS + 1) := Nat.pos_of_ne_zero (fun h => hnp0pos h)
        have hSZEpos : ∀ s ∈ distSizes ENT.length
            ((ENT.length + MT_MAX_IKEYS) / (MT_MAX_IKEYS + 1)), 0 < s := by
          refine distSizes_pos _ _ hnpEpos ?_
          rw [hENTlen]
          simp [MT_MAX_IKEYS]
          omega
        have hSZEne : distSizes ENT.length
            ((ENT.length + MT_MAX_IKEYS) / (MT_MAX_IKEYS + 1)) ≠ [] := by
          intro h
          have := distSizes_length ENT.length
            ((ENT.length + MT_MAX_IKEYS) / (MT_MAX_IKEYS + 1))
          rw [h] at this
          simp at this
          omega
        have hGEne : chunksBySizes ENT (distSizes ENT.length
            ((ENT.length + MT_MAX_IKEYS) / (MT_MAX_IKEYS + 1))) ≠ [] := by
          intro h
          have := chunksBySizes_length (distSizes ENT.length
            ((ENT.length + MT_MAX_IKEYS) / (MT_MAX_IKEYS + 1))) ENT
          rw [h, distSizes_length] at this
          simp at this
          omega
        obtain ⟨g0, grest, hGEeq⟩ := List.exists_cons_of_ne_nil hGEne
        have hheadE : 1 ≤ (distSizes ENT.length
            ((ENT.length + MT_MAX_IKEYS) / (MT_MAX_IKEYS + 1))).headD 0 := by
          refine hSZEpos _ ?_
          cases hs : distSizes ENT.length
              ((ENT.length + MT_MAX_IKEYS) / (MT_MAX_IKEYS + 1)) with
          | nil => exact absurd hs hSZEne
          | cons a l => simp
        have hg0 : g0 = ENT.take ((distSizes ENT.length
            ((ENT.length + MT_MAX_IKEYS) / (MT_MAX_IKEYS + 1))).headD 0) := by
          have h1 := chunksBySizes_getD_zero (distSizes ENT.length
            ((ENT.length + MT_MAX_IKEYS) / (MT_MAX_IKEYS + 1))) ENT hSZEne
          rw [hGEeq] at h1
          simpa using h1
        have hENTcons : ∃ t, ENT
            = (MNode.leaf (4096 * 0), (CHt.getD 0 []).getD 0 0) :: t := by
          obtain ⟨m, hm⟩ : ∃ m, NLt = m + 1 := ⟨NLt - 1, by omega⟩
          refine ⟨((List.range m).map Nat.succ).map (fun i =>
            (MNode.leaf (4096 * i), (CHt.getD i []).getD 0 0)), ?_⟩
          rw [hENT, hm, List.range_succ_eq_map]
          rfl
        obtain ⟨entl, hENTc⟩ := hENTcons
        obtain ⟨me, hme⟩ : ∃ me, (distSizes ENT.length
            ((ENT.length + MT_MAX_IKEYS) / (MT_MAX_IKEYS + 1))).headD 0
            = me + 1 := ⟨(distSizes ENT.length
              ((ENT.length + MT_MAX_IKEYS) / (MT_MAX_IKEYS + 1))).headD 0 - 1,
              by omega⟩
        have hg0c : g0 = (MNode.leaf (4096 * 0), (CHt.getD 0 []).getD 0 0)
            :: entl.take me := by
          rw [hg0, hme, hENTc]
          rfl
        have hdesc : DescMin
            (outerLevelsAux ST mt_hierarchy_init_default ENT 0 64).2
            (outerLevelsAux ST mt_hierarchy_init_default ENT 0 64).1
            (mt_tag_leaf_ptr ST 0) := by
          rw [show (64 : Nat) = 63 + 1 from rfl, outerLevelsAux,
            if_neg (by rw [hENTlen]; omega)]
          have huse : mt_hierarchy_init_default.use_superpages = false := rfl
          simp only [if_neg hnp0pos, eq_self_iff_true, true_and, if_pos huse]
          refine outerLevelsAux_desc ST mt_hierarchy_init_default 63 _ 1
            (mt_tag_leaf_ptr ST 0) (by omega) ?_ ?_ ?_
          · simpa using hGEne
          · intro e he
            rw [← List.map_tail] at he
            obtain ⟨g, hg, rfl⟩ := List.mem_map.mp he
            cases g with
            | nil =>
              show INT32_MIN < (([] : List (MNode × Int)).map Prod.snd).getD 0 0
              simp [INT32_MIN]
            | cons x g' =>
              have hx : x ∈ ENT.tail :=
                chunksBySizes_tail_mem _ ENT (x :: g') x
                  (fun s hs => hSZEpos s hs) hg (by simp)
              simpa using htailENT x hx
          · rw [hGEeq]
            simp only [List.map_cons, List.getD_cons_zero]
            refine ⟨(g0.drop 1).map Prod.snd,
              g0.map (fun p => MNode.leaf (mt_tag_leaf_ptr ST p.1.ptrVal)),
              rfl, ?_, ?_, ?_⟩
            · rw [hg0c]
              simp
            · intro k hk
              rw [hg0c] at hk
              simp only [List.drop_one, List.tail_cons] at hk
              obtain ⟨e, he, rfl⟩ := List.mem_map.mp hk
              have he' : e ∈ ENT.tail := by
                rw [hENTc]
                simpa using List.mem_of_mem_take he
              exact htailENT e he'
            · rw [hg0c]
              simp only [List.map_cons, List.getD_cons_zero]
              show (MNode.leaf (mt_tag_leaf_ptr ST
                (MNode.ptrVal (MNode.leaf (4096 * 0))))).ptrVal
                = mt_tag_leaf_ptr ST 0
              simp [MNode.ptrVal]
        rw [findLeafT_descMin hdesc]
        have hpage0 : ST.page 0 = mt_page_bulk_load (CHt.getD 0 []) := by
          have := hpage 0 (by omega)
          simpa using this
        obtain ⟨hp1, hp855⟩ := hper 0 (by omega)
        obtain ⟨_, hroot63, hsub2, _, _⟩ :=
          mt_page_bulk_load_spec (CHt.getD 0 []) hp1 hp855
        refine mt_untag_tag_zero ST ?_ ?_
        · rw [hpage0]
          exact hroot63
        · rw [hpage0]
          exact hsub2
    have hfuelc : c0.length + (cs.map List.length).sum = keys.length := by
      have h1 := congrArg List.length hflat
      rw [hCHcons] at h1
      simpa using h1
    refine Eq.trans (iterate_of_chain _ c0 cs hnil ?_ ?_ ?_ ?_ ?_) ?_
    · show ChainAt ST 0 (c0 :: cs)
      rw [← hCHcons]
      exact hchain
    · show 1 ≤ ST.pages.length
      omega
    · exact huntag
    · obtain ⟨c0t, hc0t⟩ := hc0head
      exact ⟨k0, c0t, hc0t, hlow k0 (by rw [hkeys]; simp)⟩
    · show c0.length + (cs.map List.length).sum
        < keys.length + ST.pages.length + 1
      omega
    · rw [← hflat, hCHcons]
      rfl

/-- Witness for C2 at a concrete ascending sequence. -/
theorem c2_bulk_load_iterate_witness :
    List.Pairwise (fun a b => a < b) ([0, 10, 20] : List Int) ∧
    (∀ k ∈ ([0, 10, 20] : List Int), INT32_MIN ≤ k) ∧
    matryoshka_iterate (matryoshka_bulk_load [0, 10, 20]) INT32_MIN
      = [0, 10, 20] :=
  ⟨by decide, by decide,
    c2_bulk_load_iterate [0, 10, 20] (by decide) (by decide)⟩

/-- C10: every public API operation is total on a NULL handle:
    matryoshka_size(NULL) returns 0; matryoshka_search, contains,
    insert and delete with a NULL tree return false; and
    matryoshka_iter_next with a NULL iterator returns false — in every
    case without dereferencing the handle or mutating any state
    (insert and delete hand back the NULL handle unchanged, search
    reports no result). -/
theorem c10_null_handle_total :
    matryoshka_size_api none = 0 ∧
    (∀ k : Int, matryoshka_search_api none k = (false, none)) ∧
    (∀ k : Int, matryoshka_contains_api none k = false) ∧
    (∀ k : Int, matryoshka_insert_api none k = (false, none)) ∧
    (∀ k : Int, matryoshka_delete_api none k = (false, none)) ∧
    (∀ (st : Store) (fuel : Nat), matryoshka_iter_next_api st none fuel = none) :=
  ⟨rfl, fun _ => rfl, fun _ => rfl, fun _ => rfl, fun _ => rfl,
   fun _ _ => rfl⟩

/-- C3 (code-bug evidence): on c3_page — reached from a page bulk load
    and two page inserts — inserting 61 returns MT_PAGE_FULL from the
    mid-propagation slot_alloc failure, with header nkeys = 813 while
    only 805 keys remain reachable from root_slot: the freshly split
    right CL leaf (slot 63, holding the 8 keys 74..88) was never
    linked into its full parent, so extract-sorted and the page split
    that follows a PAGE_FULL lose those keys.  This contradicts the
    claim (and the code's own comment) that the data in place stays
    consistent whenever slot_alloc returns 0. -/
theorem c3_page_full_inconsistent :
    (mt_page_insert c3_page 61).1 = .pageFull ∧
    (mt_page_insert c3_page 61).2.nkeys = 813 ∧
    (mt_page_extract_sorted (mt_page_insert c3_page 61).2).length = 805 ∧
    getSlot (mt_page_insert c3_page 61).2 63 =
      .leaf ⟨[74, 76, 78, 80, 82, 84, 86, 88]⟩ := by
  decide

/-- C8 (counterexample): in the reachable state bulk_load [0..195] the
    page sub-tree root sits at slot 17 and slot 15 holds a non-root CL
    internal with only 6 separator entries (7 children), violating the
    claimed floor of 7 separator entries for non-root CL internals. -/
theorem c8_counterexample :
    (c8_tree.store.page 0).root_slot = 17 ∧
    (getSlot (c8_tree.store.page 0) 15).isInternal = true ∧
    (getSlot (c8_tree.store.page 0) 15).asInode.keys.length = 6 := by
  decide


/-- Splitting the c4 deletion sequence at step 150. -/
theorem c4_dels_add (j : Nat) :
    c4_dels (150 + j) = c4_contFrom (c4_dels 150) j := by
  induction j with
  | zero => rfl
  | succ j ih =>
    have h : c4_dels (150 + (j + 1)) =
        (matryoshka_delete (c4_dels (150 + j))
          (855 - ((150 + j : Nat) : Int))).2 := rfl
    rw [h, ih]
    rfl

/-- The captured state equals the computed one. -/
theorem c4_dels_150_eq : c4_dels 150 = c4_lit150 := by
  rfl

/-- C4 (code-bug evidence): in c4_dels 216 — reached from
    bulk_load [0..855] by deleting 855 down to 640 — the 216th delete
    underflows the right page and rebalance_leaf re-bulk-loads both
    pages without re-tagging the parent's child pointers: the stored
    pointer for child 0 still encodes root_slot 33 / sub_height 2
    while the page header now says root_slot 25 (the mask part of the
    claim holds — the untagged pointer is the page base — but the
    embedded root_slot no longer matches the header, contradicting the
    claim and the refresh rule the code applies on every other path). -/
theorem c4_stale_tag_after_rebalance :
    mt_untag ((c4_dels 216).root.childrenOf.getD 0 (.leaf 0)).ptrVal = 0 ∧
    mt_ptr_root_slot ((c4_dels 216).root.childrenOf.getD 0 (.leaf 0)).ptrVal
      = 33 ∧
    mt_ptr_sub_height ((c4_dels 216).root.childrenOf.getD 0 (.leaf 0)).ptrVal
      = 2 ∧
    ((c4_dels 216).store.page 0).root_slot = 25 ∧
    ((c4_dels 216).store.page 0).sub_height = 2 := by
  have h : c4_dels 216 = c4_contFrom c4_lit150 66 := by
    have h2 := c4_dels_add 66
    rw [c4_dels_150_eq] at h2
    exact h2
  rw [h]
  decide

set_option maxHeartbeats 4000000 in
/-- C1: the predecessor-correctness claim fails on a reachable tree
    state.  Bulk-loading the 810 even keys 0, 2, …, 1618 and then
    inserting 1, 31 and 61 — each insert reporting success — produces
    a state in which the bulk-loaded key 74, never deleted, is no
    longer found: search(74) returns 72 instead of 74 and contains(74)
    is false.  (The third insert hits the PAGE_FULL inconsistency of
    C3, and the page split that follows drops the orphaned keys.)  The
    claim's concrete S1 examples do hold: on the 0,10,…,990 tree,
    search(55) returns 50 and search(-1) reports no result. -/
theorem c1_search_loses_stored_key :
    (matryoshka_insert c1_t0 1).1 = true ∧
    (matryoshka_insert c1_t1 31).1 = true ∧
    (matryoshka_insert c1_t2 61).1 = true ∧
    (74 : Int) ∈ (List.range 810).map (fun i => (2 * i : Int)) ∧
    matryoshka_search c1_t3 74 = some 72 ∧
    matryoshka_contains c1_t3 74 = false ∧
    matryoshka_search s1_tree 55 = some 50 ∧
    matryoshka_search s1_tree (-1) = none := by
  refine ⟨by decide, by decide, by decide, by decide, by decide, by decide,
    by decide, by decide⟩
set_option maxHeartbeats 8000000 in
/-- C5: the insert-then-delete law fails on a reachable tree state.
    On c1_t2 (bulk_load of 0,2,…,1618 then two successful inserts)
    the key 61 is absent; insert(61) succeeds and then delete(61)
    succeeds, but the final iteration has 804 keys where the
    pre-insert iteration had 812 — the insert's page split ran from an
    extract that had lost the orphaned CL leaf (C3), so insert;delete
    does not return the tree to its pre-insert iteration. -/
theorem c5_insert_delete_not_restored :
    matryoshka_contains c1_t2 61 = false ∧
    (matryoshka_insert c1_t2 61).1 = true ∧
    (matryoshka_delete c1_t3 61).1 = true ∧
    (matryoshka_iterate c1_t2 INT32_MIN).length = 812 ∧
    (matryoshka_iterate (matryoshka_delete c1_t3 61).2 INT32_MIN).length
      = 804 ∧
    matryoshka_iterate (matryoshka_delete c1_t3 61).2 INT32_MIN
      ≠ matryoshka_iterate c1_t2 INT32_MIN := by
  refine ⟨by decide, by decide, by decide, by decide, by decide, ?_⟩
  intro h
  have hlen := congrArg List.length h
  rw [show (matryoshka_iterate c1_t2 INT32_MIN).length = 812 from by decide,
    show (matryoshka_iterate (matryoshka_delete c1_t3 61).2
      INT32_MIN).length = 804 from by decide] at hlen
  exact absurd hlen (by decide)

set_option maxHeartbeats 8000000 in
/-- C9: the first-yield claim of iter_from fails on a reachable tree
    state.  In c1_t3 the key 74 is stored (bulk-loaded, never deleted,
    every subsequent insert succeeded), so the smallest stored key
    ≥ 74 is 74 itself; yet iter_from(74) followed by one iter_next
    yields 90 — the orphaned CL leaf holding 74..88 was dropped by the
    C3 page split, and the iterator walks the surviving keys only. -/
theorem c9_iter_from_skips_stored_key :
    matryoshka_contains c1_t0 74 = true ∧
    (matryoshka_insert c1_t0 1).1 = true ∧
    (matryoshka_insert c1_t1 31).1 = true ∧
    (matryoshka_insert c1_t2 61).1 = true ∧
    (matryoshka_iter_next c1_t3.store (matryoshka_iter_from c1_t3 74)
      (c1_t3.store.pages.length + 1)).map Prod.fst = some 90 := by
  refine ⟨by decide, by decide, by decide, by decide, by decide⟩
/-! ### Lower-bound binary search on sorted CL leaves -/

theorem slotOk_free : SlotOk .free := by
  constructor <;> intro h <;> simp [CLSlot.isLeafT, CLSlot.isInternal] at h

theorem slotOk_leaf (cl : CLLeaf) (h : MT_CL_MIN_KEYS ≤ cl.keys.length) :
    SlotOk (.leaf cl) := by
  constructor
  · intro _
    exact h
  · intro h2
    simp [CLSlot.isInternal] at h2

theorem slotOk_inode (cl : CLInode)
    (h1 : MT_CL_MIN_CHILDREN ≤ cl.children.length)
    (h2 : MT_CL_MIN_CHILDREN - 1 ≤ cl.keys.length) :
    SlotOk (.inode cl) := by
  constructor
  · intro h3
    simp [CLSlot.isLeafT] at h3
  · intro _
    exact ⟨h1, h2⟩

theorem slotFloor_ok (s : CLSlot) (h : slotFloor s = true) : SlotOk s := by
  cases s with
  | free => exact slotOk_free
  | leaf cl =>
    exact slotOk_leaf cl (by simpa [slotFloor] using h)
  | inode cl =>
    simp only [slotFloor, Bool.and_eq_true, decide_eq_true_eq] at h
    exact slotOk_inode cl h.1 h.2

/-- Reading back a written slot yields the written value or (out of
    range) a free slot; either is floor-clean when the value is. -/
theorem getSlot_setSlot_ok (p : Page) (i : Nat) (x : CLSlot) (h1 : 0 < i)
    (hx : SlotOk x) : SlotOk (getSlot (setSlot p i x) i) := by
  rcases le_or_lt i p.slots.length with h | h
  · rw [getSlot_setSlot_self p i x h1 h]
    exact hx
  · have hfree : getSlot (setSlot p i x) i = .free := by
      simp only [getSlot, setSlot, List.getD_eq_getElem?_getD]
      rw [List.getElem?_eq_none (by simp; omega)]
      rfl
    rw [hfree]
    exact slotOk_free

theorem testBit_or_two_pow_ne (m a i : Nat) (h : i ≠ a) :
    (m ||| 2 ^ a).testBit i = m.testBit i := by
  simp [Nat.testBit_or, Nat.testBit_two_pow]
  intro he
  exact absurd he.symm h

/-- clearBit is a pointwise bit operation. -/
theorem testBit_clearBit (m j : Nat) :
    ∀ i, (clearBit m j).testBit i = if i = j then false else m.testBit i := by
  intro i
  unfold clearBit
  by_cases hs : m.testBit j
  · rw [if_pos hs]
    have h1 : m / 2 ^ j % 2 = 1 := by
      simpa [Nat.testBit_to_div_mod] using hs
    have hle : 2 ^ j ≤ m := by
      by_contra hlt
      push_neg at hlt
      rw [Nat.div_eq_of_lt hlt] at h1
      simp at h1
    have hsplit : m = 2 ^ (j + 1) * (m / 2 ^ (j + 1)) + 2 ^ j + m % 2 ^ j := by
      have e1 := Nat.div_add_mod m (2 ^ (j + 1))
      have e4 : m % 2 ^ (j + 1) = m % 2 ^ j + 2 ^ j := by
        have e3 : (2 : Nat) ^ (j + 1) = 2 ^ j * 2 := by rw [Nat.pow_succ]
        rw [e3, Nat.mod_mul, h1]
        omega
      omega
    have hm2 : m - 2 ^ j = 2 ^ (j + 1) * (m / 2 ^ (j + 1)) + m % 2 ^ j := by
      omega
    have hmodlt : m % 2 ^ j < 2 ^ j := Nat.mod_lt _ (by positivity)
    rcases eq_or_ne i j with rfl | hne
    · rw [if_pos rfl, Nat.testBit_to_div_mod]
      have hdiv : (m - 2 ^ i) / 2 ^ i = 2 * (m / 2 ^ (i + 1)) := by
        rw [hm2]
        have e3 : 2 ^ (i + 1) * (m / 2 ^ (i + 1))
            = 2 ^ i * (2 * (m / 2 ^ (i + 1))) := by ring
        rw [e3, Nat.mul_add_div (by positivity)]
        rw [Nat.div_eq_of_lt hmodlt]
        omega
      rw [hdiv]
      simp
    · rw [if_neg hne]
      rcases Nat.lt_or_ge i j with hij | hij
      · have e1 : (m - 2 ^ j) % 2 ^ j = m % 2 ^ j := by
          rw [hm2]
          have e3 : 2 ^ (j + 1) * (m / 2 ^ (j + 1))
              = 2 ^ j * (2 * (m / 2 ^ (j + 1))) := by ring
          rw [e3, Nat.mul_add_mod]
          exact Nat.mod_eq_of_lt hmodlt
        have t1 := Nat.testBit_mod_two_pow (m - 2 ^ j) j i
        have t2 := Nat.testBit_mod_two_pow m j i
        rw [e1, t2] at t1
        simp [hij] at t1
        exact t1.symm
      · have hij2 : j + 1 ≤ i := by omega
        have d1 : (m - 2 ^ j) / 2 ^ (j + 1) = m / 2 ^ (j + 1) := by
          rw [hm2, Nat.mul_add_div (by positivity)]
          rw [Nat.div_eq_of_lt (lt_of_lt_of_le hmodlt
            (Nat.pow_le_pow_right (by norm_num) (by omega)))]
          omega
        have e5 : (2 : Nat) ^ i = 2 ^ (j + 1) * 2 ^ (i - (j + 1)) := by
          rw [← Nat.pow_add]
          congr 1
          omega
        rw [Nat.testBit_to_div_mod, Nat.testBit_to_div_mod, e5,
          ← Nat.div_div_eq_div_mul, ← Nat.div_div_eq_div_mul, d1]
  · rw [if_neg hs]
    rcases eq_or_ne i j with rfl | hne
    · rw [if_pos rfl]
      simpa using hs
    · rw [if_neg hne]

theorem slot_alloc_cases (p : Page) :
    ((slot_alloc p).1 = 0 ∧ (slot_alloc p).2 = p) ∨
    (1 ≤ (slot_alloc p).1 ∧
      p.slot_bitmap.testBit (slot_alloc p).1 = false ∧
      (slot_alloc p).2 = { p with
        slot_bitmap := p.slot_bitmap ||| 2 ^ (slot_alloc p).1,
        nslots_used := p.nslots_used + 1 }) := by
  unfold slot_alloc
  cases hfind : (List.range 64).find?
      (fun i => decide (0 < i) && ! p.slot_bitmap.testBit i) with
  | none => exact Or.inl ⟨rfl, rfl⟩
  | some a =>
    right
    have hp := List.find?_some hfind
    simp only [Bool.and_eq_true, decide_eq_true_eq, Bool.not_eq_true'] at hp
    exact ⟨by dsimp only; omega, hp.2, rfl⟩

theorem length_take_cons_drop {α : Type} (l : List α) (n : Nat) (x : α) :
    (l.take n ++ x :: l.drop n).length = l.length + 1 := by
  simp [List.length_append]
  omega

theorem cl_leaf_insert_len (cl : CLLeaf) (key : Int) :
    cl.keys.length ≤ (cl_leaf_insert cl key).2.keys.length := by
  unfold cl_leaf_insert
  by_cases h1 : cl_leaf_lower_bound cl key < cl.keys.length ∧
      cl.keys.getD (cl_leaf_lower_bound cl key) 0 = key
  · rw [if_pos h1]
  · rw [if_neg h1]
    by_cases h2 : MT_CL_KEY_CAP ≤ cl.keys.length
    · rw [if_pos h2]
    · rw [if_neg h2]
      show cl.keys.length ≤ (cl.keys.take _ ++ key :: cl.keys.drop _).length
      rw [length_take_cons_drop]
      omega

theorem cl_leaf_delete_len (cl : CLLeaf) (key : Int) :
    cl.keys.length - 1 ≤ (cl_leaf_delete cl key).2.keys.length := by
  unfold cl_leaf_delete
  by_cases h1 : cl.keys.length ≤ cl_leaf_lower_bound cl key ∨
      ¬ cl.keys.getD (cl_leaf_lower_bound cl key) 0 = key
  · rw [if_pos h1]
    dsimp only
    omega
  · rw [if_neg h1]
    show cl.keys.length - 1 ≤ (cl.keys.take _ ++ cl.keys.drop _).length
    simp [List.length_append]
    omega

theorem cl_leaf_insert_len_fresh (cl : CLLeaf) (key : Int)
    (h1 : key ∉ cl.keys) (h2 : cl.keys.length < MT_CL_KEY_CAP) :
    (cl_leaf_insert cl key).2.keys.length = cl.keys.length + 1 := by
  unfold cl_leaf_insert
  rw [if_neg ?_, if_neg (by omega)]
  · show (cl.keys.take _ ++ key :: cl.keys.drop _).length = _
    rw [length_take_cons_drop]
  · rintro ⟨hlt2, heq⟩
    apply h1
    rw [← heq, List.getD_eq_getElem?_getD, List.getElem?_eq_getElem hlt2]
    exact List.getElem_mem _

theorem isInternal_exists (s : CLSlot) (h : s.isInternal = true) :
    ∃ cl, s = .inode cl := by
  cases s <;> simp [CLSlot.isInternal] at h ⊢

theorem isLeafT_exists (s : CLSlot) (h : s.isLeafT = true) :
    ∃ cl, s = .leaf cl := by
  cases s <;> simp [CLSlot.isLeafT] at h ⊢

theorem setSlot_root (q : Page) (j : Nat) (x : CLSlot) :
    (setSlot q j x).root_slot = q.root_slot := rfl

theorem setSlot_bitmap (q : Page) (j : Nat) (x : CLSlot) :
    (setSlot q j x).slot_bitmap = q.slot_bitmap := rfl

theorem slot_alloc_root (p : Page) :
    (slot_alloc p).2.root_slot = p.root_slot := by
  rcases slot_alloc_cases p with ⟨_, h⟩ | ⟨_, _, h⟩ <;> rw [h]

/-- insertPropagate preserves the min-fill floor under the structural
    side conditions of insPropWF. -/
theorem insertPropagate_minFill :
    ∀ (rpath : List SubPath) (p : Page) (sep : Int) (right : Nat),
    MinFillSlots p → insPropWF p rpath sep right = true →
    MinFillSlots (insertPropagate p rpath sep right).2 := by
  intro rpath
  induction rpath with
  | nil =>
    intro p sep right hmf hwf
    simp only [insertPropagate]
    simp only [insPropWF, Bool.or_eq_true, Bool.not_eq_true'] at hwf
    rcases slot_alloc_cases p with ⟨h0, hp0⟩ | ⟨h1, hbit, hp2⟩
    · rw [if_pos h0, hp0]
      exact hmf
    · rw [if_neg (by omega)]
      intro i hi1 hne hbit2
      have hne' : i ≠ (slot_alloc p).1 := hne
      have hbit3 : p.slot_bitmap.testBit i = true := by
        have h4 : (slot_alloc p).2.slot_bitmap.testBit i = true := hbit2
        rw [hp2] at h4
        dsimp only at h4
        rw [testBit_or_two_pow_ne _ _ _ hne'] at h4
        exact h4
      have hget : getSlot (setSlot (slot_alloc p).2 (slot_alloc p).1
            (CLSlot.inode ⟨[sep], [(slot_alloc p).2.root_slot, right]⟩)) i
          = getSlot p i := by
        rw [getSlot_setSlot_ne _ _ _ _ (fun hh => hne' hh.symm) (by omega)
          (by omega), hp2]
        rfl
      show SlotOk (getSlot (setSlot (slot_alloc p).2 (slot_alloc p).1
        (CLSlot.inode ⟨[sep], [(slot_alloc p).2.root_slot, right]⟩)) i)
      rw [hget]
      rcases eq_or_ne i p.root_slot with rfl | hner
      · rcases hwf with hb | hfl
        · rw [hbit3] at hb
          exact absurd hb (by simp)
        · exact slotFloor_ok _ hfl
      · exact hmf i hi1 hner hbit3
  | cons e rest ih =>
    intro p sep right hmf hwf
    simp only [insertPropagate]
    simp only [insPropWF] at hwf
    by_cases hroomy : ((getSlot p e.slot).asInode).keys.length < MT_CL_SEP_CAP
    · rw [if_pos hroomy]
      rw [if_pos hroomy] at hwf
      simp only [Bool.and_eq_true, Bool.or_eq_true, Bool.not_eq_true',
        decide_eq_true_eq] at hwf
      obtain ⟨hes1, hcond⟩ := hwf
      intro i hi1 hne hbit
      have hne2 : i ≠ p.root_slot := hne
      have hbit2 : p.slot_bitmap.testBit i = true := hbit
      show SlotOk (getSlot (setSlot p e.slot (.inode
        (cl_inode_insert_at ((getSlot p e.slot).asInode) e.child_idx sep
          right))) i)
      rcases eq_or_ne i e.slot with heq | hine
      · rw [heq] at hbit2 hne2 ⊢
        rcases hcond with (hb | hroot) | hint
        · rw [hbit2] at hb
          exact absurd hb (by simp)
        · exact absurd hroot hne2
        · have hold := hmf e.slot (by omega) hne2 hbit2
          apply getSlot_setSlot_ok _ _ _ (by omega)
          obtain ⟨cl, hslot⟩ := isInternal_exists _ hint
          · rw [hslot] at hold
            obtain ⟨hch, hk⟩ := hold.2 (by simp [CLSlot.isInternal])
            rw [hslot]
            apply slotOk_inode
            · show MT_CL_MIN_CHILDREN ≤ (cl_inode_insert_at
                ((CLSlot.inode cl).asInode) e.child_idx sep
                  right).children.length
              simp only [cl_inode_insert_at, CLSlot.asInode]
              rw [length_take_cons_drop]
              simp only [CLSlot.asInode] at hch
              omega
            · show MT_CL_MIN_CHILDREN - 1 ≤ (cl_inode_insert_at
                ((CLSlot.inode cl).asInode) e.child_idx sep right).keys.length
              simp only [cl_inode_insert_at, CLSlot.asInode]
              rw [length_take_cons_drop]
              simp only [CLSlot.asInode] at hk
              omega
      · rw [getSlot_setSlot_ne _ _ _ _ (fun hh => hine hh.symm) (by omega)
          (by omega)]
        exact hmf i hi1 hne2 hbit2
    · rw [if_neg hroomy]
      rw [if_neg hroomy] at hwf
      rcases slot_alloc_cases p with ⟨h0, hp0⟩ | ⟨ha1, hbitf, hp2⟩
      · rw [if_pos h0] at hwf ⊢
        rw [hp0]
        exact hmf
      · rw [if_neg (by omega)] at hwf ⊢
        simp only [Bool.and_eq_true, decide_eq_true_eq] at hwf
        obtain ⟨⟨hes1, harity⟩, hwfrest⟩ := hwf
        apply ih _ _ _ ?_ hwfrest
        simp only [MT_CL_SEP_CAP] at hroomy
        intro i hi1 hne hbit
        rw [setSlot_root, setSlot_root, slot_alloc_root] at hne
        rw [setSlot_bitmap, setSlot_bitmap] at hbit
        have hne2 : i ≠ p.root_slot := hne
        have hka : (((getSlot p e.slot).asInode).keys.take e.child_idx ++
            sep :: ((getSlot p e.slot).asInode).keys.drop
              e.child_idx).length
            = ((getSlot p e.slot).asInode).keys.length + 1 :=
          length_take_cons_drop _ _ _
        have hca : (((getSlot p e.slot).asInode).children.take
              (e.child_idx + 1) ++
            right :: ((getSlot p e.slot).asInode).children.drop
              (e.child_idx + 1)).length
            = ((getSlot p e.slot).asInode).children.length + 1 :=
          length_take_cons_drop _ _ _
        rcases eq_or_ne i (slot_alloc p).1 with heq | hia
        · rw [heq]
          apply getSlot_setSlot_ok _ _ _ (by omega)
          apply slotOk_inode
          · show MT_CL_MIN_CHILDREN ≤ ((((getSlot p e.slot).asInode).children.take
                (e.child_idx + 1) ++
              right :: ((getSlot p e.slot).asInode).children.drop
                (e.child_idx + 1)).drop
              ((((getSlot p e.slot).asInode).keys.length + 1) / 2 + 1)).length
            rw [List.length_drop, hca, harity]
            simp only [MT_CL_MIN_CHILDREN]
            omega
          · show MT_CL_MIN_CHILDREN - 1 ≤ ((((getSlot p e.slot).asInode).keys.take
                e.child_idx ++
              sep :: ((getSlot p e.slot).asInode).keys.drop e.child_idx).drop
              ((((getSlot p e.slot).asInode).keys.length + 1) / 2 + 1)).length
            rw [List.length_drop, hka]
            simp only [MT_CL_MIN_CHILDREN]
            omega
        · have houter : getSlot (setSlot (setSlot (slot_alloc p).2 e.slot
              (.inode ⟨(((getSlot p e.slot).asInode).keys.take e.child_idx ++
                  sep :: ((getSlot p e.slot).asInode).keys.drop
                    e.child_idx).take
                  ((((getSlot p e.slot).asInode).keys.length + 1) / 2),
                (((getSlot p e.slot).asInode).children.take (e.child_idx + 1)
                    ++ right :: ((getSlot p e.slot).asInode).children.drop
                      (e.child_idx + 1)).take
                  ((((getSlot p e.slot).asInode).keys.length + 1) / 2 + 1)⟩))
              (slot_alloc p).1 (.inode
                ⟨(((getSlot p e.slot).asInode).keys.take e.child_idx ++
                    sep :: ((getSlot p e.slot).asInode).keys.drop
                      e.child_idx).drop
                    ((((getSlot p e.slot).asInode).keys.length + 1) / 2 + 1),
                  (((getSlot p e.slot).asInode).children.take (e.child_idx + 1)
                      ++ right :: ((getSlot p e.slot).asInode).children.drop
                        (e.child_idx + 1)).drop
                    ((((getSlot p e.slot).asInode).keys.length + 1) / 2
                      + 1)⟩)) i
              = getSlot (setSlot (slot_alloc p).2 e.slot
                (.inode ⟨(((getSlot p e.slot).asInode).keys.take e.child_idx ++
                    sep :: ((getSlot p e.slot).asInode).keys.drop
                      e.child_idx).take
                    ((((getSlot p e.slot).asInode).keys.length + 1) / 2),
                  (((getSlot p e.slot).asInode).children.take (e.child_idx + 1)
                      ++ right :: ((getSlot p e.slot).asInode).children.drop
                        (e.child_idx + 1)).take
                    ((((getSlot p e.slot).asInode).keys.length + 1) / 2
                      + 1)⟩)) i :=
            getSlot_setSlot_ne _ _ _ _ (fun hh => hia hh.symm) (by omega)
              (by omega)
          rw [houter]
          rcases eq_or_ne i e.slot with heq | hie
          · rw [heq]
            apply getSlot_setSlot_ok _ _ _ (by omega)
            apply slotOk_inode
            · show MT_CL_MIN_CHILDREN ≤ ((((getSlot p e.slot).asInode).children.take
                  (e.child_idx + 1) ++
                right :: ((getSlot p e.slot).asInode).children.drop
                  (e.child_idx + 1)).take
                ((((getSlot p e.slot).asInode).keys.length + 1) / 2 + 1)).length
              rw [List.length_take, hca, harity]
              simp only [MT_CL_MIN_CHILDREN]
              omega
            · show MT_CL_MIN_CHILDREN - 1 ≤ ((((getSlot p e.slot).asInode).keys.take
                  e.child_idx ++
                sep :: ((getSlot p e.slot).asInode).keys.drop e.child_idx).take
                ((((getSlot p e.slot).asInode).keys.length + 1) / 2)).length
              rw [List.length_take, hka]
              simp only [MT_CL_MIN_CHILDREN]
              omega
          · rw [getSlot_setSlot_ne _ _ _ _ (fun hh => hie hh.symm) (by omega)
              (by omega)]
            have hbit3 : p.slot_bitmap.testBit i = true := by
              have h4 : (slot_alloc p).2.slot_bitmap.testBit i = true := hbit
              rw [hp2] at h4
              dsimp only at h4
              rw [testBit_or_two_pow_ne _ _ _ hia] at h4
              exact h4
            have hget2 : getSlot (slot_alloc p).2 i = getSlot p i := by
              rw [hp2]
              rfl
            rw [hget2]
            exact hmf i hi1 hne2 hbit3

/-- mt_page_insert preserves the min-fill floor under the structural
    side conditions of mt_page_insert_wf. -/
theorem mt_page_insert_minFill (p : Page) (key : Int)
    (hmf : MinFillSlots p) (hwf : mt_page_insert_wf p key = true) :
    MinFillSlots (mt_page_insert p key).2 := by
  simp only [mt_page_insert]
  simp only [mt_page_insert_wf] at hwf
  by_cases hcap : ((getSlot p (page_find_leaf p key).1).asLeaf).keys.length
      < MT_CL_KEY_CAP
  · rw [if_pos hcap]
    rw [if_pos hcap] at hwf
    by_cases hdup : (cl_leaf_insert
        ((getSlot p (page_find_leaf p key).1).asLeaf) key).1 = -1
    · rw [if_pos hdup]
      exact hmf
    · rw [if_neg hdup] at hwf ⊢
      simp only [Bool.and_eq_true, Bool.or_eq_true, Bool.not_eq_true',
        decide_eq_true_eq] at hwf
      obtain ⟨hL1, hcond⟩ := hwf
      intro i hi1 hne hbit
      have hne2 : i ≠ p.root_slot := hne
      have hbit2 : p.slot_bitmap.testBit i = true := hbit
      show SlotOk (getSlot (setSlot p (page_find_leaf p key).1
        (.leaf (cl_leaf_insert
          ((getSlot p (page_find_leaf p key).1).asLeaf) key).2)) i)
      rcases eq_or_ne i (page_find_leaf p key).1 with heq | hine
      · rw [heq] at hbit2 hne2 ⊢
        rcases hcond with (hb | hroot) | hleafT
        · rw [hbit2] at hb
          exact absurd hb (by simp)
        · exact absurd hroot hne2
        · have hold := hmf (page_find_leaf p key).1 (by omega) hne2 hbit2
          apply getSlot_setSlot_ok _ _ _ (by omega)
          obtain ⟨cl, hslot⟩ := isLeafT_exists _ hleafT
          rw [hslot] at hold
          have h7 := hold.1 (by simp [CLSlot.isLeafT])
          rw [hslot]
          apply slotOk_leaf
          have hlen := cl_leaf_insert_len ((CLSlot.leaf cl).asLeaf) key
          simp only [CLSlot.asLeaf] at hlen h7 ⊢
          omega
      · rw [getSlot_setSlot_ne _ _ _ _ (fun hh => hine hh.symm) (by omega)
          (by omega)]
        exact hmf i hi1 hne2 hbit2
  · rw [if_neg hcap]
    rw [if_neg hcap] at hwf
    by_cases hdup2 : cl_leaf_lower_bound
        ((getSlot p (page_find_leaf p key).1).asLeaf) key <
        ((getSlot p (page_find_leaf p key).1).asLeaf).keys.length ∧
        ((getSlot p (page_find_leaf p key).1).asLeaf).keys.getD
          (cl_leaf_lower_bound
            ((getSlot p (page_find_leaf p key).1).asLeaf) key) 0 = key
    · rw [if_pos hdup2]
      exact hmf
    · rw [if_neg hdup2] at hwf ⊢
      rcases slot_alloc_cases p with ⟨h0, hp0⟩ | ⟨ha1, habit, hp2⟩
      · rw [if_pos h0] at hwf ⊢
        rw [hp0]
        exact hmf
      · rw [if_neg (by omega)] at hwf ⊢
        simp only [Bool.and_eq_true, decide_eq_true_eq] at hwf
        obtain ⟨hL1, hwfprop⟩ := hwf
        apply insertPropagate_minFill _ _ _ _ ?_ hwfprop
        simp only [MT_CL_KEY_CAP] at hcap
        have hhalf1 : MT_CL_MIN_KEYS ≤
            (if key < (cl_leaf_split
                ((getSlot p (page_find_leaf p key).1).asLeaf)).1 then
              ((cl_leaf_insert (cl_leaf_split
                ((getSlot p (page_find_leaf p key).1).asLeaf)).2.1 key).2,
               (cl_leaf_split
                ((getSlot p (page_find_leaf p key).1).asLeaf)).2.2)
            else
              ((cl_leaf_split
                ((getSlot p (page_find_leaf p key).1).asLeaf)).2.1,
               (cl_leaf_insert (cl_leaf_split
                ((getSlot p (page_find_leaf p key).1).asLeaf)).2.2
                 key).2)).1.keys.length := by
          have hsp1 : (cl_leaf_split
              ((getSlot p (page_find_leaf p key).1).asLeaf)).2.1.keys.length
              = ((getSlot p (page_find_leaf p key).1).asLeaf).keys.length / 2
              := by
            simp only [cl_leaf_split]
            simp [List.length_take]
            omega
          by_cases hk : key < (cl_leaf_split
              ((getSlot p (page_find_leaf p key).1).asLeaf)).1
          · rw [if_pos hk]
            have := cl_leaf_insert_len (cl_leaf_split
              ((getSlot p (page_find_leaf p key).1).asLeaf)).2.1 key
            simp only [MT_CL_MIN_KEYS]
            omega
          · rw [if_neg hk]
            simp only [MT_CL_MIN_KEYS]
            omega
        have hhalf2 : MT_CL_MIN_KEYS ≤
            (if key < (cl_leaf_split
                ((getSlot p (page_find_leaf p key).1).asLeaf)).1 then
              ((cl_leaf_insert (cl_leaf_split
                ((getSlot p (page_find_leaf p key).1).asLeaf)).2.1 key).2,
               (cl_leaf_split
                ((getSlot p (page_find_leaf p key).1).asLeaf)).2.2)
            else
              ((cl_leaf_split
                ((getSlot p (page_find_leaf p key).1).asLeaf)).2.1,
               (cl_leaf_insert (cl_leaf_split
                ((getSlot p (page_find_leaf p key).1).asLeaf)).2.2
                 key).2)).2.keys.length := by
          have hsp2 : (cl_leaf_split
              ((getSlot p (page_find_leaf p key).1).asLeaf)).2.2.keys.length
              = ((getSlot p (page_find_leaf p key).1).asLeaf).keys.length -
                ((getSlot p (page_find_leaf p key).1).asLeaf).keys.length / 2
              := by
            simp only [cl_leaf_split]
            simp [List.length_drop]
          by_cases hk : key < (cl_leaf_split
              ((getSlot p (page_find_leaf p key).1).asLeaf)).1
          · rw [if_pos hk]
            simp only [MT_CL_MIN_KEYS]
            omega
          · rw [if_neg hk]
            have := cl_leaf_insert_len (cl_leaf_split
              ((getSlot p (page_find_leaf p key).1).asLeaf)).2.2 key
            simp only [MT_CL_MIN_KEYS]
            omega
        intro i hi1 hne hbit
        rw [setSlot_root, setSlot_root, slot_alloc_root] at hne
        rw [setSlot_bitmap, setSlot_bitmap] at hbit
        have hne2 : i ≠ p.root_slot := hne
        show SlotOk (getSlot (setSlot (setSlot (slot_alloc p).2
          (page_find_leaf p key).1
          (.leaf (if key < (cl_leaf_split
                ((getSlot p (page_find_leaf p key).1).asLeaf)).1 then
              ((cl_leaf_insert (cl_leaf_split
                ((getSlot p (page_find_leaf p key).1).asLeaf)).2.1 key).2,
               (cl_leaf_split
                ((getSlot p (page_find_leaf p key).1).asLeaf)).2.2)
            else
              ((cl_leaf_split
                ((getSlot p (page_find_leaf p key).1).asLeaf)).2.1,
               (cl_leaf_insert (cl_leaf_split
                ((getSlot p (page_find_leaf p key).1).asLeaf)).2.2
                 key).2)).1))
          (slot_alloc p).1
          (.leaf (if key < (cl_leaf_split
                ((getSlot p (page_find_leaf p key).1).asLeaf)).1 then
              ((cl_leaf_insert (cl_leaf_split
                ((getSlot p (page_find_leaf p key).1).asLeaf)).2.1 key).2,
               (cl_leaf_split
                ((getSlot p (page_find_leaf p key).1).asLeaf)).2.2)
            else
              ((cl_leaf_split
                ((getSlot p (page_find_leaf p key).1).asLeaf)).2.1,
               (cl_leaf_insert (cl_leaf_split
                ((getSlot p (page_find_leaf p key).1).asLeaf)).2.2
                 key).2)).2)) i)
        rcases eq_or_ne i (slot_alloc p).1 with heq | hia
        · rw [heq]
          apply getSlot_setSlot_ok _ _ _ (by omega)
          exact slotOk_leaf _ hhalf2
        · rw [getSlot_setSlot_ne _ _ _ _ (fun hh => hia hh.symm) (by omega)
            (by omega)]
          rcases eq_or_ne i (page_find_leaf p key).1 with heq2 | hie
          · rw [heq2]
            apply getSlot_setSlot_ok _ _ _ (by omega)
            exact slotOk_leaf _ hhalf1
          · rw [getSlot_setSlot_ne _ _ _ _ (fun hh => hie hh.symm) (by omega)
              (by omega)]
            have hbit3 : p.slot_bitmap.testBit i = true := by
              have h4 : (slot_alloc p).2.slot_bitmap.testBit i = true := hbit
              rw [hp2] at h4
              dsimp only at h4
              rw [testBit_or_two_pow_ne _ _ _ hia] at h4
              exact h4
            have hget2 : getSlot (slot_alloc p).2 i = getSlot p i := by
              rw [hp2]
              rfl
            rw [hget2]
            exact hmf i hi1 hne2 hbit3

theorem slot_free_root (q : Page) (s : Nat) :
    (slot_free q s).root_slot = q.root_slot := rfl

theorem getSlot_slot_free (q : Page) (s i : Nat) :
    getSlot (slot_free q s) i = getSlot q i := rfl

/-- Page root collapse preserves the floor: the promoted child becomes
    the (exempt) root and the old root's bit is cleared. -/
theorem pageRootCollapse_minFill (p : Page) (hmf : MinFillSlots p) :
    MinFillSlots (pageRootCollapse p) := by
  unfold pageRootCollapse
  cases hr : getSlot p p.root_slot with
  | free => exact hmf
  | leaf cl => exact hmf
  | inode cl =>
    show MinFillSlots (if cl.keys.length = 0 ∧ 0 < p.sub_height then
      { (slot_free p p.root_slot) with
          root_slot := cl.children.getD 0 0,
          sub_height := p.sub_height - 1 }
      else p)
    by_cases hc : cl.keys.length = 0 ∧ 0 < p.sub_height
    · rw [if_pos hc]
      intro i hi1 hne hbit
      have hbit2 : (clearBit p.slot_bitmap p.root_slot).testBit i = true :=
        hbit
      rw [testBit_clearBit] at hbit2
      by_cases hir : i = p.root_slot
      · rw [if_pos hir] at hbit2
        exact absurd hbit2 (by simp)
      · rw [if_neg hir] at hbit2
        show SlotOk (getSlot p i)
        exact hmf i hi1 hir hbit2
    · rw [if_neg hc]
      exact hmf

/-- Three slot writes ending a rebalance step keep the floor when the
    written contents do. -/
theorem minFill_three_writes (p : Page) (s1 s2 s3 : Nat)
    (x1 x2 x3 : CLSlot) (h1 : 0 < s1) (h2 : 0 < s2) (h3 : 0 < s3)
    (hx1 : p.slot_bitmap.testBit s1 = true → s1 ≠ p.root_slot → SlotOk x1)
    (hx2 : p.slot_bitmap.testBit s2 = true → s2 ≠ p.root_slot → SlotOk x2)
    (hx3 : p.slot_bitmap.testBit s3 = true → s3 ≠ p.root_slot → SlotOk x3)
    (hrest : ∀ i, 1 ≤ i → i ≠ p.root_slot → i ≠ s1 → i ≠ s2 → i ≠ s3 →
      p.slot_bitmap.testBit i = true → SlotOk (getSlot p i)) :
    MinFillSlots (setSlot (setSlot (setSlot p s1 x1) s2 x2) s3 x3) := by
  intro i hi1 hne hbit
  have hne2 : i ≠ p.root_slot := hne
  have hbit2 : p.slot_bitmap.testBit i = true := hbit
  rcases eq_or_ne i s3 with heq3 | hi3
  · rw [heq3]
    apply getSlot_setSlot_ok _ _ _ (by omega)
    exact hx3 (heq3 ▸ hbit2) (heq3 ▸ hne2)
  · rw [getSlot_setSlot_ne _ _ _ _ (fun hh => hi3 hh.symm) (by omega)
      (by omega)]
    rcases eq_or_ne i s2 with heq2 | hi2
    · rw [heq2]
      apply getSlot_setSlot_ok _ _ _ (by omega)
      exact hx2 (heq2 ▸ hbit2) (heq2 ▸ hne2)
    · rw [getSlot_setSlot_ne _ _ _ _ (fun hh => hi2 hh.symm) (by omega)
        (by omega)]
      rcases eq_or_ne i s1 with heq1 | hi1x
      · rw [heq1]
        apply getSlot_setSlot_ok _ _ _ (by omega)
        exact hx1 (heq1 ▸ hbit2) (heq1 ▸ hne2)
      · rw [getSlot_setSlot_ne _ _ _ _ (fun hh => hi1x hh.symm) (by omega)
          (by omega)]
        exact hrest i hi1 hne2 hi1x hi2 hi3 hbit2

/-- A merge step (write survivor, free victim, rewrite parent) leaves
    every used slot other than the parent at the floor. -/
theorem minFillExcept_merge_writes (p : Page) (s1 f s2 : Nat)
    (x1 x2 : CLSlot) (h1 : 0 < s1) (h2 : 0 < s2)
    (hx1 : SlotOk x1)
    (hrest : ∀ i, 1 ≤ i → i ≠ p.root_slot → i ≠ s1 → i ≠ s2 → i ≠ f →
      p.slot_bitmap.testBit i = true → SlotOk (getSlot p i)) :
    MinFillExcept (setSlot (slot_free (setSlot p s1 x1) f) s2 x2) s2 := by
  intro i hi1 hne hns2 hbit
  have hne2 : i ≠ p.root_slot := hne
  have hbitc : (clearBit p.slot_bitmap f).testBit i = true := hbit
  rw [testBit_clearBit] at hbitc
  by_cases hif : i = f
  · rw [if_pos hif] at hbitc
    exact absurd hbitc (by simp)
  · rw [if_neg hif] at hbitc
    rw [getSlot_setSlot_ne _ _ _ _ (fun hh => hns2 hh.symm) (by omega)
      (by omega), getSlot_slot_free]
    rcases eq_or_ne i s1 with heq1 | hi1x
    · rw [heq1]
      apply getSlot_setSlot_ok _ _ _ (by omega)
      exact hx1
    · rw [getSlot_setSlot_ne _ _ _ _ (fun hh => hi1x hh.symm) (by omega)
        (by omega)]
      exact hrest i hi1 hne2 hi1x hns2 hif hbitc

/-- The delete-rebalance loop restores the min-fill floor under the
    structural side conditions of delRebWF. -/
theorem deleteRebalance_minFill :
    ∀ (rpath : List SubPath) (p : Page) (cur_slot : Nat),
    MinFillExcept p cur_slot → delRebWF p rpath cur_slot = true →
    MinFillSlots (deleteRebalance p rpath cur_slot) := by
  intro rpath
  induction rpath with
  | nil =>
    intro p cur_slot hmf hwf
    simp only [delRebWF, decide_eq_true_eq] at hwf
    simp only [deleteRebalance]
    intro i hi1 hne hbit
    exact hmf i hi1 hne (fun hh => hne (hh.trans hwf)) hbit
  | cons e rest ih =>
    intro p cur_slot hmf hwf
    simp only [deleteRebalance]
    simp only [delRebWF] at hwf
    by_cases hmin : (if (getSlot p cur_slot).isLeafT = true
        then MT_CL_MIN_KEYS else MT_CL_MIN_CHILDREN - 1) ≤
        (if (getSlot p cur_slot).isLeafT = true
        then (getSlot p cur_slot).asLeaf.keys.length
        else (getSlot p cur_slot).asInode.keys.length)
    · rw [if_pos hmin]
      rw [if_pos hmin] at hwf
      simp only [Bool.or_eq_true, Bool.not_eq_true', decide_eq_true_eq]
        at hwf
      intro i hi1 hne hbit
      rcases eq_or_ne i cur_slot with heq | hic
      · rcases hwf with (hb | hroot) | hfl
        · rw [heq] at hbit
          rw [hbit] at hb
          exact absurd hb (by simp)
        · exact absurd (heq.trans hroot) hne
        · rw [heq]
          exact slotFloor_ok _ hfl
      · exact hmf i hi1 hne hic hbit
    · rw [if_neg hmin]
      rw [if_neg hmin] at hwf
      by_cases hkind : (getSlot p cur_slot).isLeafT = true
      · rw [if_pos hkind]
        rw [if_pos hkind] at hwf
        obtain ⟨clc, hcur⟩ := isLeafT_exists _ hkind
        have hcurlen : ((getSlot p cur_slot).asLeaf).keys.length
            < MT_CL_MIN_KEYS := by
          rw [if_pos hkind, if_pos hkind] at hmin
          omega
        by_cases hcL : 0 < e.child_idx
        · rw [if_pos hcL]
          by_cases hlenL : MT_CL_MIN_KEYS <
              ((getSlot p (((getSlot p e.slot).asInode).children.getD
                (e.child_idx - 1) 0)).asLeaf).keys.length
          · rw [if_pos hlenL]
            rw [if_pos ⟨hcL, hlenL⟩] at hwf
            simp only [Bool.and_eq_true, Bool.or_eq_true, Bool.not_eq_true',
              decide_eq_true_eq, decide_eq_false_iff_not] at hwf
            obtain ⟨⟨⟨⟨⟨⟨hA, hB⟩, hC⟩, hD⟩, hE⟩, hF⟩, hG⟩ := hwf
            apply minFill_three_writes _ _ _ _ _ _ _ (by omega) (by omega)
              (by omega)
            · intro _ _
              apply slotOk_leaf
              show MT_CL_MIN_KEYS ≤ (((getSlot p (((getSlot p
                e.slot).asInode).children.getD (e.child_idx - 1)
                0)).asLeaf).keys.take
                ((((getSlot p (((getSlot p e.slot).asInode).children.getD
                  (e.child_idx - 1) 0)).asLeaf).keys.length) - 1)).length
              rw [List.length_take]
              simp only [MT_CL_MIN_KEYS] at hlenL ⊢
              omega
            · intro _ _
              apply slotOk_leaf
              rw [cl_leaf_insert_len_fresh _ _ hF (by
                simp only [MT_CL_MIN_KEYS, MT_CL_KEY_CAP] at hcurlen ⊢
                omega)]
              simp only [MT_CL_MIN_KEYS] at hE ⊢
              omega
            · intro hbitE hneE
              rcases hG with (hb | hroot) | hint
              · rw [hbitE] at hb
                exact absurd hb (by simp)
              · exact absurd hroot hneE
              · obtain ⟨cli, hslotE⟩ := isInternal_exists _ hint
                have hold := hmf e.slot (by omega) hneE hD hbitE
                rw [hslotE] at hold
                obtain ⟨hch, hk⟩ := hold.2 (by simp [CLSlot.isInternal])
                apply slotOk_inode
                · show MT_CL_MIN_CHILDREN ≤
                    ((getSlot p e.slot).asInode).children.length
                  rw [hslotE]
                  exact hch
                · show MT_CL_MIN_CHILDREN - 1 ≤
                    (((getSlot p e.slot).asInode).keys.set (e.child_idx - 1)
                      (((cl_leaf_insert ((getSlot p cur_slot).asLeaf)
                        (((getSlot p (((getSlot p
                          e.slot).asInode).children.getD (e.child_idx - 1)
                          0)).asLeaf).keys.getD
                          ((((getSlot p (((getSlot p
                            e.slot).asInode).children.getD (e.child_idx - 1)
                            0)).asLeaf).keys.length) - 1) 0)).2).keys.getD 0
                        0)).length
                  rw [List.length_set, hslotE]
                  exact hk
            · intro i hi1 hne2 hi1x hi2 hi3 hbit2
              exact hmf i hi1 hne2 hi2 hbit2
          · rw [if_neg hlenL]
            rw [if_neg (fun hh => hlenL hh.2)] at hwf
            by_cases hcR : e.child_idx < ((getSlot p e.slot).asInode).keys.length
            · rw [if_pos hcR]
              by_cases hlenR : MT_CL_MIN_KEYS <
                  ((getSlot p (((getSlot p e.slot).asInode).children.getD
                    (e.child_idx + 1) 0)).asLeaf).keys.length
              · rw [if_pos hlenR]
                rw [if_pos ⟨hcR, hlenR⟩] at hwf
                simp only [Bool.and_eq_true, Bool.or_eq_true, Bool.not_eq_true',
                  decide_eq_true_eq, decide_eq_false_iff_not] at hwf
                obtain ⟨⟨⟨⟨⟨⟨hA, hB⟩, hC⟩, hD⟩, hE⟩, hF⟩, hG⟩ := hwf
                apply minFill_three_writes _ _ _ _ _ _ _ (by omega) (by omega)
                  (by omega)
                · intro _ _
                  apply slotOk_leaf
                  have hdel := cl_leaf_delete_len ((getSlot p (((getSlot p
                    e.slot).asInode).children.getD (e.child_idx + 1)
                    0)).asLeaf)
                    ((((getSlot p (((getSlot p e.slot).asInode).children.getD
                      (e.child_idx + 1) 0)).asLeaf).keys.getD 0 0))
                  simp only [MT_CL_MIN_KEYS] at hlenR ⊢
                  omega
                · intro _ _
                  apply slotOk_leaf
                  rw [cl_leaf_insert_len_fresh _ _ hF (by
                    simp only [MT_CL_MIN_KEYS, MT_CL_KEY_CAP] at hcurlen ⊢
                    omega)]
                  simp only [MT_CL_MIN_KEYS] at hE ⊢
                  omega
                · intro hbitE hneE
                  rcases hG with (hb | hroot) | hint
                  · rw [hbitE] at hb
                    exact absurd hb (by simp)
                  · exact absurd hroot hneE
                  · obtain ⟨cli, hslotE⟩ := isInternal_exists _ hint
                    have hold := hmf e.slot (by omega) hneE hD hbitE
                    rw [hslotE] at hold
                    obtain ⟨hch, hk⟩ := hold.2 (by simp [CLSlot.isInternal])
                    apply slotOk_inode
                    · show MT_CL_MIN_CHILDREN ≤
                        ((getSlot p e.slot).asInode).children.length
                      rw [hslotE]
                      exact hch
                    · show MT_CL_MIN_CHILDREN - 1 ≤
                        (((getSlot p e.slot).asInode).keys.set e.child_idx
                          (((cl_leaf_delete ((getSlot p (((getSlot p
                            e.slot).asInode).children.getD (e.child_idx + 1)
                            0)).asLeaf)
                            (((getSlot p (((getSlot p
                              e.slot).asInode).children.getD (e.child_idx + 1)
                              0)).asLeaf).keys.getD 0 0)).2).keys.getD 0
                            0)).length
                      rw [List.length_set, hslotE]
                      exact hk
                · intro i hi1 hne2 hi1x hi2 hi3 hbit2
                  exact hmf i hi1 hne2 hi2 hbit2
              · rw [if_neg hlenR]
                rw [if_neg (fun hh => hlenR hh.2)] at hwf
                simp only [Bool.and_eq_true, decide_eq_true_eq] at hwf
                obtain ⟨⟨⟨hA, hB⟩, hC⟩, hD⟩ := hwf
                rw [if_pos hcL] at hC hD
                simp only [Bool.and_eq_true, decide_eq_true_eq] at hC
                rw [if_pos hcL]
                apply ih
                · apply minFillExcept_merge_writes _ _ _ _ _ _ (by omega)
                    (by omega)
                  · apply slotOk_leaf
                    show MT_CL_MIN_KEYS ≤ (((getSlot p (((getSlot p
                      e.slot).asInode).children.getD (e.child_idx - 1)
                      0)).asLeaf).keys ++
                      ((getSlot p cur_slot).asLeaf).keys).length
                    rw [List.length_append]
                    simp only [MT_CL_MIN_KEYS] at hC ⊢
                    omega
                  · intro i hi1 hne2 hi1x hi2 hif hbit2
                    exact hmf i hi1 hne2 hif hbit2
                · exact hD
            · rw [if_neg hcR]
              rw [if_neg (fun hh => hcR hh.1)] at hwf
              simp only [Bool.and_eq_true, decide_eq_true_eq] at hwf
              obtain ⟨⟨⟨hA, hB⟩, hC⟩, hD⟩ := hwf
              rw [if_pos hcL] at hC hD
              simp only [Bool.and_eq_true, decide_eq_true_eq] at hC
              rw [if_pos hcL]
              apply ih
              · apply minFillExcept_merge_writes _ _ _ _ _ _ (by omega)
                  (by omega)
                · apply slotOk_leaf
                  show MT_CL_MIN_KEYS ≤ (((getSlot p (((getSlot p
                    e.slot).asInode).children.getD (e.child_idx - 1)
                    0)).asLeaf).keys ++
                    ((getSlot p cur_slot).asLeaf).keys).length
                  rw [List.length_append]
                  simp only [MT_CL_MIN_KEYS] at hC ⊢
                  omega
                · intro i hi1 hne2 hi1x hi2 hif hbit2
                  exact hmf i hi1 hne2 hif hbit2
              · exact hD
        · rw [if_neg hcL]
          rw [if_neg (fun hh => hcL hh.1)] at hwf
          by_cases hcR : e.child_idx < ((getSlot p e.slot).asInode).keys.length
          · rw [if_pos hcR]
            by_cases hlenR : MT_CL_MIN_KEYS <
                ((getSlot p (((getSlot p e.slot).asInode).children.getD
                  (e.child_idx + 1) 0)).asLeaf).keys.length
            · rw [if_pos hlenR]
              rw [if_pos ⟨hcR, hlenR⟩] at hwf
              simp only [Bool.and_eq_true, Bool.or_eq_true, Bool.not_eq_true',
                decide_eq_true_eq, decide_eq_false_iff_not] at hwf
              obtain ⟨⟨⟨⟨⟨⟨hA, hB⟩, hC⟩, hD⟩, hE⟩, hF⟩, hG⟩ := hwf
              apply minFill_three_writes _ _ _ _ _ _ _ (by omega) (by omega)
                (by omega)
              · intro _ _
                apply slotOk_leaf
                have hdel := cl_leaf_delete_len ((getSlot p (((getSlot p
                  e.slot).asInode).children.getD (e.child_idx + 1)
                  0)).asLeaf)
                  ((((getSlot p (((getSlot p e.slot).asInode).children.getD
                    (e.child_idx + 1) 0)).asLeaf).keys.getD 0 0))
                simp only [MT_CL_MIN_KEYS] at hlenR ⊢
                omega
              · intro _ _
                apply slotOk_leaf
                rw [cl_leaf_insert_len_fresh _ _ hF (by
                  simp only [MT_CL_MIN_KEYS, MT_CL_KEY_CAP] at hcurlen ⊢
                  omega)]
                simp only [MT_CL_MIN_KEYS] at hE ⊢
                omega
              · intro hbitE hneE
                rcases hG with (hb | hroot) | hint
                · rw [hbitE] at hb
                  exact absurd hb (by simp)
                · exact absurd hroot hneE
                · obtain ⟨cli, hslotE⟩ := isInternal_exists _ hint
                  have hold := hmf e.slot (by omega) hneE hD hbitE
                  rw [hslotE] at hold
                  obtain ⟨hch, hk⟩ := hold.2 (by simp [CLSlot.isInternal])
                  apply slotOk_inode
                  · show MT_CL_MIN_CHILDREN ≤
                      ((getSlot p e.slot).asInode).children.length
                    rw [hslotE]
                    exact hch
                  · show MT_CL_MIN_CHILDREN - 1 ≤
                      (((getSlot p e.slot).asInode).keys.set e.child_idx
                        (((cl_leaf_delete ((getSlot p (((getSlot p
                          e.slot).asInode).children.getD (e.child_idx + 1)
                          0)).asLeaf)
                          (((getSlot p (((getSlot p
                            e.slot).asInode).children.getD (e.child_idx + 1)
                            0)).asLeaf).keys.getD 0 0)).2).keys.getD 0
                          0)).length
                    rw [List.length_set, hslotE]
                    exact hk
              · intro i hi1 hne2 hi1x hi2 hi3 hbit2
                exact hmf i hi1 hne2 hi2 hbit2
            · rw [if_neg hlenR]
              rw [if_neg (fun hh => hlenR hh.2)] at hwf
              simp only [Bool.and_eq_true, decide_eq_true_eq] at hwf
              obtain ⟨⟨⟨hA, hB⟩, hC⟩, hD⟩ := hwf
              rw [if_neg hcL] at hC hD
              simp only [Bool.and_eq_true, decide_eq_true_eq] at hC
              rw [if_neg hcL]
              apply ih
              · apply minFillExcept_merge_writes _ _ _ _ _ _ (by omega)
                  (by omega)
                · apply slotOk_leaf
                  show MT_CL_MIN_KEYS ≤ (((getSlot p cur_slot).asLeaf).keys ++
                    ((getSlot p (((getSlot p
                      e.slot).asInode).children.getD (e.child_idx + 1)
                      0)).asLeaf).keys).length
                  rw [List.length_append]
                  simp only [MT_CL_MIN_KEYS] at hC ⊢
                  omega
                · intro i hi1 hne2 hi1x hi2 hif hbit2
                  exact hmf i hi1 hne2 hi1x hbit2
              · exact hD
          · rw [if_neg hcR]
            rw [if_neg (fun hh => hcR hh.1)] at hwf
            simp only [Bool.and_eq_true, decide_eq_true_eq] at hwf
            obtain ⟨⟨⟨hA, hB⟩, hC⟩, hD⟩ := hwf
            rw [if_neg hcL] at hC hD
            simp only [Bool.and_eq_true, decide_eq_true_eq] at hC
            rw [if_neg hcL]
            apply ih
            · apply minFillExcept_merge_writes _ _ _ _ _ _ (by omega)
                (by omega)
              · apply slotOk_leaf
                show MT_CL_MIN_KEYS ≤ (((getSlot p cur_slot).asLeaf).keys ++
                  ((getSlot p (((getSlot p
                    e.slot).asInode).children.getD (e.child_idx + 1)
                    0)).asLeaf).keys).length
                rw [List.length_append]
                simp only [MT_CL_MIN_KEYS] at hC ⊢
                omega
              · intro i hi1 hne2 hi1x hi2 hif hbit2
                exact hmf i hi1 hne2 hi1x hbit2
            · exact hD
      · rw [if_neg hkind]
        rw [if_neg hkind] at hwf
        by_cases hcL : 0 < e.child_idx
        · rw [if_pos hcL]
          by_cases hlenL : MT_CL_MIN_CHILDREN - 1 <
              ((getSlot p (((getSlot p e.slot).asInode).children.getD
                (e.child_idx - 1) 0)).asInode).keys.length
          · rw [if_pos hlenL]
            rw [if_pos ⟨hcL, hlenL⟩] at hwf
            simp only [Bool.and_eq_true, Bool.or_eq_true, Bool.not_eq_true',
              decide_eq_true_eq] at hwf
            obtain ⟨⟨⟨⟨⟨⟨⟨hA, hB⟩, hC⟩, hD⟩, hE⟩, hF⟩, hG⟩, hH⟩ := hwf
            apply minFill_three_writes _ _ _ _ _ _ _ (by omega) (by omega)
              (by omega)
            · intro _ _
              apply slotOk_inode
              · show MT_CL_MIN_CHILDREN ≤ ((((getSlot p (((getSlot p
                  e.slot).asInode).children.getD (e.child_idx - 1)
                  0)).asInode).children.getD
                  (((getSlot p (((getSlot p e.slot).asInode).children.getD
                    (e.child_idx - 1) 0)).asInode).keys.length) 0) ::
                  ((getSlot p cur_slot).asInode).children).length
                rw [List.length_cons]
                simp only [MT_CL_MIN_CHILDREN] at hE hF ⊢
                omega
              · show MT_CL_MIN_CHILDREN - 1 ≤ ((((getSlot p
                  e.slot).asInode).keys.getD (e.child_idx - 1) 0) ::
                  ((getSlot p cur_slot).asInode).keys).length
                rw [List.length_cons]
                simp only [MT_CL_MIN_CHILDREN] at hE ⊢
                omega
            · intro hbitE hneE
              rcases hH with (hb | hroot) | hint
              · rw [hbitE] at hb
                exact absurd hb (by simp)
              · exact absurd hroot hneE
              · obtain ⟨cli, hslotE⟩ := isInternal_exists _ hint
                have hold := hmf e.slot (by omega) hneE hD hbitE
                rw [hslotE] at hold
                obtain ⟨hch, hk⟩ := hold.2 (by simp [CLSlot.isInternal])
                apply slotOk_inode
                · show MT_CL_MIN_CHILDREN ≤
                    ((getSlot p e.slot).asInode).children.length
                  rw [hslotE]
                  exact hch
                · show MT_CL_MIN_CHILDREN - 1 ≤
                    (((getSlot p e.slot).asInode).keys.set (e.child_idx - 1)
                      ((((getSlot p (((getSlot p e.slot).asInode).children.getD
                        (e.child_idx - 1) 0)).asInode).keys.getD
                        ((((getSlot p (((getSlot p e.slot).asInode).children.getD
                          (e.child_idx - 1) 0)).asInode).keys.length) - 1)
                        0))).length
                  rw [List.length_set, hslotE]
                  exact hk
            · intro _ _
              apply slotOk_inode
              · show MT_CL_MIN_CHILDREN ≤ (((getSlot p (((getSlot p
                  e.slot).asInode).children.getD (e.child_idx - 1)
                  0)).asInode).children.take
                  (((getSlot p (((getSlot p e.slot).asInode).children.getD
                    (e.child_idx - 1) 0)).asInode).keys.length)).length
                rw [List.length_take]
                simp only [MT_CL_MIN_CHILDREN] at hlenL hG ⊢
                omega
              · show MT_CL_MIN_CHILDREN - 1 ≤ (((getSlot p (((getSlot p
                  e.slot).asInode).children.getD (e.child_idx - 1)
                  0)).asInode).keys.take
                  ((((getSlot p (((getSlot p e.slot).asInode).children.getD
                    (e.child_idx - 1) 0)).asInode).keys.length) - 1)).length
                rw [List.length_take]
                simp only [MT_CL_MIN_CHILDREN] at hlenL ⊢
                omega
            · intro i hi1 hne2 hi1x hi2 hi3 hbit2
              exact hmf i hi1 hne2 hi1x hbit2
          · rw [if_neg hlenL]
            rw [if_neg (fun hh => hlenL hh.2)] at hwf
            by_cases hcR : e.child_idx < ((getSlot p e.slot).asInode).keys.length
            · rw [if_pos hcR]
              by_cases hlenR : MT_CL_MIN_CHILDREN - 1 <
                  ((getSlot p (((getSlot p e.slot).asInode).children.getD
                    (e.child_idx + 1) 0)).asInode).keys.length
              · rw [if_pos hlenR]
                rw [if_pos ⟨hcR, hlenR⟩] at hwf
                simp only [Bool.and_eq_true, Bool.or_eq_true, Bool.not_eq_true',
                  decide_eq_true_eq] at hwf
                obtain ⟨⟨⟨⟨⟨⟨⟨hA, hB⟩, hC⟩, hD⟩, hE⟩, hF⟩, hG⟩, hH⟩ := hwf
                apply minFill_three_writes _ _ _ _ _ _ _ (by omega) (by omega)
                  (by omega)
                · intro _ _
                  apply slotOk_inode
                  · show MT_CL_MIN_CHILDREN ≤ (((getSlot p cur_slot).asInode).children ++
                      [((getSlot p (((getSlot p e.slot).asInode).children.getD
                        (e.child_idx + 1) 0)).asInode).children.getD 0 0]).length
                    rw [List.length_append]
                    simp only [MT_CL_MIN_CHILDREN, List.length_cons, List.length_nil]
                      at hE hF ⊢
                    omega
                  · show MT_CL_MIN_CHILDREN - 1 ≤ (((getSlot p cur_slot).asInode).keys ++
                      [((getSlot p e.slot).asInode).keys.getD e.child_idx 0]).length
                    rw [List.length_append]
                    simp only [MT_CL_MIN_CHILDREN, List.length_cons, List.length_nil]
                      at hE ⊢
                    omega
                · intro hbitE hneE
                  rcases hH with (hb | hroot) | hint
                  · rw [hbitE] at hb
                    exact absurd hb (by simp)
                  · exact absurd hroot hneE
                  · obtain ⟨cli, hslotE⟩ := isInternal_exists _ hint
                    have hold := hmf e.slot (by omega) hneE hD hbitE
                    rw [hslotE] at hold
                    obtain ⟨hch, hk⟩ := hold.2 (by simp [CLSlot.isInternal])
                    apply slotOk_inode
                    · show MT_CL_MIN_CHILDREN ≤
                        ((getSlot p e.slot).asInode).children.length
                      rw [hslotE]
                      exact hch
                    · show MT_CL_MIN_CHILDREN - 1 ≤
                        (((getSlot p e.slot).asInode).keys.set e.child_idx
                          (((getSlot p (((getSlot p e.slot).asInode).children.getD
                            (e.child_idx + 1) 0)).asInode).keys.getD 0 0)).length
                      rw [List.length_set, hslotE]
                      exact hk
                · intro _ _
                  apply slotOk_inode
                  · show MT_CL_MIN_CHILDREN ≤ (((getSlot p (((getSlot p
                      e.slot).asInode).children.getD (e.child_idx + 1)
                      0)).asInode).children.drop 1).length
                    rw [List.length_drop]
                    simp only [MT_CL_MIN_CHILDREN] at hlenR hG ⊢
                    omega
                  · show MT_CL_MIN_CHILDREN - 1 ≤ (((getSlot p (((getSlot p
                      e.slot).asInode).children.getD (e.child_idx + 1)
                      0)).asInode).keys.drop 1).length
                    rw [List.length_drop]
                    simp only [MT_CL_MIN_CHILDREN] at hlenR ⊢
                    omega
                · intro i hi1 hne2 hi1x hi2 hi3 hbit2
                  exact hmf i hi1 hne2 hi1x hbit2
              · rw [if_neg hlenR]
                rw [if_neg (fun hh => hlenR hh.2)] at hwf
                simp only [Bool.and_eq_true, decide_eq_true_eq] at hwf
                obtain ⟨⟨⟨hA, hB⟩, hC⟩, hD⟩ := hwf
                rw [if_pos hcL] at hC hD
                simp only [Bool.and_eq_true, decide_eq_true_eq] at hC
                rw [if_pos hcL]
                apply ih
                · apply minFillExcept_merge_writes _ _ _ _ _ _ (by omega)
                    (by omega)
                  · apply slotOk_inode
                    · show MT_CL_MIN_CHILDREN ≤ (((getSlot p (((getSlot p
                        e.slot).asInode).children.getD (e.child_idx - 1)
                        0)).asInode).children ++
                        ((getSlot p cur_slot).asInode).children).length
                      rw [List.length_append]
                      simp only [MT_CL_MIN_CHILDREN] at hC ⊢
                      omega
                    · show MT_CL_MIN_CHILDREN - 1 ≤ (((getSlot p (((getSlot p
                        e.slot).asInode).children.getD (e.child_idx - 1)
                        0)).asInode).keys ++
                        ((((getSlot p e.slot).asInode).keys.getD (e.child_idx - 1) 0) ::
                          ((getSlot p cur_slot).asInode).keys)).length
                      rw [List.length_append, List.length_cons]
                      simp only [MT_CL_MIN_CHILDREN] at hC ⊢
                      omega
                  · intro i hi1 hne2 hi1x hi2 hif hbit2
                    exact hmf i hi1 hne2 hif hbit2
                · exact hD
            · rw [if_neg hcR]
              rw [if_neg (fun hh => hcR hh.1)] at hwf
              simp only [Bool.and_eq_true, decide_eq_true_eq] at hwf
              obtain ⟨⟨⟨hA, hB⟩, hC⟩, hD⟩ := hwf
              rw [if_pos hcL] at hC hD
              simp only [Bool.and_eq_true, decide_eq_true_eq] at hC
              rw [if_pos hcL]
              apply ih
              · apply minFillExcept_merge_writes _ _ _ _ _ _ (by omega)
                  (by omega)
                · apply slotOk_inode
                  · show MT_CL_MIN_CHILDREN ≤ (((getSlot p (((getSlot p
                      e.slot).asInode).children.getD (e.child_idx - 1)
                      0)).asInode).children ++
                      ((getSlot p cur_slot).asInode).children).length
                    rw [List.length_append]
                    simp only [MT_CL_MIN_CHILDREN] at hC ⊢
                    omega
                  · show MT_CL_MIN_CHILDREN - 1 ≤ (((getSlot p (((getSlot p
                      e.slot).asInode).children.getD (e.child_idx - 1)
                      0)).asInode).keys ++
                      ((((getSlot p e.slot).asInode).keys.getD (e.child_idx - 1) 0) ::
                        ((getSlot p cur_slot).asInode).keys)).length
                    rw [List.length_append, List.length_cons]
                    simp only [MT_CL_MIN_CHILDREN] at hC ⊢
                    omega
                · intro i hi1 hne2 hi1x hi2 hif hbit2
                  exact hmf i hi1 hne2 hif hbit2
              · exact hD
        · rw [if_neg hcL]
          rw [if_neg (fun hh => hcL hh.1)] at hwf
          by_cases hcR : e.child_idx < ((getSlot p e.slot).asInode).keys.length
          · rw [if_pos hcR]
            by_cases hlenR : MT_CL_MIN_CHILDREN - 1 <
                ((getSlot p (((getSlot p e.slot).asInode).children.getD
                  (e.child_idx + 1) 0)).asInode).keys.length
            · rw [if_pos hlenR]
              rw [if_pos ⟨hcR, hlenR⟩] at hwf
              simp only [Bool.and_eq_true, Bool.or_eq_true, Bool.not_eq_true',
                decide_eq_true_eq] at hwf
              obtain ⟨⟨⟨⟨⟨⟨⟨hA, hB⟩, hC⟩, hD⟩, hE⟩, hF⟩, hG⟩, hH⟩ := hwf
              apply minFill_three_writes _ _ _ _ _ _ _ (by omega) (by omega)
                (by omega)
              · intro _ _
                apply slotOk_inode
                · show MT_CL_MIN_CHILDREN ≤ (((getSlot p cur_slot).asInode).children ++
                    [((getSlot p (((getSlot p e.slot).asInode).children.getD
                      (e.child_idx + 1) 0)).asInode).children.getD 0 0]).length
                  rw [List.length_append]
                  simp only [MT_CL_MIN_CHILDREN, List.length_cons, List.length_nil]
                    at hE hF ⊢
                  omega
                · show MT_CL_MIN_CHILDREN - 1 ≤ (((getSlot p cur_slot).asInode).keys ++
                    [((getSlot p e.slot).asInode).keys.getD e.child_idx 0]).length
                  rw [List.length_append]
                  simp only [MT_CL_MIN_CHILDREN, List.length_cons, List.length_nil]
                    at hE ⊢
                  omega
              · intro hbitE hneE
                rcases hH with (hb | hroot) | hint
                · rw [hbitE] at hb
                  exact absurd hb (by simp)
                · exact absurd hroot hneE
                · obtain ⟨cli, hslotE⟩ := isInternal_exists _ hint
                  have hold := hmf e.slot (by omega) hneE hD hbitE
                  rw [hslotE] at hold
                  obtain ⟨hch, hk⟩ := hold.2 (by simp [CLSlot.isInternal])
                  apply slotOk_inode
                  · show MT_CL_MIN_CHILDREN ≤
                      ((getSlot p e.slot).asInode).children.length
                    rw [hslotE]
                    exact hch
                  · show MT_CL_MIN_CHILDREN - 1 ≤
                      (((getSlot p e.slot).asInode).keys.set e.child_idx
                        (((getSlot p (((getSlot p e.slot).asInode).children.getD
                          (e.child_idx + 1) 0)).asInode).keys.getD 0 0)).length
                    rw [List.length_set, hslotE]
                    exact hk
              · intro _ _
                apply slotOk_inode
                · show MT_CL_MIN_CHILDREN ≤ (((getSlot p (((getSlot p
                    e.slot).asInode).children.getD (e.child_idx + 1)
                    0)).asInode).children.drop 1).length
                  rw [List.length_drop]
                  simp only [MT_CL_MIN_CHILDREN] at hlenR hG ⊢
                  omega
                · show MT_CL_MIN_CHILDREN - 1 ≤ (((getSlot p (((getSlot p
                    e.slot).asInode).children.getD (e.child_idx + 1)
                    0)).asInode).keys.drop 1).length
                  rw [List.length_drop]
                  simp only [MT_CL_MIN_CHILDREN] at hlenR ⊢
                  omega
              · intro i hi1 hne2 hi1x hi2 hi3 hbit2
                exact hmf i hi1 hne2 hi1x hbit2
            · rw [if_neg hlenR]
              rw [if_neg (fun hh => hlenR hh.2)] at hwf
              simp only [Bool.and_eq_true, decide_eq_true_eq] at hwf
              obtain ⟨⟨⟨hA, hB⟩, hC⟩, hD⟩ := hwf
              rw [if_neg hcL] at hC hD
              simp only [Bool.and_eq_true, decide_eq_true_eq] at hC
              rw [if_neg hcL]
              apply ih
              · apply minFillExcept_merge_writes _ _ _ _ _ _ (by omega)
                  (by omega)
                · apply slotOk_inode
                  · show MT_CL_MIN_CHILDREN ≤ (((getSlot p cur_slot).asInode).children ++
                      ((getSlot p (((getSlot p e.slot).asInode).children.getD
                        (e.child_idx + 1) 0)).asInode).children).length
                    rw [List.length_append]
                    simp only [MT_CL_MIN_CHILDREN] at hC ⊢
                    omega
                  · show MT_CL_MIN_CHILDREN - 1 ≤ (((getSlot p cur_slot).asInode).keys ++
                      ((((getSlot p e.slot).asInode).keys.getD e.child_idx 0) ::
                        ((getSlot p (((getSlot p e.slot).asInode).children.getD
                          (e.child_idx + 1) 0)).asInode).keys)).length
                    rw [List.length_append, List.length_cons]
                    simp only [MT_CL_MIN_CHILDREN] at hC ⊢
                    omega
                · intro i hi1 hne2 hi1x hi2 hif hbit2
                  exact hmf i hi1 hne2 hi1x hbit2
              · exact hD
          · rw [if_neg hcR]
            rw [if_neg (fun hh => hcR hh.1)] at hwf
            simp only [Bool.and_eq_true, decide_eq_true_eq] at hwf
            obtain ⟨⟨⟨hA, hB⟩, hC⟩, hD⟩ := hwf
            rw [if_neg hcL] at hC hD
            simp only [Bool.and_eq_true, decide_eq_true_eq] at hC
            rw [if_neg hcL]
            apply ih
            · apply minFillExcept_merge_writes _ _ _ _ _ _ (by omega)
                (by omega)
              · apply slotOk_inode
                · show MT_CL_MIN_CHILDREN ≤ (((getSlot p cur_slot).asInode).children ++
                    ((getSlot p (((getSlot p e.slot).asInode).children.getD
                      (e.child_idx + 1) 0)).asInode).children).length
                  rw [List.length_append]
                  simp only [MT_CL_MIN_CHILDREN] at hC ⊢
                  omega
                · show MT_CL_MIN_CHILDREN - 1 ≤ (((getSlot p cur_slot).asInode).keys ++
                    ((((getSlot p e.slot).asInode).keys.getD e.child_idx 0) ::
                      ((getSlot p (((getSlot p e.slot).asInode).children.getD
                        (e.child_idx + 1) 0)).asInode).keys)).length
                  rw [List.length_append, List.length_cons]
                  simp only [MT_CL_MIN_CHILDREN] at hC ⊢
                  omega
              · intro i hi1 hne2 hi1x hi2 hif hbit2
                exact hmf i hi1 hne2 hi1x hbit2
            · exact hD
/-- An empty descent path means the walk started at height 0, so the
    reached leaf slot is the page's root slot. -/
theorem page_find_leaf_nil (p : Page) (key : Int)
    (h : (page_find_leaf p key).2.length = 0) :
    (page_find_leaf p key).1 = p.root_slot := by
  unfold page_find_leaf at h ⊢
  cases hh : p.sub_height with
  | zero => rfl
  | succ n =>
    rw [hh] at h
    simp [findLeafAux] at h

/-- The header key count does not affect the min-fill property. -/
theorem minFill_nkeys (q : Page) (n : Nat) (h : MinFillSlots q) :
    MinFillSlots { q with
      nkeys := n } :=
  fun i hi1 hne hbit => h i hi1 hne hbit

/-- The header key count does not affect min-fill-except. -/
theorem minFillExcept_nkeys (q : Page) (n x : Nat)
    (h : MinFillExcept q x) :
    MinFillExcept { q with
      nkeys := n } x :=
  fun i hi1 hne hx hbit => h i hi1 hne hx hbit

/-- Writing one slot preserves the floor when the written content is
    itself at the floor (or lands on the root). -/
theorem minFill_setSlot (p : Page) (s : Nat) (x : CLSlot)
    (hs : 0 < s) (hmf : MinFillSlots p)
    (hx : s ≠ p.root_slot → SlotOk x) :
    MinFillSlots (setSlot p s x) := by
  intro i hi1 hne hbit
  have hne2 : i ≠ p.root_slot := hne
  have hbit2 : p.slot_bitmap.testBit i = true := hbit
  show SlotOk (getSlot (setSlot p s x) i)
  rcases eq_or_ne i s with heq | hineq
  · rw [heq]
    exact getSlot_setSlot_ok p s x hs (hx (heq ▸ hne2))
  · rw [getSlot_setSlot_ne p s i x (fun hh => hineq hh.symm) hs
      (by omega)]
    exact hmf i hi1 hne2 hbit2

/-- Writing one slot always preserves the floor on the other slots. -/
theorem minFillExcept_setSlot (p : Page) (s : Nat) (x : CLSlot)
    (hs : 0 < s) (hmf : MinFillSlots p) :
    MinFillExcept (setSlot p s x) s := by
  intro i hi1 hne hix hbit
  have hne2 : i ≠ p.root_slot := hne
  have hbit2 : p.slot_bitmap.testBit i = true := hbit
  show SlotOk (getSlot (setSlot p s x) i)
  rw [getSlot_setSlot_ne p s i x (fun hh => hix hh.symm) hs (by omega)]
  exact hmf i hi1 hne2 hbit2

/-- mt_page_delete preserves the min-fill floor under the structural
    side conditions of mt_page_delete_wf. -/
theorem mt_page_delete_minFill (p : Page) (key : Int) (hier : Hierarchy)
    (hmf : MinFillSlots p) (hwf : mt_page_delete_wf p key = true) :
    MinFillSlots (mt_page_delete p key hier).2 := by
  simp only [mt_page_delete]
  simp only [mt_page_delete_wf] at hwf
  by_cases hneg : (cl_leaf_delete
      ((getSlot p (page_find_leaf p key).1).asLeaf) key).1 < 0
  · rw [if_pos hneg]
    exact hmf
  · rw [if_neg hneg]
    rw [if_neg hneg] at hwf
    by_cases hlen0 : ((page_find_leaf p key).2).length = 0
    · rw [if_pos hlen0]
      rw [if_pos hlen0] at hwf
      simp only [decide_eq_true_eq] at hwf
      have hroot := page_find_leaf_nil p key hlen0
      apply minFill_nkeys
      apply minFill_setSlot _ _ _ (by omega) hmf
      intro hne2
      exact absurd hroot hne2
    · rw [if_neg hlen0]
      rw [if_neg hlen0] at hwf
      by_cases hmk : MT_CL_MIN_KEYS ≤ (cl_leaf_delete
          ((getSlot p (page_find_leaf p key).1).asLeaf) key).2.keys.length
      · rw [if_pos hmk]
        rw [if_pos hmk] at hwf
        simp only [decide_eq_true_eq] at hwf
        apply minFill_nkeys
        apply minFill_setSlot _ _ _ (by omega) hmf
        intro _
        exact slotOk_leaf _ hmk
      · rw [if_neg hmk]
        rw [if_neg hmk] at hwf
        simp only [Bool.and_eq_true, decide_eq_true_eq] at hwf
        obtain ⟨hwf1, hwf2⟩ := hwf
        apply pageRootCollapse_minFill
        apply deleteRebalance_minFill _ _ _ _ hwf2
        apply minFillExcept_nkeys
        apply minFillExcept_setSlot _ _ _ (by omega) hmf


/-- C8 (amended): the minimum-fill floor the code actually maintains
    is MT_CL_MIN_KEYS = 7 keys for a non-root CL leaf and
    MT_CL_MIN_CHILDREN = 7 children — that is, at least 6 separator
    entries — for a non-root CL internal (the claimed symmetric 7/7
    floor is off by one on internals: see c8_counterexample).  The
    floor is an invariant of the page operations: it holds on every
    bulk-loaded page of 1–855 keys — the constructor through which
    every page (re)build goes, including the tree-level page splits
    and the leaf rebalance that re-bulk-load pages — it holds on both
    halves mt_page_split produces, and it is preserved by in-page
    insert and delete under the executable structural side conditions
    mt_page_insert_wf and mt_page_delete_wf, which hold in well-formed
    states. -/
theorem c8_min_fill_amended (keys : List Int) (p : Page) (key : Int)
    (hier : Hierarchy)
    (h1 : 1 ≤ keys.length) (h855 : keys.length ≤ 855)
    (hs2 : 2 ≤ (mt_page_extract_sorted p).length)
    (hs1710 : (mt_page_extract_sorted p).length ≤ 1710)
    (hmf : MinFillSlots p)
    (hiwf : mt_page_insert_wf p key = true)
    (hdwf : mt_page_delete_wf p key = true) :
    MinFillSlots (mt_page_bulk_load keys) ∧
    (MinFillSlots (mt_page_split p).2.1 ∧
      MinFillSlots (mt_page_split p).2.2) ∧
    MinFillSlots (mt_page_insert p key).2 ∧
    MinFillSlots (mt_page_delete p key hier).2 := by
  refine ⟨(mt_page_bulk_load_spec keys h1 h855).2.2.2.2, ⟨?_, ?_⟩,
    mt_page_insert_minFill p key hmf hiwf,
    mt_page_delete_minFill p key hier hmf hdwf⟩
  · show MinFillSlots (mt_page_bulk_load
      ((mt_page_extract_sorted p).take
        ((mt_page_extract_sorted p).length / 2)))
    exact (mt_page_bulk_load_spec _
      (by rw [List.length_take]; omega)
      (by rw [List.length_take]; omega)).2.2.2.2
  · show MinFillSlots (mt_page_bulk_load
      ((mt_page_extract_sorted p).drop
        ((mt_page_extract_sorted p).length / 2)))
    exact (mt_page_bulk_load_spec _
      (by rw [List.length_drop]; omega)
      (by rw [List.length_drop]; omega)).2.2.2.2

/-- Witness for the amended C8 on concrete pages: a fresh bulk load,
    the split of a two-key page, and an insert and a delete into it. -/
theorem c8_min_fill_amended_witness :
    MinFillSlots (mt_page_bulk_load [3]) ∧
    (MinFillSlots (mt_page_split (mt_page_bulk_load [0, 10])).2.1 ∧
      MinFillSlots (mt_page_split (mt_page_bulk_load [0, 10])).2.2) ∧
    MinFillSlots (mt_page_insert (mt_page_bulk_load [0, 10]) 5).2 ∧
    MinFillSlots (mt_page_delete (mt_page_bulk_load [0, 10]) 5
      mt_hierarchy_init_default).2 :=
  c8_min_fill_amended [3] (mt_page_bulk_load [0, 10]) 5
    mt_hierarchy_init_default (by decide) (by decide) (by decide)
    (by decide)
    ((mt_page_bulk_load_spec [0, 10] (by decide) (by decide)).2.2.2.2)
    (by decide) (by decide)

end Matryoshka
